import Mathlib

/-!
# Verification of the rust-import organizer core

A shallow embedding, in Lean 4, of the parsing / canonicalization / merge
engine of the `vscode-rust-import` repository, together with theorems that
settle the frozen claims C1–C10 about it.

The embedding follows the TypeScript sources:
* the data model (`src/parser/types.ts`, current generation),
* the merge engine (`expandToFlatImports`, `getFlatImportKey`, `mergeAlias`,
  `mergeFlatImports`, `buildUseTree`, `mergeUseStatements`,
  `mergeGroupedStatements`, `needsBraces`),
* the sorter (`sortUseTree`, `sortUseStatements`),
* the tokenizer / recursive-descent tree parser / file scanner
  (`tokenize`, `UseTreeParser`, `parseUseStatement`, `parseRustFile`),
* the unused-import filter (`rangeContainedInSpans`, `filterUnusedImports`),
* the formatter (`formatUseTree`, `formatBracedChildren`,
  `formatUseStatement`).

JavaScript `Map` objects (insertion ordered) are modelled as association
lists with in-place update; JavaScript's stable `Array.sort` is modelled as
a stable insertion sort; `localeCompare` on the ASCII identifier segments
appearing here is modelled as code-point lexicographic comparison.
-/

set_option autoImplicit false

universe u

namespace RustImport

variable {α : Type u}

/-! ## Generic helpers: association lists (JS `Map`) and stable sort -/

/-- First binding for a key, like `Map.get`. -/
def alistGet (l : List (String × α)) (k : String) : Option α :=
  match l with
  | [] => none
  | (k', v) :: rest => if k' = k then some v else alistGet rest k

/-- `Map.set`: replace in place if the key is present (JS `Map` keeps the
original insertion position on update), otherwise append. -/
def alistSet (l : List (String × α)) (k : String) (v : α) : List (String × α) :=
  match l with
  | [] => [(k, v)]
  | (k', v') :: rest =>
      if k' = k then (k', v) :: rest else (k', v') :: alistSet rest k v

/-- Model of `String.prototype.localeCompare` restricted to the ASCII
identifier segments this program compares: code-point lexicographic order. -/
def localeCompare (a b : String) : Int :=
  if a < b then -1 else if b < a then 1 else 0

/-- Stable insert for insertion sort: a later element lands after every
already-placed element that does not compare strictly greater. -/
def insertSorted (cmp : α → α → Int) (x : α) : List α → List α
  | [] => [x]
  | y :: ys => if cmp y x ≤ 0 then y :: insertSorted cmp x ys else x :: y :: ys

/-- Model of JS stable `Array.prototype.sort` with comparator `cmp`. -/
def sortByCmp (cmp : α → α → Int) (l : List α) : List α :=
  l.foldl (fun acc x => insertSorted cmp x acc) []

/-! ## Data model (parser/types.ts, current generation) -/

/-- 0-indexed position in a document. -/
structure Pos where
  line : Nat
  column : Nat
deriving DecidableEq, Repr

/-- Range in a document; start inclusive, end exclusive.  The source field
`end` is a Lean keyword, rendered here as `stop`. -/
structure Rng where
  start : Pos
  stop : Pos
deriving DecidableEq, Repr

/-- One path segment, with optional rename alias and source range. -/
structure UsePathSegment where
  name : String
  al : Option String := none
  range : Option Rng := none
deriving DecidableEq, Repr

/-- A use-tree node.  `children = none` models an absent (`undefined`)
children array; the current-generation parser and merger also distinguish
an (unused, legacy) `isSelf` flag that newer code leaves `false`. -/
inductive UseTree where
  | mk (segment : UsePathSegment) (children : Option (List UseTree))
      (isGlob : Bool) (isSelf : Bool)
deriving Repr

def UseTree.segment : UseTree → UsePathSegment
  | .mk s _ _ _ => s

def UseTree.children : UseTree → Option (List UseTree)
  | .mk _ c _ _ => c

def UseTree.isGlob : UseTree → Bool
  | .mk _ _ g _ => g

def UseTree.isSelf : UseTree → Bool
  | .mk _ _ _ s => s

/-- Flattened canonical import: full path (with a terminal marker as the
last element), alias, glob flag and per-segment source spans. -/
structure FlatImport where
  path : List String
  al : Option String := none
  isGlob : Bool := false
  spans : List Rng := []
deriving DecidableEq, Repr

/-- A complete use statement with metadata. -/
structure UseStatement where
  visibility : Option String := none
  tree : UseTree
  attributes : Option (List String) := none
  range : Rng
  blockId : Option Nat := none
deriving Repr

/-! ### Sorting infrastructure lemmas (termination of tree recursions) -/

theorem insertSorted_perm (cmp : α → α → Int) (x : α) (l : List α) :
    (insertSorted cmp x l).Perm (x :: l) := by
  induction l with
  | nil => simp [insertSorted]
  | cons y ys ih =>
      simp only [insertSorted]
      split
      · exact ((ih.cons y).trans (List.Perm.swap x y ys)).symm.symm
      · exact List.Perm.refl _

theorem sortByCmp_perm (cmp : α → α → Int) (l : List α) :
    (sortByCmp cmp l).Perm l := by
  suffices h : ∀ (l acc : List α),
      (l.foldl (fun acc x => insertSorted cmp x acc) acc).Perm (acc ++ l) by
    simpa using h l []
  intro l
  induction l with
  | nil => intro acc; simp
  | cons x xs ih =>
      intro acc
      simp only [List.foldl_cons]
      refine (ih _).trans ?_
      refine (List.Perm.append_right xs (insertSorted_perm cmp x acc)).trans ?_
      exact List.perm_middle.symm

theorem mem_of_mem_sortByCmp {cmp : α → α → Int} {l : List α} {x : α}
    (h : x ∈ sortByCmp cmp l) : x ∈ l :=
  (sortByCmp_perm cmp l).mem_iff.mp h

theorem sizeOf_snd_lt_of_mem {k : String} {c : α} [SizeOf α]
    {l : List (String × α)} (h : (k, c) ∈ l) : sizeOf c < sizeOf l := by
  have h1 := List.sizeOf_lt_of_mem h
  have h2 : sizeOf (k, c) = 1 + sizeOf k + sizeOf c := rfl
  omega

theorem sizeOf_lt_of_mem_children {c : UseTree} {cs : List UseTree}
    (h : c ∈ cs) : sizeOf c < 1 + sizeOf cs := by
  have := List.sizeOf_lt_of_mem h
  omega

/-! ## Merge engine (transformer/merger.ts, current generation: part_010) -/

/-- `getRootPath` (parser/useParser.ts): root segment name of a tree. -/
def getRootPath (tree : UseTree) : String :=
  tree.segment.name

/-- `expandToFlatImports`: expand a `UseTree` into flat imports (canonical
form).  An explicit `self` keyword stays `"self"` in the path, a terminal
node appends `""` as terminal marker, a glob appends `"*"` with the flag. -/
def expandToFlatImports (tree : UseTree) (pfx : List String := [])
    (pfxSpans : List Rng := []) : List FlatImport :=
  match tree with
  | .mk seg children glob _slf =>
    let currentSpan := seg.range
    if seg.name = "self" then
      let spans := match currentSpan with
        | some r => pfxSpans ++ [r]
        | none => pfxSpans
      [{ path := pfx ++ ["self"], al := seg.al, spans := spans }]
    else if glob then
      let spans := match currentSpan with
        | some r => pfxSpans ++ [r]
        | none => pfxSpans
      [{ path := pfx ++ ["*"], isGlob := true, spans := spans }]
    else
      let currentPath := pfx ++ [seg.name]
      let currentSpans := match currentSpan with
        | some r => pfxSpans ++ [r]
        | none => pfxSpans
      match children with
      | none =>
          [{ path := currentPath ++ [""], al := seg.al, spans := currentSpans }]
      | some cs =>
          if cs.isEmpty then
            [{ path := currentPath ++ [""], al := seg.al, spans := currentSpans }]
          else
            cs.attach.flatMap fun c =>
              expandToFlatImports c.1 currentPath currentSpans
termination_by sizeOf tree
decreasing_by
  have h := sizeOf_lt_of_mem_children c.2
  have hs : sizeOf (some cs) = 1 + sizeOf cs := by simp
  simp only [UseTree.mk.sizeOf_spec, hs]
  omega

/-- `getFlatImportKey`: dedup key — the path joined by `::`, plus a `::*`
suffix for glob imports. -/
def getFlatImportKey (imp : FlatImport) : String :=
  String.intercalate "::" imp.path ++ (if imp.isGlob then "::*" else "")

/-- `mergeAlias`: merge with priority explicit alias > no alias > `"_"`. -/
def mergeAlias (existing incoming : Option String) : Option String :=
  match incoming with
  | none => if existing = some "_" then none else existing
  | some i =>
      if i = "_" then existing
      else if existing = some "_" then some i
      else some i

/-- One `mergeFlatImports` loop iteration on the insertion-ordered map. -/
def mergeStep (byKey : List (String × FlatImport)) (imp : FlatImport) :
    List (String × FlatImport) :=
  let key := getFlatImportKey imp
  match alistGet byKey key with
  | none => alistSet byKey key imp
  | some existing =>
      alistSet byKey key
        { existing with
          al := mergeAlias existing.al imp.al
          isGlob := existing.isGlob || imp.isGlob }

/-- `mergeFlatImports`: deduplicate flat imports by key, resolving aliases
with `mergeAlias` and or-ing the glob flags. -/
def mergeFlatImports (imports : List FlatImport) : List FlatImport :=
  (imports.foldl mergeStep []).map Prod.snd

/-! ### `buildUseTree`: a trie of insertion-ordered association lists -/

/-- The trie node used inside `buildUseTree`. -/
inductive TreeNode where
  | mk (name : String) (al : Option String)
      (children : List (String × TreeNode)) (isGlob : Bool)
deriving Repr

def TreeNode.nameOf : TreeNode → String
  | .mk n _ _ _ => n

def TreeNode.alOf : TreeNode → Option String
  | .mk _ a _ _ => a

def TreeNode.childrenOf : TreeNode → List (String × TreeNode)
  | .mk _ _ c _ => c

def TreeNode.isGlobOf : TreeNode → Bool
  | .mk _ _ _ g => g

theorem sizeOf_lt_of_mem_sorted_others {cmp : TreeNode → TreeNode → Int}
    {pred : String × TreeNode → Bool} {children : List (String × TreeNode)}
    {c : TreeNode}
    (h : c ∈ sortByCmp cmp ((children.filter pred).map Prod.snd)) :
    sizeOf c < sizeOf children := by
  have hc := mem_of_mem_sortByCmp h
  simp only [List.mem_map] at hc
  obtain ⟨p, hp, hpc⟩ := hc
  have hp' : p ∈ children := List.mem_of_mem_filter hp
  have hpp : (p.1, p.2) ∈ children := by simpa using hp'
  have hlt := sizeOf_snd_lt_of_mem hpp
  rw [hpc] at hlt
  exact hlt

/-- Walk `segs` (the import path with its root dropped) down the trie,
creating nodes as needed; the final segment receives the alias (when
present) and the glob flag, exactly as in the `buildUseTree` loop. -/
def TreeNode.insertSegs : TreeNode → List String → Option String → Bool → TreeNode
  | node, [], _, _ => node
  | .mk name al children glob, s :: rest, impAl, impGlob =>
      let child := (alistGet children s).getD (.mk s none [] false)
      let child' :=
        match rest with
        | [] =>
            TreeNode.mk child.nameOf
              (if impAl.isSome then impAl else child.alOf)
              child.childrenOf (child.isGlobOf || impGlob)
        | _ :: _ => TreeNode.insertSegs child rest impAl impGlob
      TreeNode.mk name al (alistSet children s child') glob

/-- Insert one flat import into the trie rooted at `node`: walk the path
past its root, then apply the root-level special case for length-1 paths. -/
def applyImport (node : TreeNode) (imp : FlatImport) : TreeNode :=
  let node1 := TreeNode.insertSegs node imp.path.tail imp.al imp.isGlob
  if imp.path.length = 1 then
    TreeNode.mk node1.nameOf
      (if imp.al.isSome then imp.al else node1.alOf)
      node1.childrenOf (node1.isGlobOf || imp.isGlob)
  else node1

/-- `nodeToUseTree`: convert a trie node back into a `UseTree`, collapsing
terminal/`self` marker children and sorting the regular children. -/
def nodeToUseTree (node : TreeNode) : UseTree :=
  match node with
  | .mk name al children glob =>
    let segment : UsePathSegment := { name := name, al := al }
    if glob then UseTree.mk segment none true false
    else
      let terminalChild := alistGet children ""
      let selfChild := alistGet children "self"
      let others := (children.filter fun p =>
        ¬(p.1 = "" ∨ p.1 = "self") ∧ p.2.isGlobOf = false).map Prod.snd
      let hasGlob := children.any fun p =>
        ¬(p.1 = "" ∨ p.1 = "self") && p.2.isGlobOf
      if terminalChild.isSome ∧ selfChild.isNone ∧ others.isEmpty ∧ hasGlob = false then
        let seg' := match terminalChild with
          | some tc => if tc.alOf.isSome then { segment with al := tc.alOf } else segment
          | none => segment
        UseTree.mk seg' none false false
      else if selfChild.isSome ∧ terminalChild.isNone ∧ others.isEmpty ∧ hasGlob = false then
        let seg' := match selfChild with
          | some sc => if sc.alOf.isSome then { segment with al := sc.alOf } else segment
          | none => segment
        UseTree.mk seg' none false false
      else if children.isEmpty then
        UseTree.mk segment none false false
      else
        let selfEntry : List UseTree :=
          if selfChild.isSome ∨ (terminalChild.isSome ∧ (others.isEmpty = false ∨ hasGlob)) then
            [UseTree.mk
              { name := "self"
                al := match selfChild with
                  | some sc => if sc.alOf.isSome then sc.alOf else none
                  | none => none }
              none false false]
          else []
        let sortedOthers := sortByCmp (fun a b => localeCompare a.nameOf b.nameOf) others
        let mapped := sortedOthers.attach.map fun c => nodeToUseTree c.1
        let globEntry : List UseTree :=
          if hasGlob then [UseTree.mk { name := "*" } none true false] else []
        let kids := selfEntry ++ mapped ++ globEntry
        if kids.isEmpty then UseTree.mk segment none false false
        else UseTree.mk segment (some kids) false false
termination_by sizeOf node
decreasing_by
  have hlt := sizeOf_lt_of_mem_sorted_others c.2
  simp only [TreeNode.mk.sizeOf_spec]
  refine hlt.trans_le ?_
  omega

/-- `buildUseTree`: build a `UseTree` from flat imports via the trie. -/
def buildUseTree (imports : List FlatImport) : Option UseTree :=
  match imports with
  | [] => none
  | imp0 :: _ =>
      let root := imp0.path.headD ""
      let rootNode : TreeNode := .mk root none [] false
      let finalNode := imports.foldl applyImport rootNode
      some (nodeToUseTree finalNode)

/-- Minimum of a non-empty list of line numbers (`Math.min(...lines)`). -/
def minLine : List Nat → Nat
  | [] => 0
  | x :: xs => xs.foldl Nat.min x

/-- Maximum of a non-empty list of line numbers (`Math.max(...lines)`). -/
def maxLine : List Nat → Nat
  | [] => 0
  | x :: xs => xs.foldl Nat.max x

/-- Body of the per-group loop in `mergeUseStatements`: flatten every
statement of the group, merge, rebuild, and recompute range/attributes.
Returns `[]` where the source does `continue`. -/
def mergeGroup (groupStmts : List UseStatement) : List UseStatement :=
  match groupStmts with
  | [] => []
  | firstStmt :: _ =>
    let flatImports := groupStmts.flatMap fun stmt => expandToFlatImports stmt.tree
    let mergedFlat := mergeFlatImports flatImports
    match buildUseTree mergedFlat with
    | none => []
    | some mergedTree =>
      let minStartLine := minLine (groupStmts.map fun s => s.range.start.line)
      let maxEndLine := maxLine (groupStmts.map fun s => s.range.stop.line)
      let firstOnMinLine := groupStmts.find? fun s => s.range.start.line = minStartLine
      let lastOnMaxLine := groupStmts.find? fun s => s.range.stop.line = maxEndLine
      match firstOnMinLine, lastOnMaxLine with
      | some fm, some lm =>
          [{ visibility := firstStmt.visibility
             attributes := if groupStmts.length = 1 then firstStmt.attributes else none
             tree := mergedTree
             range :=
               { start := { line := minStartLine, column := fm.range.start.column }
                 stop := { line := maxEndLine, column := lm.range.stop.column } } }]
      | _, _ => []

/-- `mergeUseStatements`: group by root path (insertion-ordered map), then
merge each group into at most one statement. -/
def mergeUseStatements (statements : List UseStatement) : List UseStatement :=
  match statements with
  | [] => []
  | _ =>
    let groups := statements.foldl
      (fun gs stmt =>
        let root := getRootPath stmt.tree
        let existing := (alistGet gs root).getD []
        alistSet gs root (existing ++ [stmt]))
      ([] : List (String × List UseStatement))
    groups.foldl (fun acc g => acc ++ mergeGroup g.2) []

/-- `mergeGroupedStatements`: partition by visibility (empty string for
none), then merge within each visibility class. -/
def mergeGroupedStatements (statements : List UseStatement) : List UseStatement :=
  let byVisibility := statements.foldl
    (fun gs stmt =>
      let vis := stmt.visibility.getD ""
      let existing := (alistGet gs vis).getD []
      alistSet gs vis (existing ++ [stmt]))
    ([] : List (String × List UseStatement))
  byVisibility.foldl (fun acc g => acc ++ mergeUseStatements g.2) []

/-- `needsBraces`: braces are needed for multiple children, or for a single
`self` (by segment name) or glob child. -/
def needsBraces (tree : UseTree) : Bool :=
  match tree.children with
  | none => false
  | some cs =>
      match cs with
      | [child] => child.segment.name = "self" || child.isGlob
      | _ => decide (cs.length > 1)

/-! ## Sorter (transformer/sorter.ts: part_004) -/

/-- The comparator of `sortUseTree`: `self` first (by the legacy `isSelf`
flag), globs last, otherwise `localeCompare` on segment names. -/
def compareTreeChildren (a b : UseTree) : Int :=
  if a.isSelf ∧ ¬b.isSelf then -1
  else if ¬a.isSelf ∧ b.isSelf then 1
  else if a.isGlob ∧ ¬b.isGlob then 1
  else if ¬a.isGlob ∧ b.isGlob then -1
  else localeCompare a.segment.name b.segment.name

/-- `sortUseTree`: recursively sort children, `self` first, globs last,
otherwise alphabetically.  A pure function producing a new tree. -/
def sortUseTree (tree : UseTree) : UseTree :=
  match tree with
  | .mk seg children glob slf =>
    match children with
    | none => UseTree.mk seg none glob slf
    | some cs =>
        if cs.isEmpty then UseTree.mk seg (some cs) glob slf
        else
          let sortedChildren :=
            sortByCmp compareTreeChildren (cs.attach.map fun c => sortUseTree c.1)
          UseTree.mk seg (some sortedChildren) glob slf
termination_by sizeOf tree
decreasing_by
  have h := sizeOf_lt_of_mem_children c.2
  have hs : sizeOf (some cs) = 1 + sizeOf cs := by simp
  simp only [UseTree.mk.sizeOf_spec, hs]
  omega

/-! ## Lexer (parser/useParser.ts, current generation: part_012) -/

/-- Token kinds.  `use/pub/as/self/crate/super/in` are the keyword kinds;
Lean-reserved names get a `T` suffix. -/
inductive TokenType where
  | useT | pubT | asT | selfT | crateT | superT | inT
  | ident | dcolon | obrace | cbrace | comma | semi | star | oparen | cparen
deriving DecidableEq, Repr

/-- A lexed token with its relative line and column extent. -/
structure Token where
  type : TokenType
  value : String
  line : Nat
  startCol : Nat
  endCol : Nat
deriving DecidableEq, Repr

/-- `/[a-zA-Z_]/` -/
def isIdentStart (c : Char) : Bool :=
  (('a' ≤ c && c ≤ 'z') || ('A' ≤ c && c ≤ 'Z') || c = '_')

/-- `/[a-zA-Z0-9_]/` -/
def isIdentChar (c : Char) : Bool :=
  isIdentStart c || ('0' ≤ c && c ≤ '9')

/-- JS `/\s/` on the ASCII inputs considered (newline is handled first). -/
def isWsChar (c : Char) : Bool :=
  c = ' ' || c = '\t' || c = '\r' || c = '\x0b' || c = '\x0c' || c = '\n'

/-- The opening curly brace character. -/
def obraceChar : Char := Char.ofNat 123

/-- The closing curly brace character. -/
def cbraceChar : Char := Char.ofNat 125

/-- The `singleCharTokens` table. -/
def singleCharType (c : Char) : Option TokenType :=
  if c = obraceChar then some .obrace
  else if c = cbraceChar then some .cbrace
  else if c = ',' then some .comma
  else if c = ';' then some .semi
  else if c = '*' then some .star
  else if c = '(' then some .oparen
  else if c = ')' then some .cparen
  else none

/-- The keyword table (`keywordMap`). -/
def keywordType (s : String) : Option TokenType :=
  if s = "use" then some .useT
  else if s = "pub" then some .pubT
  else if s = "as" then some .asT
  else if s = "self" then some .selfT
  else if s = "crate" then some .crateT
  else if s = "super" then some .superT
  else if s = "in" then some .inT
  else none

/-- The character scan loop of `tokenize`, tracking relative line/column. -/
def tokenizeAux (cs : List Char) (line col : Nat) : List Token :=
  match h : cs with
  | [] => []
  | c :: rest =>
    if c = '\n' then tokenizeAux rest (line + 1) 0
    else if isWsChar c then tokenizeAux rest line (col + 1)
    else if c = ':' ∧ rest.head? = some ':' then
      { type := .dcolon, value := "::", line := line, startCol := col, endCol := col + 2 }
        :: tokenizeAux rest.tail line (col + 2)
    else
      match singleCharType c with
      | some t =>
          { type := t, value := c.toString, line := line, startCol := col, endCol := col + 1 }
            :: tokenizeAux rest line (col + 1)
      | none =>
          if isIdentStart c then
            let run := (c :: rest).takeWhile isIdentChar
            let value := String.mk run
            let tokType := (keywordType value).getD .ident
            { type := tokType, value := value, line := line, startCol := col,
              endCol := col + run.length }
              :: tokenizeAux ((c :: rest).drop run.length) line (col + run.length)
          else tokenizeAux rest line (col + 1)
termination_by cs.length
decreasing_by
  · simp [h]
  · simp [h]
  · simp [h]
    cases rest with
    | nil => simp at *
    | cons b bs => simp only [List.tail_cons, List.length_cons]; omega
  · simp [h]
  · simp only [h, List.length_cons]
    have hrun : 0 < ((c :: rest).takeWhile isIdentChar).length := by
      have hc : isIdentChar c := by
        simp only [isIdentChar, Bool.or_eq_true]
        left
        assumption
      simp [List.takeWhile_cons, hc]
    have hle : ((c :: rest).takeWhile isIdentChar).length ≤ rest.length + 1 := by
      have := List.takeWhile_sublist (p := isIdentChar) (l := c :: rest)
      simpa using this.length_le
    simp only [List.length_drop, List.length_cons]
    omega

/-- `tokenize`: lex one use-statement substring. -/
def tokenize (input : String) : List Token :=
  tokenizeAux input.data 0 0

/-! ### Size preservation of `sortUseTree` (termination of the formatter) -/

theorem perm_sizeOf_eq [SizeOf α] {l1 l2 : List α} (h : l1.Perm l2) :
    sizeOf l1 = sizeOf l2 := by
  induction h with
  | nil => rfl
  | cons x _ ih => simp only [List.cons.sizeOf_spec, ih]
  | swap x y l => simp only [List.cons.sizeOf_spec]; omega
  | trans _ _ ih1 ih2 => omega

theorem map_sizeOf_eq [SizeOf α] (l : List α) (f : α → α)
    (hf : ∀ c ∈ l, sizeOf (f c) = sizeOf c) : sizeOf (l.map f) = sizeOf l := by
  induction l with
  | nil => rfl
  | cons c cs ih =>
      simp only [List.map_cons, List.cons.sizeOf_spec]
      rw [hf c (by simp), ih fun c hc => hf c (List.mem_cons_of_mem _ hc)]

theorem sortUseTree_sizeOf (t : UseTree) : sizeOf (sortUseTree t) = sizeOf t := by
  induction t using sortUseTree.induct with
  | case1 seg glob slf => simp [sortUseTree]
  | case2 seg glob slf l hemp => simp [sortUseTree, hemp]
  | case3 seg glob slf l hemp ih =>
      simp only [sortUseTree, hemp]
      simp only [Bool.false_eq_true, if_false, UseTree.mk.sizeOf_spec,
        Option.some.sizeOf_spec, List.attach_map_val]
      rw [perm_sizeOf_eq (sortByCmp_perm compareTreeChildren (l.map sortUseTree))]
      rw [map_sizeOf_eq l sortUseTree fun c hc => ih ⟨c, hc⟩]

/-! ## Tree parser (`UseTreeParser`): consumption-style with explicit
base position and fuel (the fuel strictly exceeds any possible recursion
depth when instantiated with `tokens.length + 1`). -/

/-- `tokenToRange`: absolute source range of a token. -/
def tokenToRange (baseLine baseCol : Nat) (tok : Token) : Rng :=
  { start := { line := baseLine + tok.line, column := baseCol + tok.startCol }
    stop := { line := baseLine + tok.line, column := baseCol + tok.endCol } }

/-- `expect(type)`: consume one token of the given kind or throw. -/
def expectTok (t : TokenType) (toks : List Token) : Except String (Token × List Token) :=
  match toks with
  | [] => .error "Expected token but got EOF"
  | tok :: rest =>
      if tok.type = t then .ok (tok, rest) else .error "Expected token but got other"

/-- The value-accumulating loop inside `parseVisibility` for `pub(in …)`. -/
def consumeUntilCloseParen (toks : List Token) (acc : String) : String × List Token :=
  match toks with
  | [] => (acc, [])
  | tok :: rest =>
      if tok.type = .cparen then (acc, tok :: rest)
      else consumeUntilCloseParen rest (acc ++ tok.value)

/-- `parseVisibility`: optionally parse `pub`, `pub(crate)`, `pub(in p)` …
producing the qualifier as a reconstructed string. -/
def parseVisibility (toks : List Token) : Except String (Option String × List Token) :=
  match toks with
  | tok :: rest =>
      if tok.type = .pubT then
        match rest with
        | tok2 :: rest2 =>
            if tok2.type = .oparen then
              match rest2 with
              | tok3 :: rest3 =>
                  if tok3.type = .inT then
                    let (vis1, rest4) := consumeUntilCloseParen rest3 "pub(in "
                    match expectTok .cparen rest4 with
                    | .ok (_, rest5) => .ok (some (vis1 ++ ")"), rest5)
                    | .error e => .error e
                  else
                    match expectTok .cparen rest3 with
                    | .ok (_, rest5) => .ok (some ("pub(" ++ tok3.value ++ ")"), rest5)
                    | .error e => .error e
              | [] =>
                  match expectTok .cparen ([] : List Token) with
                  | .ok (_, rest5) => .ok (some "pub(", rest5)
                  | .error e => .error e
            else .ok (some "pub", rest)
        | [] => .ok (some "pub", [])
      else .ok (none, toks)
  | [] => .ok (none, toks)

/-- `parseSegment`: one identifier/keyword token, with optional alias. -/
def parseSegment (baseLine baseCol : Nat) (toks : List Token) :
    Except String (UsePathSegment × List Token) :=
  match toks with
  | [] => .error "Unexpected end of input"
  | tok :: rest =>
      let segment : UsePathSegment :=
        { name := tok.value, range := some (tokenToRange baseLine baseCol tok) }
      match rest with
      | asTok :: rest2 =>
          if asTok.type = .asT then
            match rest2 with
            | aliasTok :: rest3 => .ok ({ segment with al := some aliasTok.value }, rest3)
            | [] => .ok (segment, [])
          else .ok (segment, rest)
      | [] => .ok (segment, [])

mutual

/-- `parseUseTree`: glob / self / segment with optional children. -/
def parseUseTree (baseLine baseCol : Nat) (fuel : Nat) (toks : List Token) :
    Except String (UseTree × List Token) :=
  match fuel with
  | 0 => .error "out of fuel"
  | fuel + 1 =>
    match toks with
    | [] => .error "Unexpected end of input"
    | tok :: rest =>
        if tok.type = .star then
          .ok (UseTree.mk
            { name := "*", range := some (tokenToRange baseLine baseCol tok) }
            none true false, rest)
        else if tok.type = .selfT then
          let segment : UsePathSegment :=
            { name := "self", range := some (tokenToRange baseLine baseCol tok) }
          match rest with
          | asTok :: rest2 =>
              if asTok.type = .asT then
                match rest2 with
                | aliasTok :: rest3 =>
                    .ok (UseTree.mk { segment with al := some aliasTok.value }
                      none false false, rest3)
                | [] => .ok (UseTree.mk segment none false false, [])
              else .ok (UseTree.mk segment none false false, rest)
          | [] => .ok (UseTree.mk segment none false false, [])
        else
          match parseSegment baseLine baseCol toks with
          | .error e => .error e
          | .ok (segment, rest1) =>
            match rest1 with
            | dc :: rest2 =>
                if dc.type = .dcolon then
                  match rest2 with
                  | ob :: rest3 =>
                      if ob.type = .obrace then
                        match parseUseTreeList baseLine baseCol fuel rest3 with
                        | .error e => .error e
                        | .ok (children, rest4) =>
                            match expectTok .cbrace rest4 with
                            | .error e => .error e
                            | .ok (_, rest5) =>
                                .ok (UseTree.mk segment (some children) false false, rest5)
                      else if ob.type = .star then
                        .ok (UseTree.mk segment
                          (some [UseTree.mk
                            { name := "*", range := some (tokenToRange baseLine baseCol ob) }
                            none true false])
                          false false, rest3)
                      else
                        match parseUseTree baseLine baseCol fuel rest2 with
                        | .error e => .error e
                        | .ok (child, rest3') =>
                            .ok (UseTree.mk segment (some [child]) false false, rest3')
                  | [] =>
                      match parseUseTree baseLine baseCol fuel ([] : List Token) with
                      | .error e => .error e
                      | .ok (child, rest3') =>
                          .ok (UseTree.mk segment (some [child]) false false, rest3')
                else .ok (UseTree.mk segment none false false, rest1)
            | [] => .ok (UseTree.mk segment none false false, rest1)

/-- `parseUseTreeList`: comma-separated trees until a closing brace. -/
def parseUseTreeList (baseLine baseCol : Nat) (fuel : Nat) (toks : List Token) :
    Except String (List UseTree × List Token) :=
  match fuel with
  | 0 => .error "out of fuel"
  | fuel + 1 =>
    match toks with
    | [] => .ok ([], [])
    | tok :: _ =>
        if tok.type = .cbrace then .ok ([], toks)
        else
          match parseUseTree baseLine baseCol fuel toks with
          | .error e => .error e
          | .ok (tree, rest1) =>
              match rest1 with
              | c :: rest2 =>
                  if c.type = .comma then
                    match parseUseTreeList baseLine baseCol fuel rest2 with
                    | .error e => .error e
                    | .ok (trees, rest3) => .ok (tree :: trees, rest3)
                  else .ok ([tree], rest1)
              | [] => .ok ([tree], rest1)

end

/-- `UseTreeParser.parse`: visibility, optional `use` keyword, then tree. -/
def parseStatementToks (baseLine baseCol : Nat) (toks : List Token) :
    Except String (Option String × UseTree) :=
  match parseVisibility toks with
  | .error e => .error e
  | .ok (visibility, toks1) =>
      let toks2 :=
        match toks1 with
        | tok :: rest => if tok.type = .useT then rest else toks1
        | [] => toks1
      match parseUseTree baseLine baseCol (toks2.length + 1) toks2 with
      | .error e => .error e
      | .ok (tree, _) => .ok (visibility, tree)

/-- Default statement range (the source's default parameter). -/
def zeroRng : Rng :=
  { start := { line := 0, column := 0 }, stop := { line := 0, column := 0 } }

/-- `parseUseStatement`: tokenize and parse one use statement string. -/
def parseUseStatement (useStr : String) (attributes : List String := [])
    (range : Rng := zeroRng) : Except String UseStatement :=
  let tokens := tokenize useStr
  match parseStatementToks range.start.line range.start.column tokens with
  | .error e => .error e
  | .ok (visibility, tree) =>
      .ok { visibility := visibility, tree := tree,
            attributes := some attributes, range := range }

/-! ## Formatter (formatter/useFormatter.ts) -/

theorem children_sizeOf_lt {t : UseTree} {cs : List UseTree}
    (h : t.children = some cs) : sizeOf cs < sizeOf t := by
  cases t with
  | mk s c g sf =>
      cases c with
      | none => simp [UseTree.children] at h
      | some cs' =>
          simp only [UseTree.children, Option.some.injEq] at h
          subst h
          simp only [UseTree.mk.sizeOf_spec, Option.some.sizeOf_spec]
          omega

theorem sizeOf_lt_of_sorted_child {t : UseTree} {scs : List UseTree} {c : UseTree}
    (h : (sortUseTree t).children = some scs) (hc : c ∈ scs) :
    sizeOf c < sizeOf t := by
  have h1 := List.sizeOf_lt_of_mem hc
  have h2 := children_sizeOf_lt h
  have h3 := sortUseTree_sizeOf t
  omega

theorem sizeOf_lt_of_sorted_children {t : UseTree} {scs : List UseTree}
    (h : (sortUseTree t).children = some scs) : sizeOf scs < sizeOf t := by
  have h2 := children_sizeOf_lt h
  have h3 := sortUseTree_sizeOf t
  omega

/-- Alias rendering suffix `[ as alias]`. -/
def aliasSuffix : Option String → String
  | some a => " as " ++ a
  | none => ""

mutual

/-- `formatUseTree`: serialize a tree; children are sorted first, a single
child is inlined (whatever it is), multiple children render as a brace
block. -/
def formatUseTree (tree : UseTree) (indent : String) : String :=
  if tree.isGlob then "*"
  else if tree.isSelf then
    match tree.segment.al with
    | some a => "self as " ++ a
    | none => "self"
  else
    let base := tree.segment.name ++ aliasSuffix tree.segment.al
    match tree.children with
    | some cs =>
        if cs.length > 0 then
          match hs : (sortUseTree tree).children with
          | some [c] => base ++ "::" ++ formatUseTree c indent
          | some scs => base ++ "::" ++ formatBracedChildren scs indent
          | none => base ++ "::"
        else base
    | none => base
termination_by sizeOf tree
decreasing_by
  · exact sizeOf_lt_of_sorted_child hs (by simp)
  · exact sizeOf_lt_of_sorted_children hs

/-- `formatBracedChildren`: multi-line brace block, one child per line,
each one indent level deeper, every entry with a trailing comma. -/
def formatBracedChildren (children : List UseTree) (indent : String) : String :=
  let childIndent := indent ++ "    "
  let mid := children.attach.map fun c =>
    childIndent ++ formatUseTree c.1 childIndent ++ ","
  String.intercalate "\n" (["\x7b"] ++ mid ++ [indent ++ "\x7d"])
termination_by sizeOf children
decreasing_by
  exact List.sizeOf_lt_of_mem c.2

end

/-- `formatUseStatement`: attribute lines, visibility, `use`, the sorted
tree, and the terminating `;`. -/
def formatUseStatement (stmt : UseStatement) : String :=
  let attrLines := (stmt.attributes).getD []
  let pfxStr := (match stmt.visibility with | some v => v ++ " " | none => "") ++ "use "
  let sortedTree := sortUseTree stmt.tree
  let useStr :=
    match sortedTree.children with
    | some cs =>
        if cs.length > 0 then
          pfxStr ++ sortedTree.segment.name ++ "::" ++
            (match cs with
             | [c] => formatUseTree c ""
             | _ => formatBracedChildren cs "")
        else pfxStr ++ sortedTree.segment.name ++ aliasSuffix sortedTree.segment.al
    | none => pfxStr ++ sortedTree.segment.name ++ aliasSuffix sortedTree.segment.al
  String.intercalate "\n" (attrLines ++ [useStr ++ ";"])

/-! ## Unused-import filter (rustAnalyzer/integration.ts, current
generation: part_003) -/

/-- An unused-import diagnostic as delivered by the external resolver. -/
structure UnusedImportDiagnostic where
  range : Rng
deriving DecidableEq, Repr

/-- `rangeContainedInSpans`: is the diagnostic range contained within one of
the import's segment spans?  (Note the direction: diagnostic ⊆ span.) -/
def rangeContainedInSpans (diagRange : Rng) (spans : List Rng) : Bool :=
  spans.any fun span =>
    let startContained :=
      diagRange.start.line > span.start.line ||
      (diagRange.start.line = span.start.line &&
        diagRange.start.column ≥ span.start.column)
    let endContained :=
      diagRange.stop.line < span.stop.line ||
      (diagRange.stop.line = span.stop.line &&
        diagRange.stop.column ≤ span.stop.column)
    startContained && endContained

/-- `isUnusedByDiagnostics`: some diagnostic hits this flat import. -/
def isUnusedByDiagnostics (flat : FlatImport)
    (diagnostics : List UnusedImportDiagnostic) : Bool :=
  diagnostics.any fun diag => rangeContainedInSpans diag.range flat.spans

/-- The per-statement filtering step of `filterUnusedImports`. -/
def filterStmtStep (unusedDiagnostics : List UnusedImportDiagnostic)
    (result : List UseStatement) (stmt : UseStatement) : List UseStatement :=
  let flats := expandToFlatImports stmt.tree
  let pathHasUnderscore := flats.foldl
    (fun m flat =>
      if flat.al = some "_" then alistSet m (String.intercalate "::" flat.path) true
      else m)
    ([] : List (String × Bool))
  let filtered := flats.foldl
    (fun acc flat =>
      let fullPath := String.intercalate "::" flat.path
      if isUnusedByDiagnostics flat unusedDiagnostics then
        if flat.al = some "_" then acc
        else if (alistGet pathHasUnderscore fullPath).getD false then acc ++ [flat]
        else acc
      else acc ++ [flat])
    ([] : List FlatImport)
  if filtered.length = 0 then result
  else
    match buildUseTree filtered with
    | none => result
    | some newTree => result ++ [{ stmt with tree := newTree }]

/-- `filterUnusedImports`: drop span-matched unused flat imports, with the
placeholder-alias (`as _`) variant removed in preference to the plain one;
statements left without imports are dropped entirely. -/
def filterUnusedImports (imports : List UseStatement)
    (unusedDiagnostics : List UnusedImportDiagnostic) : List UseStatement :=
  if unusedDiagnostics.length = 0 then imports
  else imports.foldl (filterStmtStep unusedDiagnostics) []

/-! ## File scanner (parser/useParser.ts `parseRustFile`, current
generation: part_012) -/

/-- JS `String.prototype.trim` (ASCII whitespace suffices here). -/
def strTrim (ss : String) : String :=
  String.mk (((ss.data.dropWhile isWsChar).reverse.dropWhile isWsChar).reverse)

/-- JS `s.substring(a, b)` for `a ≤ b` within bounds. -/
def strSubstring (ss : String) (start stop : Nat) : String :=
  String.mk ((ss.data.drop start).take (stop - start))

/-- JS `s.substring(a)`. -/
def strSubstringFrom (ss : String) (start : Nat) : String :=
  String.mk (ss.data.drop start)

/-- JS `s.startsWith(p)` (executable model over the character list). -/
def strStartsWith (s pre : String) : Bool :=
  pre.data.isPrefixOf s.data

/-- Leading-whitespace run length (`\s*`, greedy). -/
def wsRun (cs : List Char) : Nat :=
  (cs.takeWhile isWsChar).length

/-- Strip a literal from the front. -/
def stripLit : List Char → List Char → Option (List Char)
  | cs, [] => some cs
  | [], _ :: _ => none
  | c :: cs, l :: ls => if c = l then stripLit cs ls else none

/-- Match the regex `(pub\s*(\([^)]*\))?\s*)?use\s+` anchored at the start
of `cs`; returns the length of the match.  The leading group is greedy:
the `pub…` variant is tried first, the bare `use\s+` variant second. -/
def matchUseAt (cs : List Char) : Option Nat :=
  let bare : List Char → Option Nat := fun ds =>
    match stripLit ds ['u', 's', 'e'] with
    | none => none
    | some ds1 =>
        let w := wsRun ds1
        if w ≥ 1 then some (3 + w) else none
  let pubVariant : Option Nat :=
    match stripLit cs ['p', 'u', 'b'] with
    | none => none
    | some cs1 =>
        let w1 := wsRun cs1
        let cs2 := cs1.drop w1
        match cs2 with
        | '(' :: cs3 =>
            let body := cs3.takeWhile (fun c => c ≠ ')')
            let cs4 := cs3.drop body.length
            match cs4 with
            | ')' :: cs5 =>
                let w2 := wsRun cs5
                match bare (cs5.drop w2) with
                | some n => some (3 + w1 + 1 + body.length + 1 + w2 + n)
                | none => none
            | _ => none
        | _ =>
            match bare cs2 with
            | some n => some (3 + w1 + n)
            | none => none
  match pubVariant with
  | some n => some n
  | none => bare cs

/-- Leftmost regex match in `cs`: `(index, length)`. -/
def findUseMatchFrom (cs : List Char) (i : Nat) : Option (Nat × Nat) :=
  match matchUseAt cs with
  | some len => some (i, len)
  | none =>
      match cs with
      | [] => none
      | _ :: rest => findUseMatchFrom rest (i + 1)

/-- JS `line.match(useRe)?.[0]`: the text of the leftmost match. -/
def lineMatchUse (line : String) : Option String :=
  match findUseMatchFrom line.data 0 with
  | some (i, len) => some (String.mk ((line.data.drop i).take len))
  | none => none

/-- JS `s.indexOf(sub)` restricted to the found case (`0` as the JS `-1`
sentinel never flows further in the modelled paths). -/
def indexOfFrom (cs sub : List Char) (i : Nat) : Nat :=
  if sub.isPrefixOf cs then i
  else
    match cs with
    | [] => i
    | _ :: rest => indexOfFrom rest sub (i + 1)

/-- `findUseStartInLine`: the index of the first occurrence of the matched
text, or `0` when the regex does not match. -/
def findUseStartInLine (line : String) : Nat :=
  match lineMatchUse line with
  | some matched => indexOfFrom line.data matched.data 0
  | none => 0

/-- The character walk of `findUseEndInLine`. -/
def findUseEndAux (cs : List Char) (col : Nat) (count : Int) : Option Nat × Int :=
  match cs with
  | [] => (none, count)
  | c :: rest =>
      if c = obraceChar then findUseEndAux rest (col + 1) (count + 1)
      else if c = cbraceChar then findUseEndAux rest (col + 1) (count - 1)
      else if c = ';' ∧ count = 0 then (some (col + 1), count)
      else findUseEndAux rest (col + 1) count

/-- `findUseEndInLine`: look for `;` at brace depth 0 from `startCol`;
`none` models the `-1` sentinel. -/
def findUseEndInLine (line : String) (startCol : Nat) (braceCount : Int) :
    Option Nat × Int :=
  findUseEndAux (line.data.drop startCol) startCol braceCount

/-- `extractAttributes` backward walk; the counter is the number of lines
still above the statement (index `i+1` examines line `i`). -/
def extractAttributesAux (lines : List String) : Nat → List String → List String
  | 0, acc => acc
  | i + 1, acc =>
      let line := strTrim (lines.getD i "")
      if strStartsWith line "#[" then extractAttributesAux lines i (line :: acc)
      else if line = "" || strStartsWith line "//" then extractAttributesAux lines i acc
      else acc

/-- `extractAttributes`: attribute lines directly above a use statement. -/
def extractAttributes (lines : List String) (useLineIndex : Nat) : List String :=
  extractAttributesAux lines useLineIndex []

/-- `findStartLine` backward walk. -/
def findStartLineAux (lines : List String) : Nat → Nat → Nat
  | 0, last => last
  | i + 1, last =>
      let line := strTrim (lines.getD i "")
      if strStartsWith line "#[" then findStartLineAux lines i i
      else if line = "" || strStartsWith line "//" then findStartLineAux lines i last
      else last

/-- `findStartLine`: first line of the statement including attributes. -/
def findStartLine (lines : List String) (useLineIndex : Nat) : Nat :=
  findStartLineAux lines useLineIndex useLineIndex

/-- Scanner state of the `parseRustFile` main loop. -/
structure ScanState where
  inUse : Bool := false
  curLines : List String := []
  startLine : Nat := 0
  startCol : Nat := 0
  braceCount : Int := 0
  blockId : Nat := 0
  hasImports : Bool := false
  imports : List UseStatement := []
deriving Repr

/-- The initial skip loop over blank lines, line comments and `#![…]`. -/
def skipInitial (lines : List String) (i : Nat) : Nat :=
  if h : i < lines.length then
    let t := strTrim (lines.get ⟨i, h⟩)
    if t = "" || strStartsWith t "//" || strStartsWith t "#![" then skipInitial lines (i + 1)
    else i
  else i
termination_by lines.length - i

/-- One complete-statement capture: parse and append, or skip on error. -/
def pushParsed (st : ScanState) (useStr : String) (attrs : List String)
    (range : Rng) : ScanState :=
  match parseUseStatement useStr attrs range with
  | .ok stmt =>
      { st with
        imports := st.imports ++ [{ stmt with blockId := some st.blockId }]
        hasImports := true, inUse := false, curLines := [] }
  | .error _ => { st with inUse := false, curLines := [] }

/-- The main scan loop of `parseRustFile`. -/
def scanLoop (lines : List String) (i : Nat) (st : ScanState) : ScanState :=
  if h : i < lines.length then
    let line := lines.get ⟨i, h⟩
    let trimmedLine := strTrim line
    if st.inUse = false then
      if trimmedLine = "" then scanLoop lines (i + 1) st
      else if strStartsWith trimmedLine "//" then
        scanLoop lines (i + 1)
          (if st.hasImports then
            { st with blockId := st.blockId + 1, hasImports := false }
          else st)
      else if strStartsWith trimmedLine "#[" then scanLoop lines (i + 1) st
      else
        match lineMatchUse line with
        | some _ =>
            let startLine := findStartLine lines i
            let startCol := findUseStartInLine line
            let (endCol?, bc) := findUseEndInLine line startCol 0
            match endCol? with
            | some endCol =>
                let useStr := strSubstring line startCol endCol
                let attrs := extractAttributes lines i
                let range : Rng :=
                  { start := { line := startLine, column := startCol }
                    stop := { line := i, column := endCol } }
                scanLoop lines (i + 1) (pushParsed st useStr attrs range)
            | none =>
                scanLoop lines (i + 1)
                  { st with
                    inUse := true, startLine := startLine
                    startCol := startCol, braceCount := bc
                    curLines := [strSubstringFrom line startCol] }
        | none =>
            if st.imports.length > 0 then st
            else scanLoop lines (i + 1) st
    else
      let (endCol?, bc) := findUseEndInLine line 0 st.braceCount
      match endCol? with
      | some endCol =>
          let fullUseStr :=
            String.intercalate "\n" (st.curLines ++ [strSubstring line 0 endCol])
          let attrs := extractAttributes lines st.startLine
          let range : Rng :=
            { start := { line := st.startLine, column := st.startCol }
              stop := { line := i, column := endCol } }
          scanLoop lines (i + 1) (pushParsed st fullUseStr attrs range)
      | none =>
          scanLoop lines (i + 1)
            { st with braceCount := bc, curLines := st.curLines ++ [line] }
  else st
termination_by lines.length - i

/-- The result record of `parseRustFile`. -/
structure ParseResult where
  imports : List UseStatement
  importsRange : Option Rng
  hasBlankLineAfterImports : Bool
deriving Repr

/-- `parseRustFile`: find all use statements in a file. -/
def parseRustFile (content : String) : ParseResult :=
  let lines := content.splitOn "\n"
  let i0 := skipInitial lines 0
  let finalState := scanLoop lines i0 {}
  let imports := finalState.imports
  let importsRange : Option Rng :=
    match imports with
    | [] => none
    | first :: restImp =>
        some { start := first.range.start
               stop := ((first :: restImp).getLast (by simp)).range.stop }
  let hasBlankLineAfterImports :=
    match imports with
    | [] => true
    | first :: restImp =>
        let lastImport := (first :: restImp).getLast (by simp)
        let lastLine := lastImport.range.stop.line
        let lastCol := lastImport.range.stop.column
        if lastCol < (lines.getD lastLine "").length then true
        else if lastLine + 1 < lines.length then
          strTrim (lines.getD (lastLine + 1) "") = ""
        else true
  { imports := imports, importsRange := importsRange,
    hasBlankLineAfterImports := hasBlankLineAfterImports }

/-! ## Concrete parsed statements used by the claims -/

/-- Segment with a one-line source range. -/
def segR (n : String) (l c1 c2 : Nat) (al : Option String := none) : UsePathSegment :=
  { name := n, al := al
    range := some { start := { line := l, column := c1 }
                    stop := { line := l, column := c2 } } }

/-- The parse of `use A;`. -/
def stmtUseA : UseStatement :=
  { tree := UseTree.mk (segR "A" 0 4 5) none false false
    attributes := some [], range := zeroRng }

/-- The parse of `use A::{self};`. -/
def stmtUseASelf : UseStatement :=
  { tree := UseTree.mk (segR "A" 0 4 5)
      (some [UseTree.mk (segR "self" 0 8 12) none false false]) false false
    attributes := some [], range := zeroRng }

/-- The parse of `use A::B;`. -/
def stmtUseAB : UseStatement :=
  { tree := UseTree.mk (segR "A" 0 4 5)
      (some [UseTree.mk (segR "B" 0 7 8) none false false]) false false
    attributes := some [], range := zeroRng }

theorem parse_useA : parseUseStatement "use A;" = .ok stmtUseA := by
  simp [stmtUseA, segR, parseUseStatement, tokenize, tokenizeAux, isWsChar, isIdentStart, isIdentChar,
    singleCharType, keywordType, obraceChar, cbraceChar, parseStatementToks,
    parseVisibility, parseUseTree, parseUseTreeList, parseSegment, expectTok,
    tokenToRange, consumeUntilCloseParen, zeroRng]

theorem parse_useASelf : parseUseStatement "use A::{self};" = .ok stmtUseASelf := by
  simp [stmtUseASelf, segR, parseUseStatement, tokenize, tokenizeAux, isWsChar, isIdentStart, isIdentChar,
    singleCharType, keywordType, obraceChar, cbraceChar, parseStatementToks,
    parseVisibility, parseUseTree, parseUseTreeList, parseSegment, expectTok,
    tokenToRange, consumeUntilCloseParen, zeroRng]

theorem parse_useAB : parseUseStatement "use A::B;" = .ok stmtUseAB := by
  simp [stmtUseAB, segR, parseUseStatement, tokenize, tokenizeAux, isWsChar, isIdentStart, isIdentChar,
    singleCharType, keywordType, obraceChar, cbraceChar, parseStatementToks,
    parseVisibility, parseUseTree, parseUseTreeList, parseSegment, expectTok,
    tokenToRange, consumeUntilCloseParen, zeroRng]

/-- The parse of `use A::T as _;`. -/
def stmtUseTU : UseStatement :=
  { tree := UseTree.mk (segR "A" 0 4 5)
      (some [UseTree.mk (segR "T" 0 7 8 (some "_")) none false false]) false false
    attributes := some [], range := zeroRng }

/-- The parse of `use A::T;`. -/
def stmtUseT : UseStatement :=
  { tree := UseTree.mk (segR "A" 0 4 5)
      (some [UseTree.mk (segR "T" 0 7 8) none false false]) false false
    attributes := some [], range := zeroRng }

/-- The parse of `use A::T as R;`. -/
def stmtUseTR : UseStatement :=
  { tree := UseTree.mk (segR "A" 0 4 5)
      (some [UseTree.mk (segR "T" 0 7 8 (some "R")) none false false]) false false
    attributes := some [], range := zeroRng }

theorem parse_useTU : parseUseStatement "use A::T as _;" = .ok stmtUseTU := by
  simp [stmtUseTU, segR, parseUseStatement, tokenize, tokenizeAux, isWsChar, isIdentStart, isIdentChar,
    singleCharType, keywordType, obraceChar, cbraceChar, parseStatementToks,
    parseVisibility, parseUseTree, parseUseTreeList, parseSegment, expectTok,
    tokenToRange, consumeUntilCloseParen, zeroRng]

theorem parse_useT : parseUseStatement "use A::T;" = .ok stmtUseT := by
  simp [stmtUseT, segR, parseUseStatement, tokenize, tokenizeAux, isWsChar, isIdentStart, isIdentChar,
    singleCharType, keywordType, obraceChar, cbraceChar, parseStatementToks,
    parseVisibility, parseUseTree, parseUseTreeList, parseSegment, expectTok,
    tokenToRange, consumeUntilCloseParen, zeroRng]

theorem parse_useTR : parseUseStatement "use A::T as R;" = .ok stmtUseTR := by
  simp [stmtUseTR, segR, parseUseStatement, tokenize, tokenizeAux, isWsChar, isIdentStart, isIdentChar,
    singleCharType, keywordType, obraceChar, cbraceChar, parseStatementToks,
    parseVisibility, parseUseTree, parseUseTreeList, parseSegment, expectTok,
    tokenToRange, consumeUntilCloseParen, zeroRng]

/-- A merged output statement with empty range and no attributes. -/
def mergedStmt (t : UseTree) : UseStatement :=
  { visibility := none, attributes := none, tree := t, range := zeroRng }

/-- Tree `A` with a single explicit self leaf (the merge of `use A;` with
`use A::{self};`). -/
def treeASelfLeaf : UseTree :=
  UseTree.mk { name := "A" }
    (some [UseTree.mk { name := "self" } none false false]) false false

/-! ## C1 -/

/-- C1 counterexample: the merge key DOES distinguish a terminal marker
(`""`, key `A::`) from an explicit self marker (`self`, key `A::self`), so
the flat imports of `use A;` and `use A::{self};` are NOT deduplicated into
a single flat import under one merge key. -/
theorem C1_counterexample :
    expandToFlatImports stmtUseA.tree =
      [{ path := ["A", ""],
         spans := [{ start := { line := 0, column := 4 }, stop := { line := 0, column := 5 } }] }] ∧
    expandToFlatImports stmtUseASelf.tree =
      [{ path := ["A", "self"],
         spans := [{ start := { line := 0, column := 4 }, stop := { line := 0, column := 5 } },
                   { start := { line := 0, column := 8 }, stop := { line := 0, column := 12 } }] }] ∧
    getFlatImportKey { path := ["A", ""] } ≠ getFlatImportKey { path := ["A", "self"] } ∧
    (mergeFlatImports
      (expandToFlatImports stmtUseA.tree ++ expandToFlatImports stmtUseASelf.tree)).length = 2 := by
  refine ⟨?_, ?_, ?_, ?_⟩
  · simp +decide [stmtUseA, segR, mergeUseStatements, mergeGroup, mergeFlatImports, mergeStep, mergeAlias,
    getFlatImportKey, expandToFlatImports, buildUseTree, applyImport,
    TreeNode.insertSegs, nodeToUseTree, alistGet, alistSet, getRootPath, minLine,
    maxLine, sortByCmp, insertSorted, localeCompare, TreeNode.nameOf, TreeNode.alOf,
    TreeNode.childrenOf, TreeNode.isGlobOf, List.attach_map_val]
  · simp +decide [stmtUseASelf, segR, mergeUseStatements, mergeGroup, mergeFlatImports, mergeStep, mergeAlias,
    getFlatImportKey, expandToFlatImports, buildUseTree, applyImport,
    TreeNode.insertSegs, nodeToUseTree, alistGet, alistSet, getRootPath, minLine,
    maxLine, sortByCmp, insertSorted, localeCompare, TreeNode.nameOf, TreeNode.alOf,
    TreeNode.childrenOf, TreeNode.isGlobOf, List.attach_map_val]
  · simp +decide [getFlatImportKey]
  · simp +decide [stmtUseA, stmtUseASelf, segR, mergeUseStatements, mergeGroup, mergeFlatImports, mergeStep, mergeAlias,
    getFlatImportKey, expandToFlatImports, buildUseTree, applyImport,
    TreeNode.insertSegs, nodeToUseTree, alistGet, alistSet, getRootPath, minLine,
    maxLine, sortByCmp, insertSorted, localeCompare, TreeNode.nameOf, TreeNode.alOf,
    TreeNode.childrenOf, TreeNode.isGlobOf, List.attach_map_val]

/-- C1 (amended): the merge key distinguishes the terminal marker from the
self marker, so `use A;` and `use A::{self};` keep two distinct
flat imports; merging them nevertheless yields exactly one statement, whose tree
is root `A` with a single explicit self leaf (denoting the same import as
`use A;`). -/
theorem C1_amended_thm :
    parseUseStatement "use A;" = .ok stmtUseA ∧
    parseUseStatement "use A::{self};" = .ok stmtUseASelf ∧
    (mergeFlatImports
      (expandToFlatImports stmtUseA.tree ++ expandToFlatImports stmtUseASelf.tree)).length = 2 ∧
    mergeUseStatements [stmtUseA, stmtUseASelf] = [mergedStmt treeASelfLeaf] := by
  refine ⟨parse_useA, parse_useASelf, ?_, ?_⟩
  · simp +decide [stmtUseA, stmtUseASelf, segR, mergeUseStatements, mergeGroup, mergeFlatImports, mergeStep, mergeAlias,
    getFlatImportKey, expandToFlatImports, buildUseTree, applyImport,
    TreeNode.insertSegs, nodeToUseTree, alistGet, alistSet, getRootPath, minLine,
    maxLine, sortByCmp, insertSorted, localeCompare, TreeNode.nameOf, TreeNode.alOf,
    TreeNode.childrenOf, TreeNode.isGlobOf, List.attach_map_val]
  · simp +decide [stmtUseA, stmtUseASelf, mergedStmt, treeASelfLeaf, segR, mergeUseStatements, mergeGroup, mergeFlatImports, mergeStep, mergeAlias,
    getFlatImportKey, expandToFlatImports, buildUseTree, applyImport,
    TreeNode.insertSegs, nodeToUseTree, alistGet, alistSet, getRootPath, minLine,
    maxLine, sortByCmp, insertSorted, localeCompare, TreeNode.nameOf, TreeNode.alOf,
    TreeNode.childrenOf, TreeNode.isGlobOf, List.attach_map_val]

/-! ## C4 -/

/-- C4: merging `use A;` and `use A::B;` yields exactly one statement whose
tree has root `A` with exactly two children: a `self` leaf and a `B` leaf. -/
theorem C4_thm :
    parseUseStatement "use A;" = .ok stmtUseA ∧
    parseUseStatement "use A::B;" = .ok stmtUseAB ∧
    mergeUseStatements [stmtUseA, stmtUseAB] =
      [mergedStmt (UseTree.mk { name := "A" }
        (some [UseTree.mk { name := "self" } none false false,
               UseTree.mk { name := "B" } none false false]) false false)] := by
  refine ⟨parse_useA, parse_useAB, ?_⟩
  simp +decide [stmtUseA, stmtUseAB, mergedStmt, segR, mergeUseStatements, mergeGroup, mergeFlatImports, mergeStep, mergeAlias,
    getFlatImportKey, expandToFlatImports, buildUseTree, applyImport,
    TreeNode.insertSegs, nodeToUseTree, alistGet, alistSet, getRootPath, minLine,
    maxLine, sortByCmp, insertSorted, localeCompare, TreeNode.nameOf, TreeNode.alOf,
    TreeNode.childrenOf, TreeNode.isGlobOf, List.attach_map_val]

/-! ## C5 -/

/-- C5: alias-priority resolution — explicit alias beats no alias beats the
placeholder `_`, in either input order: `as _` with a plain import merges to
the plain import, `as _` with `as R` merges to `as R`; the underlying
`mergeAlias` priority holds for every explicit alias `r ≠ "_"`. -/
theorem C5_thm :
    parseUseStatement "use A::T as _;" = .ok stmtUseTU ∧
    parseUseStatement "use A::T;" = .ok stmtUseT ∧
    parseUseStatement "use A::T as R;" = .ok stmtUseTR ∧
    mergeUseStatements [stmtUseTU, stmtUseT] =
      [mergedStmt (UseTree.mk { name := "A" }
        (some [UseTree.mk { name := "T" } none false false]) false false)] ∧
    mergeUseStatements [stmtUseT, stmtUseTU] =
      [mergedStmt (UseTree.mk { name := "A" }
        (some [UseTree.mk { name := "T" } none false false]) false false)] ∧
    mergeUseStatements [stmtUseTU, stmtUseTR] =
      [mergedStmt (UseTree.mk { name := "A" }
        (some [UseTree.mk { name := "T", al := some "R" } none false false]) false false)] ∧
    mergeUseStatements [stmtUseTR, stmtUseTU] =
      [mergedStmt (UseTree.mk { name := "A" }
        (some [UseTree.mk { name := "T", al := some "R" } none false false]) false false)] ∧
    (∀ r : String, r ≠ "_" →
      mergeAlias (some "_") (some r) = some r ∧
      mergeAlias (some r) (some "_") = some r ∧
      mergeAlias none (some r) = some r ∧
      mergeAlias (some r) none = some r ∧
      mergeAlias (some "_") none = none ∧
      mergeAlias none (some "_") = none) := by
  refine ⟨parse_useTU, parse_useT, parse_useTR, ?_, ?_, ?_, ?_, ?_⟩
  · simp +decide [stmtUseTU, stmtUseT, mergedStmt, segR, mergeUseStatements, mergeGroup, mergeFlatImports, mergeStep, mergeAlias,
    getFlatImportKey, expandToFlatImports, buildUseTree, applyImport,
    TreeNode.insertSegs, nodeToUseTree, alistGet, alistSet, getRootPath, minLine,
    maxLine, sortByCmp, insertSorted, localeCompare, TreeNode.nameOf, TreeNode.alOf,
    TreeNode.childrenOf, TreeNode.isGlobOf, List.attach_map_val]
  · simp +decide [stmtUseTU, stmtUseT, mergedStmt, segR, mergeUseStatements, mergeGroup, mergeFlatImports, mergeStep, mergeAlias,
    getFlatImportKey, expandToFlatImports, buildUseTree, applyImport,
    TreeNode.insertSegs, nodeToUseTree, alistGet, alistSet, getRootPath, minLine,
    maxLine, sortByCmp, insertSorted, localeCompare, TreeNode.nameOf, TreeNode.alOf,
    TreeNode.childrenOf, TreeNode.isGlobOf, List.attach_map_val]
  · simp +decide [stmtUseTU, stmtUseTR, mergedStmt, segR, mergeUseStatements, mergeGroup, mergeFlatImports, mergeStep, mergeAlias,
    getFlatImportKey, expandToFlatImports, buildUseTree, applyImport,
    TreeNode.insertSegs, nodeToUseTree, alistGet, alistSet, getRootPath, minLine,
    maxLine, sortByCmp, insertSorted, localeCompare, TreeNode.nameOf, TreeNode.alOf,
    TreeNode.childrenOf, TreeNode.isGlobOf, List.attach_map_val]
  · simp +decide [stmtUseTU, stmtUseTR, mergedStmt, segR, mergeUseStatements, mergeGroup, mergeFlatImports, mergeStep, mergeAlias,
    getFlatImportKey, expandToFlatImports, buildUseTree, applyImport,
    TreeNode.insertSegs, nodeToUseTree, alistGet, alistSet, getRootPath, minLine,
    maxLine, sortByCmp, insertSorted, localeCompare, TreeNode.nameOf, TreeNode.alOf,
    TreeNode.childrenOf, TreeNode.isGlobOf, List.attach_map_val]
  · intro r hr
    refine ⟨?_, ?_, ?_, ?_, ?_, ?_⟩ <;> simp [mergeAlias, hr]

/-- C5 witness: the general alias-priority clause instantiated at the
explicit alias `R`. -/
theorem C5_witness : mergeAlias (some "_") (some "R") = some "R" :=
  (C5_thm.2.2.2.2.2.2.2 "R" (by decide)).1

/-! ## C6 -/

/-- The parse of `use foo::{*, Bar, self, Aaa};`. -/
def stmtFoo : UseStatement :=
  { tree := UseTree.mk (segR "foo" 0 4 7)
      (some [UseTree.mk (segR "*" 0 10 11) none true false,
             UseTree.mk (segR "Bar" 0 13 16) none false false,
             UseTree.mk (segR "self" 0 18 22) none false false,
             UseTree.mk (segR "Aaa" 0 24 27) none false false]) false false
    attributes := some [], range := zeroRng }

theorem parse_useFoo :
    parseUseStatement "use foo::{*, Bar, self, Aaa};" = .ok stmtFoo := by
  simp [stmtFoo, segR, parseUseStatement, tokenize, tokenizeAux, isWsChar, isIdentStart, isIdentChar,
    singleCharType, keywordType, obraceChar, cbraceChar, parseStatementToks,
    parseVisibility, parseUseTree, parseUseTreeList, parseSegment, expectTok,
    tokenToRange, consumeUntilCloseParen, zeroRng]

/-- C6: the sorter's self-first rule is keyed on the legacy `isSelf` flag,
which the current parser never sets — a parsed `self` leaf therefore sorts
alphabetically among the ordinary children instead of first.  Sorting the
parsed children `{*, Bar, self, Aaa}` yields `Aaa, Bar, self, *`, not the
claimed `self, Aaa, Bar, *`; the glob-last and alphabetical rules do hold. -/
theorem C6_thm :
    parseUseStatement "use foo::{*, Bar, self, Aaa};" = .ok stmtFoo ∧
    (stmtFoo.tree.children.getD []).all (fun c => c.isSelf = false) = true ∧
    ((sortUseTree stmtFoo.tree).children.getD []).map (fun c => c.segment.name) =
      ["Aaa", "Bar", "self", "*"] ∧
    ((sortUseTree stmtFoo.tree).children.getD []).map (fun c => c.segment.name) ≠
      ["self", "Aaa", "Bar", "*"] := by
  refine ⟨parse_useFoo, by simp +decide [stmtFoo, segR, UseTree.children, UseTree.isSelf], ?_, ?_⟩
  · simp +decide [stmtFoo, segR, sortUseTree, sortByCmp, insertSorted, compareTreeChildren,
      localeCompare, UseTree.children, UseTree.segment, UseTree.isSelf, UseTree.isGlob,
      List.attach_map_val]
  · simp +decide [stmtFoo, segR, sortUseTree, sortByCmp, insertSorted, compareTreeChildren,
      localeCompare, UseTree.children, UseTree.segment, UseTree.isSelf, UseTree.isGlob,
      List.attach_map_val]

/-! ## C7 -/

/-- C7 counterexample: for the parsed `use A::{self};` — whose root has the
single self child — `needsBraces` reports that braces are required, yet the
formatter inlines the child and renders `use A::self;`, not a brace block. -/
theorem C7_counterexample :
    parseUseStatement "use A::{self};" = .ok stmtUseASelf ∧
    needsBraces stmtUseASelf.tree = true ∧
    formatUseStatement stmtUseASelf = "use A::self;" := by
  refine ⟨parse_useASelf, by simp +decide [stmtUseASelf, segR, needsBraces,
    UseTree.children, UseTree.segment, UseTree.isGlob], ?_⟩
  simp +decide [stmtUseASelf, segR, formatUseStatement, formatUseTree, formatBracedChildren,
    sortUseTree, sortByCmp, insertSorted, compareTreeChildren, localeCompare, aliasSuffix,
    UseTree.children, UseTree.segment, UseTree.isSelf, UseTree.isGlob, List.attach_map_val]

theorem sortByCmp_length (cmp : α → α → Int) (l : List α) :
    (sortByCmp cmp l).length = l.length :=
  (sortByCmp_perm cmp l).length_eq

theorem sortUseTree_single (seg : UsePathSegment) (c : UseTree) (g s : Bool) :
    sortUseTree (UseTree.mk seg (some [c]) g s) =
      UseTree.mk seg (some [sortUseTree c]) g s := by
  simp [sortUseTree, sortByCmp, insertSorted, List.attach_map_val]

theorem sortUseTree_some (seg : UsePathSegment) (cs : List UseTree) (g s : Bool)
    (h : cs ≠ []) :
    sortUseTree (UseTree.mk seg (some cs) g s) =
      UseTree.mk seg (some (sortByCmp compareTreeChildren (cs.map sortUseTree))) g s := by
  have hemp : cs.isEmpty = false := by simpa using h
  simp [sortUseTree, hemp, List.attach_map_val]

/-- C7 (amended): the formatter inlines EVERY single child as
`parent::child` — including a lone `self` or glob child — and renders a
brace block (one entry per line, one 4-space indent level deeper, trailing
comma on every entry, closing brace at the parent indent) only for two or
more children; `needsBraces` computes the claimed self/glob exception but
the formatter does not consult it. -/
theorem C7_amended_thm :
    (∀ (seg : UsePathSegment) (c : UseTree) (ind : String),
      formatUseTree (UseTree.mk seg (some [c]) false false) ind =
        seg.name ++ aliasSuffix seg.al ++ "::" ++ formatUseTree (sortUseTree c) ind) ∧
    (∀ (seg : UsePathSegment) (c : UseTree), c.segment.name = "self" ∨ c.isGlob = true →
      needsBraces (UseTree.mk seg (some [c]) false false) = true) ∧
    (∀ (seg : UsePathSegment) (cs : List UseTree) (ind : String), 1 < cs.length →
      formatUseTree (UseTree.mk seg (some cs) false false) ind =
        seg.name ++ aliasSuffix seg.al ++ "::" ++
          formatBracedChildren (sortByCmp compareTreeChildren (cs.map sortUseTree)) ind) ∧
    (∀ (cs : List UseTree) (ind : String),
      formatBracedChildren cs ind =
        String.intercalate "\n" (["\x7b"] ++
          cs.map (fun c => (ind ++ "    ") ++ formatUseTree c (ind ++ "    ") ++ ",") ++
          [ind ++ "\x7d"])) := by
  refine ⟨?_, ?_, ?_, ?_⟩
  · intro seg c ind
    rw [formatUseTree, sortUseTree_single]
    simp [UseTree.isGlob, UseTree.isSelf, UseTree.children, UseTree.segment]
  · intro seg c h
    rcases h with h | h <;> simp [needsBraces, UseTree.children, h]
  · intro seg cs ind h
    have hne : cs ≠ [] := by intro hc; subst hc; simp at h
    have hlen : (sortByCmp compareTreeChildren (cs.map sortUseTree)).length = cs.length := by
      rw [sortByCmp_length, List.length_map]
    obtain ⟨a, rest1, hs1⟩ : ∃ a rest1,
        sortByCmp compareTreeChildren (cs.map sortUseTree) = a :: rest1 := by
      cases hx : sortByCmp compareTreeChildren (cs.map sortUseTree) with
      | nil => rw [hx] at hlen; simp at hlen; omega
      | cons a rest1 => exact ⟨a, rest1, rfl⟩
    obtain ⟨b, rest2, hs2⟩ : ∃ b rest2, rest1 = b :: rest2 := by
      cases hx : rest1 with
      | nil => rw [hx] at hs1; rw [hs1] at hlen; simp at hlen; omega
      | cons b rest2 => exact ⟨b, rest2, rfl⟩
    rw [formatUseTree, sortUseTree_some seg cs false false hne, hs1, hs2]
    have hgt : 0 < cs.length := by omega
    simp [UseTree.isGlob, UseTree.isSelf, UseTree.children, UseTree.segment, hgt,
      ← hs2, ← hs1]
  · intro cs ind
    rw [formatBracedChildren]
    simp [List.attach_map_val]

/-- C7 witness: the inline and brace clauses instantiated concretely — a
lone self child inlines while `needsBraces` asks for braces, and a
two-child node renders as a brace block. -/
theorem C7_witness :
    needsBraces (UseTree.mk { name := "A" }
      (some [UseTree.mk { name := "self" } none false false]) false false) = true ∧
    formatUseTree (UseTree.mk { name := "X" }
      (some [UseTree.mk { name := "b" } none false false,
             UseTree.mk { name := "a" } none false false]) false false) "" =
      "X" ++ aliasSuffix none ++ "::" ++
        formatBracedChildren (sortByCmp compareTreeChildren
          ([UseTree.mk { name := "b" } none false false,
            UseTree.mk { name := "a" } none false false].map sortUseTree)) "" :=
  ⟨C7_amended_thm.2.1 { name := "A" } (UseTree.mk { name := "self" } none false false)
      (Or.inl rfl),
   C7_amended_thm.2.2.1 { name := "X" }
      [UseTree.mk { name := "b" } none false false,
       UseTree.mk { name := "a" } none false false] "" (by decide)⟩

/-! ## C9: the spec grammar (§6 EBNF), as a token-level recognizer

Modelled from the spec: `statement := visibility? "use" tree ";"` with
`tree := "*" | "self" alias? | segment alias? ("::" child)?`,
`child := "{" tree ("," tree)* ","? "}" | "*" | tree`,
`segment := identifier`, `alias := "as" identifier`,
`visibility := "pub" ( "(" ( "in" path | token ) ")" )?`.
The recognizer commits on the usual LL lookaheads (`as`, `::`, `{`),
which are unambiguous in this grammar. -/

/-- `alias?`: optionally `as identifier`; fails only on a dangling `as`. -/
def grammarAliasOpt (rest : List Token) : Option (List Token) :=
  match rest with
  | a :: r2 =>
      if a.type = .asT then
        match r2 with
        | al :: r3 => if al.type = .ident then some r3 else none
        | [] => none
      else some rest
  | [] => some rest

/-- `path := identifier ("::" identifier)*` (inside `pub(in …)`). -/
def grammarPath (fuel : Nat) (toks : List Token) : Option (List Token) :=
  match fuel with
  | 0 => none
  | fuel + 1 =>
    match toks with
    | t :: rest =>
        if t.type = .ident then
          match rest with
          | d :: rest2 =>
              if d.type = .dcolon then grammarPath fuel rest2 else some rest
          | [] => some rest
        else none
    | [] => none

/-- `visibility?` as written in the spec grammar. -/
def grammarVisibility (toks : List Token) : Option (List Token) :=
  match toks with
  | [] => some []
  | p :: rest =>
    if p.type = .pubT then
      match rest with
      | [] => some []
      | o :: rest2 =>
        if o.type = .oparen then
          match rest2 with
          | [] => none
          | i :: rest3 =>
            if i.type = .inT then
              match grammarPath (rest3.length + 1) rest3 with
              | some (c :: rest5) => if c.type = .cparen then some rest5 else none
              | _ => none
            else
              match rest3 with
              | c :: rest4 => if c.type = .cparen then some rest4 else none
              | [] => none
        else some rest
    else some toks

mutual

/-- `tree := "*" | "self" alias? | segment alias? ("::" child)?` with
`child` inlined, mirroring the parser's dispatch. -/
def grammarTree (fuel : Nat) (toks : List Token) : Option (List Token) :=
  match fuel with
  | 0 => none
  | fuel + 1 =>
    match toks with
    | [] => none
    | tok :: rest =>
        if tok.type = .star then some rest
        else if tok.type = .selfT then grammarAliasOpt rest
        else if tok.type = .ident then
          match grammarAliasOpt rest with
          | none => none
          | some r1 =>
            match r1 with
            | [] => some r1
            | d :: r2 =>
                if d.type = .dcolon then
                  match r2 with
                  | [] => none
                  | ob :: r3 =>
                      if ob.type = .obrace then
                        match grammarTreeList fuel r3 with
                        | some (cb :: r5) =>
                            if cb.type = .cbrace then some r5 else none
                        | _ => none
                      else if ob.type = .star then some r3
                      else grammarTree fuel r2
                else some r1
        else none

/-- `tree ("," tree)* ","?` — at least one tree, commas between, an
optional trailing comma before the closing brace. -/
def grammarTreeList (fuel : Nat) (toks : List Token) : Option (List Token) :=
  match fuel with
  | 0 => none
  | fuel + 1 =>
    match grammarTree fuel toks with
    | none => none
    | some r1 =>
      match r1 with
      | [] => some r1
      | c :: r2 =>
          if c.type = .comma then
            match r2 with
            | [] => none
            | t2 :: _ =>
                if t2.type = .cbrace then some r2 else grammarTreeList fuel r2
          else some r1

end

/-- `statement := visibility? "use" tree ";"` — nothing before or after. -/
def grammarStatement (toks : List Token) : Bool :=
  match grammarVisibility toks with
  | none => false
  | some r1 =>
    match r1 with
    | [] => false
    | u :: r2 =>
        if u.type = .useT then
          match grammarTree (r2.length + 1) r2 with
          | some [sc] => sc.type = .semi
          | _ => false
        else false

theorem grammarAliasOpt_length {rest r1 : List Token}
    (h : grammarAliasOpt rest = some r1) : r1.length ≤ rest.length := by
  unfold grammarAliasOpt at h
  cases rest with
  | nil => simp at h; simp [h]
  | cons a r2 =>
      by_cases ha : a.type = .asT
      · simp only [ha, if_true] at h
        cases r2 with
        | nil => simp at h
        | cons al r3 =>
            by_cases hal : al.type = .ident
            · simp [hal] at h; subst h; simp; omega
            · simp [hal] at h
      · simp [ha] at h; subst h; simp

theorem grammarTree_length :
    ∀ fg, (∀ {toks rest : List Token}, grammarTree fg toks = some rest →
        rest.length < toks.length) ∧
      (∀ {toks rest : List Token}, grammarTreeList fg toks = some rest →
        rest.length ≤ toks.length) := by
  intro fg
  induction fg with
  | zero =>
      constructor <;> intro toks rest h <;> simp [grammarTree, grammarTreeList] at h
  | succ fg ih =>
      obtain ⟨ihT, ihL⟩ := ih
      constructor
      · intro toks rest h
        cases toks with
        | nil => simp [grammarTree] at h
        | cons tok rest0 =>
            simp only [grammarTree] at h
            by_cases h1 : tok.type = .star
            · simp only [h1, if_true] at h
              simp at h; subst h; simp
            · simp only [h1, if_false] at h
              by_cases h2 : tok.type = .selfT
              · simp only [h2, if_true] at h
                have := grammarAliasOpt_length h
                simp; omega
              · simp only [h2, if_false] at h
                by_cases h3 : tok.type = .ident
                · simp only [h3, if_true] at h
                  cases hal : grammarAliasOpt rest0 with
                  | none => rw [hal] at h; simp at h
                  | some r1 =>
                      rw [hal] at h
                      have hlen1 := grammarAliasOpt_length hal
                      simp only at h
                      cases r1 with
                      | nil => simp at h; subst h; simp
                      | cons d r2 =>
                          by_cases hd : d.type = .dcolon
                          · simp only [hd, if_true] at h
                            cases r2 with
                            | nil => simp at h
                            | cons ob r3 =>
                                by_cases hob : ob.type = .obrace
                                · simp only [hob, if_true] at h
                                  cases hgl : grammarTreeList fg r3 with
                                  | none => rw [hgl] at h; simp at h
                                  | some r4 =>
                                      rw [hgl] at h
                                      have hlen2 := ihL hgl
                                      cases r4 with
                                      | nil => simp at h
                                      | cons cb r5 =>
                                          by_cases hcb : cb.type = .cbrace
                                          · simp [hcb] at h; subst h
                                            simp at hlen1 hlen2 ⊢; omega
                                          · simp [hcb] at h
                                · simp only [hob, if_false] at h
                                  by_cases hstar : ob.type = .star
                                  · simp [hstar] at h; subst h
                                    simp at hlen1 ⊢; omega
                                  · simp only [hstar, if_false] at h
                                    have := ihT h
                                    simp at hlen1 this ⊢; omega
                          · simp [hd] at h; subst h
                            simp at hlen1 ⊢; omega
                · simp [h3] at h
      · intro toks rest h
        simp only [grammarTreeList] at h
        cases hgt : grammarTree fg toks with
        | none => rw [hgt] at h; simp at h
        | some r1 =>
            rw [hgt] at h
            have hlen1 := ihT hgt
            simp only at h
            cases r1 with
            | nil => simp at h; subst h; omega
            | cons c r2 =>
                by_cases hc : c.type = .comma
                · simp only [hc, if_true] at h
                  cases r2 with
                  | nil => simp at h
                  | cons t2 r3 =>
                      by_cases ht2 : t2.type = .cbrace
                      · simp [ht2] at h; subst h
                        simp at hlen1 ⊢; omega
                      · simp only [ht2, if_false] at h
                        have := ihL h
                        simp at hlen1 this ⊢; omega
                · simp [hc] at h; subst h; omega

theorem grammarTree_head {fg : Nat} {tok : Token} {r rest : List Token}
    (h : grammarTree fg (tok :: r) = some rest) :
    tok.type = .star ∨ tok.type = .selfT ∨ tok.type = .ident := by
  cases fg with
  | zero => simp [grammarTree] at h
  | succ fg =>
      simp only [grammarTree] at h
      by_cases h1 : tok.type = .star
      · exact Or.inl h1
      · by_cases h2 : tok.type = .selfT
        · exact Or.inr (Or.inl h2)
        · by_cases h3 : tok.type = .ident
          · exact Or.inr (Or.inr h3)
          · simp [h1, h2, h3] at h

theorem parseSegment_of_alias (bl bc : Nat) (tok : Token) {rest r1 : List Token}
    (h : grammarAliasOpt rest = some r1) :
    ∃ seg, parseSegment bl bc (tok :: rest) = .ok (seg, r1) := by
  unfold grammarAliasOpt at h
  unfold parseSegment
  cases rest with
  | nil => simp at h; subst h; exact ⟨_, rfl⟩
  | cons a r2 =>
      by_cases ha : a.type = .asT
      · simp only [ha, if_true] at h ⊢
        cases r2 with
        | nil => simp at h
        | cons al r3 =>
            by_cases hal : al.type = .ident
            · simp [hal] at h; subst h; exact ⟨_, rfl⟩
            · simp [hal] at h
      · simp [ha] at h; subst h
        simp [ha]

theorem parseUseTree_self (bl bc fp' : Nat) (tok : Token) {rest0 r1 : List Token}
    (hst : ¬tok.type = .star) (hself : tok.type = .selfT)
    (h : grammarAliasOpt rest0 = some r1) :
    ∃ t, parseUseTree bl bc (fp' + 1) (tok :: rest0) = .ok (t, r1) := by
  simp only [parseUseTree, hst, hself, if_false, if_true]
  unfold grammarAliasOpt at h
  cases rest0 with
  | nil => simp at h; subst h; exact ⟨_, rfl⟩
  | cons a r2 =>
      by_cases ha : a.type = .asT
      · simp only [ha, if_true] at h ⊢
        cases r2 with
        | nil => simp at h
        | cons al r3 =>
            by_cases hal : al.type = .ident
            · simp [hal] at h; subst h; exact ⟨_, rfl⟩
            · simp [hal] at h
      · simp [ha] at h; subst h; simp [ha]

/-- The core soundness link: a token stream accepted by the spec grammar's
`tree` (resp. tree-list) production is parsed successfully by
`parseUseTree` (resp. `parseUseTreeList`), consuming exactly the same
tokens, for every sufficiently large fuel. -/
theorem grammar_parse (fg : Nat) :
    (∀ toks rest, grammarTree fg toks = some rest →
      ∀ bl bc fp, toks.length + 1 ≤ fp →
        ∃ t, parseUseTree bl bc fp toks = .ok (t, rest)) ∧
    (∀ toks rest, grammarTreeList fg toks = some rest →
      ∀ bl bc fp, toks.length + 2 ≤ fp →
        ∃ ts, parseUseTreeList bl bc fp toks = .ok (ts, rest)) := by
  induction fg with
  | zero =>
      constructor <;> intro toks rest h <;> simp [grammarTree, grammarTreeList] at h
  | succ fg ih =>
      obtain ⟨ihT, ihL⟩ := ih
      constructor
      · intro toks rest h bl bc fp hfp
        cases toks with
        | nil => simp [grammarTree] at h
        | cons tok rest0 =>
            cases fp with
            | zero => simp at hfp
            | succ fp' =>
                simp only [grammarTree] at h
                by_cases h1 : tok.type = .star
                · simp only [h1, if_true] at h
                  simp at h; subst h
                  simp only [parseUseTree, h1, if_true]
                  exact ⟨_, rfl⟩
                · simp only [h1, if_false] at h
                  by_cases h2 : tok.type = .selfT
                  · simp only [h2, if_true] at h
                    exact parseUseTree_self bl bc fp' tok h1 h2 h
                  · simp only [h2, if_false] at h
                    by_cases h3 : tok.type = .ident
                    · simp only [h3, if_true] at h
                      cases hal : grammarAliasOpt rest0 with
                      | none => rw [hal] at h; simp at h
                      | some r1 =>
                          rw [hal] at h
                          have hlen1 := grammarAliasOpt_length hal
                          obtain ⟨seg, pseg⟩ := parseSegment_of_alias bl bc tok hal
                          simp only [parseUseTree, h1, h2, if_false, pseg]
                          simp only at h
                          cases r1 with
                          | nil =>
                              simp at h; subst h
                              exact ⟨_, rfl⟩
                          | cons d r2 =>
                              by_cases hd : d.type = .dcolon
                              · simp only [hd, if_true] at h ⊢
                                cases r2 with
                                | nil => simp at h
                                | cons ob r3 =>
                                    by_cases hob : ob.type = .obrace
                                    · simp only [hob, if_true] at h ⊢
                                      cases hgl : grammarTreeList fg r3 with
                                      | none => rw [hgl] at h; simp at h
                                      | some r4 =>
                                          rw [hgl] at h
                                          cases r4 with
                                          | nil => simp at h
                                          | cons cb r5 =>
                                              by_cases hcb : cb.type = .cbrace
                                              · simp only [hcb, if_true] at h
                                                simp at h; subst h
                                                have hfuel : r3.length + 2 ≤ fp' := by
                                                  simp at hfp hlen1
                                                  omega
                                                obtain ⟨ts, pl⟩ := ihL r3 (cb :: r5) hgl bl bc fp' hfuel
                                                rw [pl]
                                                simp only [expectTok, hcb, if_true]
                                                exact ⟨_, rfl⟩
                                              · simp [hcb] at h
                                    · simp only [hob, if_false] at h ⊢
                                      by_cases hstar : ob.type = .star
                                      · simp only [hstar, if_true] at h ⊢
                                        simp at h; subst h
                                        exact ⟨_, rfl⟩
                                      · simp only [hstar, if_false] at h ⊢
                                        have hfuel2 : (ob :: r3).length + 1 ≤ fp' := by
                                          simp at hfp hlen1 ⊢
                                          omega
                                        obtain ⟨t, pt⟩ := ihT (ob :: r3) rest h bl bc fp' hfuel2
                                        rw [pt]
                                        exact ⟨_, rfl⟩
                              · simp only [hd, if_false] at h ⊢
                                simp at h; subst h
                                exact ⟨_, rfl⟩
                    · simp [h3] at h
      · intro toks rest h bl bc fp hfp
        simp only [grammarTreeList] at h
        cases hgt : grammarTree fg toks with
        | none => rw [hgt] at h; simp at h
        | some r1 =>
            rw [hgt] at h
            cases toks with
            | nil => cases fg <;> simp [grammarTree] at hgt
            | cons tok rest0 =>
                cases fp with
                | zero => simp at hfp
                | succ fp' =>
                    have hhead := grammarTree_head hgt
                    have hncb : ¬tok.type = .cbrace := by
                      rcases hhead with h' | h' | h' <;> simp [h']
                    have hlt := (grammarTree_length fg).1 hgt
                    have hfuel : (tok :: rest0).length + 1 ≤ fp' := by
                      simp at hfp ⊢; omega
                    obtain ⟨t, pt⟩ := ihT (tok :: rest0) r1 hgt bl bc fp' hfuel
                    simp only [parseUseTreeList, hncb, if_false, pt]
                    simp only at h
                    cases r1 with
                    | nil =>
                        simp at h; subst h
                        exact ⟨_, rfl⟩
                    | cons c r2 =>
                        by_cases hc : c.type = .comma
                        · simp only [hc, if_true] at h ⊢
                          cases r2 with
                          | nil => simp at h
                          | cons t2 r3 =>
                              by_cases ht2 : t2.type = .cbrace
                              · simp only [ht2, if_true] at h
                                simp at h; subst h
                                cases fp'' : fp' with
                                | zero =>
                                    subst fp''
                                    simp at hfuel
                                | succ fq =>
                                    subst fp''
                                    simp only [parseUseTreeList, ht2, if_true]
                                    exact ⟨_, rfl⟩
                              · simp only [ht2, if_false] at h
                                have hfuel2 : (t2 :: r3).length + 2 ≤ fp' := by
                                  simp at hfp hlt ⊢
                                  omega
                                obtain ⟨ts, pl⟩ := ihL (t2 :: r3) rest h bl bc fp' hfuel2
                                rw [pl]
                                exact ⟨_, rfl⟩
                        · simp only [hc, if_false] at h
                          simp at h; subst h
                          exact ⟨[t], by simp [hc]⟩

theorem consume_of_grammarPath :
    ∀ (f : Nat) {toks r4 : List Token}, grammarPath f toks = some r4 →
      ∀ acc, ∃ acc2, consumeUntilCloseParen toks acc = consumeUntilCloseParen r4 acc2 := by
  intro f
  induction f with
  | zero => intro toks r4 h; simp [grammarPath] at h
  | succ f ih =>
      intro toks r4 h acc
      cases toks with
      | nil => simp [grammarPath] at h
      | cons t rest =>
          simp only [grammarPath] at h
          by_cases ht : t.type = .ident
          · simp only [ht, if_true] at h
            have htc : ¬t.type = .cparen := by simp [ht]
            cases rest with
            | nil =>
                simp at h; subst h
                exact ⟨acc ++ t.value, by simp [consumeUntilCloseParen, htc]⟩
            | cons d rest2 =>
                by_cases hd : d.type = .dcolon
                · simp only [hd, if_true] at h
                  have hdc : ¬d.type = .cparen := by simp [hd]
                  obtain ⟨acc2, hacc⟩ := ih h (acc ++ t.value ++ d.value)
                  exact ⟨acc2, by simp [consumeUntilCloseParen, htc, hdc, hacc]⟩
                · simp [hd] at h; subst h
                  exact ⟨acc ++ t.value, by simp [consumeUntilCloseParen, htc]⟩
          · simp [ht] at h

theorem grammarVisibility_parse {toks rest : List Token}
    (h : grammarVisibility toks = some rest) :
    ∃ v, parseVisibility toks = .ok (v, rest) := by
  unfold grammarVisibility at h
  unfold parseVisibility
  cases toks with
  | nil => simp at h; subst h; exact ⟨none, rfl⟩
  | cons p rest0 =>
      by_cases hp : p.type = .pubT
      · simp only [hp, if_true] at h ⊢
        cases rest0 with
        | nil => simp at h; subst h; exact ⟨_, rfl⟩
        | cons o rest2 =>
            by_cases ho : o.type = .oparen
            · simp only [ho, if_true] at h ⊢
              cases rest2 with
              | nil => simp at h
              | cons i rest3 =>
                  by_cases hi : i.type = .inT
                  · simp only [hi, if_true] at h ⊢
                    cases hgp : grammarPath (rest3.length + 1) rest3 with
                    | none => rw [hgp] at h; simp at h
                    | some r4 =>
                        rw [hgp] at h
                        cases r4 with
                        | nil => simp at h
                        | cons c rest5 =>
                            by_cases hc : c.type = .cparen
                            · simp [hc] at h; subst h
                              obtain ⟨acc2, hacc⟩ :=
                                consume_of_grammarPath (rest3.length + 1) hgp "pub(in "
                              rw [hacc]
                              simp [consumeUntilCloseParen, hc, expectTok]
                            · simp [hc] at h
                  · simp only [hi, if_false] at h ⊢
                    cases rest3 with
                    | nil => simp at h
                    | cons c rest4 =>
                        by_cases hc : c.type = .cparen
                        · simp [hc] at h; subst h
                          simp [expectTok, hc]
                        · simp [hc] at h
            · simp [ho] at h; subst h
              simp [ho]
      · simp [hp] at h; subst h
        simp [hp]

/-- C9 (amended): `parseStatement` succeeds on every input derivable from
the spec grammar `statement := visibility? "use" tree ";"`; it does NOT
raise a ParseError on all non-derivable inputs (the `use` keyword and the
terminating semicolon are optional and trailing tokens are ignored) —
errors arise only from malformed tree structure. -/
theorem C9_amended_thm :
    ∀ (s : String) (attrs : List String) (range : Rng),
      grammarStatement (tokenize s) = true →
      ∃ st, parseUseStatement s attrs range = .ok st := by
  intro s attrs range h
  unfold parseUseStatement parseStatementToks
  unfold grammarStatement at h
  cases hv : grammarVisibility (tokenize s) with
  | none => rw [hv] at h; simp at h
  | some r1 =>
      rw [hv] at h
      obtain ⟨v, pv⟩ := grammarVisibility_parse hv
      cases r1 with
      | nil => simp at h
      | cons u r2 =>
          by_cases hu : u.type = .useT
          · simp only [hu, if_true] at h
            cases hgt : grammarTree (r2.length + 1) r2 with
            | none => rw [hgt] at h; simp at h
            | some r3 =>
                rw [hgt] at h
                obtain ⟨t, pt⟩ := (grammar_parse (r2.length + 1)).1 r2 r3 hgt
                  range.start.line range.start.column (r2.length + 1) (by omega)
                simp only [pv, hu, if_true, pt]
                exact ⟨_, rfl⟩
          · simp [hu] at h

/-- C9 counterexample: the input `a` — which lacks both the `use` keyword
and any claim to grammar membership — is not derivable from the statement
grammar, yet `parseUseStatement` succeeds on it; likewise `use a` without
the terminating semicolon. -/
theorem C9_counterexample :
    grammarStatement (tokenize "a") = false ∧
    parseUseStatement "a" =
      .ok { visibility := none
            tree := UseTree.mk (segR "a" 0 0 1) none false false
            attributes := some [], range := zeroRng } ∧
    grammarStatement (tokenize "use a") = false ∧
    parseUseStatement "use a" =
      .ok { visibility := none
            tree := UseTree.mk (segR "a" 0 4 5) none false false
            attributes := some [], range := zeroRng } := by
  refine ⟨?_, ?_, ?_, ?_⟩
  · simp +decide [grammarStatement, grammarVisibility, grammarTree, grammarTreeList, grammarAliasOpt, grammarPath, tokenize, tokenizeAux, isWsChar, isIdentStart, isIdentChar,
    singleCharType, keywordType, obraceChar, cbraceChar]
  · simp +decide [segR, parseUseStatement, tokenize, tokenizeAux, isWsChar, isIdentStart, isIdentChar,
    singleCharType, keywordType, obraceChar, cbraceChar, parseStatementToks,
    parseVisibility, parseUseTree, parseUseTreeList, parseSegment, expectTok,
    tokenToRange, consumeUntilCloseParen, zeroRng]
  · simp +decide [grammarStatement, grammarVisibility, grammarTree, grammarTreeList, grammarAliasOpt, grammarPath, tokenize, tokenizeAux, isWsChar, isIdentStart, isIdentChar,
    singleCharType, keywordType, obraceChar, cbraceChar]
  · simp +decide [segR, parseUseStatement, tokenize, tokenizeAux, isWsChar, isIdentStart, isIdentChar,
    singleCharType, keywordType, obraceChar, cbraceChar, parseStatementToks,
    parseVisibility, parseUseTree, parseUseTreeList, parseSegment, expectTok,
    tokenToRange, consumeUntilCloseParen, zeroRng]

/-- C9 witness: a derivable statement is accepted by the grammar and parsed
successfully. -/
theorem C9_witness :
    grammarStatement (tokenize "use a::{b, c};") = true ∧
    ∃ st, parseUseStatement "use a::{b, c};" [] zeroRng = .ok st := by
  have h : grammarStatement (tokenize "use a::{b, c};") = true := by
    simp +decide [grammarStatement, grammarVisibility, grammarTree, grammarTreeList, grammarAliasOpt, grammarPath, tokenize, tokenizeAux, isWsChar, isIdentStart, isIdentChar,
    singleCharType, keywordType, obraceChar, cbraceChar]
  exact ⟨h, C9_amended_thm "use a::{b, c};" [] zeroRng h⟩

/-! ## C10 -/

theorem alistGet_set (l : List (String × α)) (k k' : String) (v : α) :
    alistGet (alistSet l k' v) k = if k' = k then some v else alistGet l k := by
  induction l with
  | nil => by_cases h : k' = k <;> simp [alistGet, alistSet, h]
  | cons p rest ih =>
      obtain ⟨a, b⟩ := p
      by_cases ha : a = k'
      · subst ha
        by_cases h : a = k <;> simp [alistGet, alistSet, h]
      · by_cases h : k' = k
        · subst h
          simp [alistGet, alistSet, ha, ih]
        · simp [alistGet, alistSet, ha, ih, h]

theorem foldl_ext {β : Type} (f g : β → α → β) (h : ∀ b a, f b a = g b a) :
    ∀ (l : List α) (b : β), l.foldl f b = l.foldl g b := by
  intro l
  induction l with
  | nil => intro b; rfl
  | cons x xs ih => intro b; simp only [List.foldl_cons, h, ih]

theorem foldl_if_append_filter (p : α → Bool) :
    ∀ (l acc : List α),
      l.foldl (fun acc x => if p x then acc ++ [x] else acc) acc = acc ++ l.filter p := by
  intro l
  induction l with
  | nil => intro acc; simp
  | cons x xs ih =>
      intro acc
      by_cases h : p x <;> simp [h, ih]

/-- The flat imports a statement keeps under the unused-import filter:
not reported unused, or a non-placeholder import whose path also occurs
with the placeholder alias `_`. -/
def keptFlats (stmt : UseStatement) (diags : List UnusedImportDiagnostic) :
    List FlatImport :=
  let flats := expandToFlatImports stmt.tree
  flats.filter fun flat =>
    !isUnusedByDiagnostics flat diags ||
      (!decide (flat.al = some "_") && flats.any fun f2 =>
        decide (f2.al = some "_") &&
          decide (String.intercalate "::" f2.path = String.intercalate "::" flat.path))

theorem underscore_map_lookup (flats : List FlatImport) (k : String) :
    (alistGet (flats.foldl
      (fun m flat =>
        if flat.al = some "_" then alistSet m (String.intercalate "::" flat.path) true
        else m) ([] : List (String × Bool))) k).getD false =
    flats.any fun f2 =>
      decide (f2.al = some "_") && decide (String.intercalate "::" f2.path = k) := by
  suffices hgen : ∀ (m : List (String × Bool)),
      (alistGet (flats.foldl
        (fun m flat =>
          if flat.al = some "_" then alistSet m (String.intercalate "::" flat.path) true
          else m) m) k).getD false =
      ((flats.any fun f2 =>
        decide (f2.al = some "_") && decide (String.intercalate "::" f2.path = k)) ||
        (alistGet m k).getD false) by
    simpa [alistGet] using hgen []
  induction flats with
  | nil => intro m; simp
  | cons f fs ih =>
      intro m
      by_cases hf : f.al = some "_"
      · simp only [List.foldl_cons, hf, if_true, List.any_cons, decide_eq_true_eq]
        rw [ih]
        by_cases hk : String.intercalate "::" f.path = k
        · simp [hk, alistGet_set]
        · simp [hk, alistGet_set]
      · simp only [List.foldl_cons, hf, if_false, List.any_cons]
        rw [ih]
        simp [hf]

theorem filterStmtStep_eq (diags : List UnusedImportDiagnostic)
    (result : List UseStatement) (stmt : UseStatement) :
    filterStmtStep diags result stmt =
      if (keptFlats stmt diags).isEmpty then result
      else
        match buildUseTree (keptFlats stmt diags) with
        | none => result
        | some newTree => result ++ [{ stmt with tree := newTree }] := by
  unfold filterStmtStep keptFlats
  have hstep : ∀ (acc : List FlatImport) (flat : FlatImport),
      (fun (acc : List FlatImport) (flat : FlatImport) =>
        if isUnusedByDiagnostics flat diags = true then
          if flat.al = some "_" then acc
          else
            if (alistGet ((expandToFlatImports stmt.tree).foldl
              (fun m flat =>
                if flat.al = some "_" then
                  alistSet m (String.intercalate "::" flat.path) true
                else m) ([] : List (String × Bool)))
                (String.intercalate "::" flat.path)).getD false = true then
              acc ++ [flat]
            else acc
        else acc ++ [flat]) acc flat =
      if (!isUnusedByDiagnostics flat diags ||
          (!decide (flat.al = some "_") &&
            (expandToFlatImports stmt.tree).any fun f2 =>
              decide (f2.al = some "_") &&
                decide (String.intercalate "::" f2.path =
                  String.intercalate "::" flat.path))) = true then
        acc ++ [flat]
      else acc := by
    intro acc flat
    simp only [underscore_map_lookup]
    by_cases hu : isUnusedByDiagnostics flat diags
    · by_cases hal : flat.al = some "_"
      · simp [hu, hal]
      · by_cases hany : ((expandToFlatImports stmt.tree).any fun f2 =>
            decide (f2.al = some "_") &&
              decide (String.intercalate "::" f2.path =
                String.intercalate "::" flat.path)) = true
        · simp [hu, hal, hany]
        · simp [hu, hal, hany]
    · simp [hu]
  simp only [hstep]
  rw [foldl_if_append_filter]
  simp only [List.nil_append]
  rcases hk : (expandToFlatImports stmt.tree).filter _ with _ | ⟨a, l⟩
  · simp_all
  · simp_all

/-- The claim's removal criterion, following the claim's words: a
flat import is removed exactly when its segment spans are contained within one
of the externally supplied unused Ranges. -/
def claimedRemovalCriterion (flat : FlatImport) (unused : List Rng) : Bool :=
  unused.any fun u => flat.spans.all fun sp =>
    (decide (u.start.line < sp.start.line) ||
      (decide (sp.start.line = u.start.line) && decide (u.start.column ≤ sp.start.column))) &&
    (decide (sp.stop.line < u.stop.line) ||
      (decide (sp.stop.line = u.stop.line) && decide (sp.stop.column ≤ u.stop.column)))

/-- A statement whose two segments both carry the wide span `0:0–0:10`. -/
def wideRng : Rng := { start := { line := 0, column := 0 }, stop := { line := 0, column := 10 } }

/-- `use A::B;` with wide segment spans, for the containment-direction
counterexample. -/
def stmtWide : UseStatement :=
  { tree := UseTree.mk { name := "A", range := some wideRng }
      (some [UseTree.mk { name := "B", range := some wideRng } none false false])
      false false
    range := zeroRng }

/-- The unused diagnostic `0:2–0:5`, strictly inside the wide span. -/
def diagNarrow : UnusedImportDiagnostic :=
  { range := { start := { line := 0, column := 2 }, stop := { line := 0, column := 5 } } }

/-- C10 counterexample: the containment direction is reversed — the code
removes a flat import when a DIAGNOSTIC range is contained within one of
the import's spans; at `stmtWide`/`diagNarrow` the import's spans are NOT
contained in the unused range (the claim would keep it), yet the filter
removes the statement entirely. -/
theorem C10_counterexample :
    expandToFlatImports stmtWide.tree =
      [{ path := ["A", "B", ""], spans := [wideRng, wideRng] }] ∧
    claimedRemovalCriterion { path := ["A", "B", ""], spans := [wideRng, wideRng] }
      [diagNarrow.range] = false ∧
    isUnusedByDiagnostics { path := ["A", "B", ""], spans := [wideRng, wideRng] }
      [diagNarrow] = true ∧
    filterUnusedImports [stmtWide] [diagNarrow] = [] := by
  refine ⟨?_, ?_, ?_, ?_⟩
  · simp +decide [stmtWide, wideRng, expandToFlatImports]
  · simp +decide [claimedRemovalCriterion, diagNarrow, wideRng]
  · simp +decide [isUnusedByDiagnostics, rangeContainedInSpans, diagNarrow, wideRng]
  · simp +decide [filterUnusedImports, filterStmtStep, stmtWide, wideRng, diagNarrow,
      expandToFlatImports, isUnusedByDiagnostics, rangeContainedInSpans, alistGet,
      alistSet, buildUseTree]

/-- C10 (amended): with no unused ranges the statement list is returned
unchanged; `isUnusedByDiagnostics` holds exactly when some diagnostic range
is contained within one of the import's segment spans (diagnostic ⊆ span,
not span ⊆ range); with a non-empty diagnostic list the filter keeps, per
statement, exactly the flat imports that are not reported unused or that
are non-placeholder imports whose path also occurs with the placeholder
alias `_`; a statement none of whose flat imports survive is dropped,
otherwise its tree is rebuilt from the kept flat imports. -/
theorem C10_amended_thm :
    (∀ imports : List UseStatement, filterUnusedImports imports [] = imports) ∧
    (∀ (flat : FlatImport) (diags : List UnusedImportDiagnostic),
      isUnusedByDiagnostics flat diags =
        diags.any fun d => flat.spans.any fun sp =>
          (decide (sp.start.line < d.range.start.line) ||
            (decide (d.range.start.line = sp.start.line) &&
              decide (sp.start.column ≤ d.range.start.column))) &&
          (decide (d.range.stop.line < sp.stop.line) ||
            (decide (d.range.stop.line = sp.stop.line) &&
              decide (d.range.stop.column ≤ sp.stop.column)))) ∧
    (∀ (stmts : List UseStatement) (diags : List UnusedImportDiagnostic), diags ≠ [] →
      filterUnusedImports stmts diags =
        stmts.foldl (fun result stmt =>
          if (keptFlats stmt diags).isEmpty then result
          else
            match buildUseTree (keptFlats stmt diags) with
            | none => result
            | some newTree => result ++ [{ stmt with tree := newTree }]) []) ∧
    (∀ (stmt : UseStatement) (diags : List UnusedImportDiagnostic) (flat : FlatImport),
      flat ∈ keptFlats stmt diags ↔
        flat ∈ expandToFlatImports stmt.tree ∧
          (isUnusedByDiagnostics flat diags = false ∨
            (flat.al ≠ some "_" ∧ ∃ f2 ∈ expandToFlatImports stmt.tree,
              f2.al = some "_" ∧
                String.intercalate "::" f2.path = String.intercalate "::" flat.path))) := by
  refine ⟨?_, ?_, ?_, ?_⟩
  · intro imports
    simp [filterUnusedImports]
  · intro flat diags
    simp only [isUnusedByDiagnostics, rangeContainedInSpans]
  · intro stmts diags hne
    unfold filterUnusedImports
    have hlen : ¬diags.length = 0 := by simpa using hne
    simp only [hlen, if_false]
    exact foldl_ext _ _ (filterStmtStep_eq diags) stmts []
  · intro stmt diags flat
    unfold keptFlats
    simp only [List.mem_filter, Bool.or_eq_true, Bool.not_eq_true', Bool.and_eq_true,
      List.any_eq_true, decide_eq_true_eq, Bool.not_eq_true, decide_eq_false_iff_not]

/-- C10 witness: the characterization applied to the wide-span statement
and the narrow diagnostic — every flat import is removed, so the statement
is dropped. -/
theorem C10_witness : filterUnusedImports [stmtWide] [diagNarrow] = [] := by
  have h := C10_amended_thm.2.2.1 [stmtWide] [diagNarrow] (by simp)
  rw [h]
  simp +decide [keptFlats, stmtWide, wideRng, diagNarrow, expandToFlatImports,
    isUnusedByDiagnostics, rangeContainedInSpans]

/-! ## C8: the file scanner drops only the failing statement -/

/-- Success test for `Except`. -/
def isOkB {ε β : Type} : Except ε β → Bool
  | .ok _ => true
  | .error _ => false

/-- Just the consumption behaviour of a tree-parse result. -/
def exceptShape {ε β : Type} : Except ε (β × List Token) → Option (List Token)
  | .ok (_, rest) => some rest
  | .error _ => none

theorem parseSegment_shape (bl bc bl' bc' : Nat) (toks : List Token) :
    exceptShape (parseSegment bl bc toks) = exceptShape (parseSegment bl' bc' toks) := by
  unfold parseSegment
  cases toks with
  | nil => rfl
  | cons tok rest =>
      cases rest with
      | nil => rfl
      | cons a r2 =>
          by_cases ha : a.type = .asT
          · simp only [ha, if_true]
            cases r2 with
            | nil => rfl
            | cons al r3 => rfl
          · simp only [ha, if_false]
            rfl

/-- The parser's control flow — which tokens are consumed, and whether it
fails — is independent of the base position (which only shifts ranges). -/
theorem parse_base_shape (f : Nat) :
    (∀ toks bl bc bl' bc',
      exceptShape (parseUseTree bl bc f toks) = exceptShape (parseUseTree bl' bc' f toks)) ∧
    (∀ toks bl bc bl' bc',
      exceptShape (parseUseTreeList bl bc f toks) =
        exceptShape (parseUseTreeList bl' bc' f toks)) := by
  induction f with
  | zero => constructor <;> intro toks bl bc bl' bc' <;> rfl
  | succ f ih =>
      obtain ⟨ihT, ihL⟩ := ih
      constructor
      · intro toks bl bc bl' bc'
        cases toks with
        | nil => rfl
        | cons tok rest0 =>
            simp only [parseUseTree]
            by_cases h1 : tok.type = .star
            · simp [h1, exceptShape]
            · simp only [h1, if_false]
              by_cases h2 : tok.type = .selfT
              · simp only [h2, if_true]
                cases rest0 with
                | nil => rfl
                | cons a r2 =>
                    by_cases ha : a.type = .asT
                    · simp only [ha, if_true]
                      cases r2 with
                      | nil => rfl
                      | cons al r3 => rfl
                    · simp only [ha, if_false]; rfl
              · simp only [h2, if_false]
                have hseg := parseSegment_shape bl bc bl' bc' (tok :: rest0)
                cases hx : parseSegment bl bc (tok :: rest0) with
                | error e =>
                    cases hy : parseSegment bl' bc' (tok :: rest0) with
                    | error e' => rfl
                    | ok p => rw [hx, hy] at hseg; simp [exceptShape] at hseg
                | ok p =>
                    obtain ⟨seg, rest1⟩ := p
                    cases hy : parseSegment bl' bc' (tok :: rest0) with
                    | error e' => rw [hx, hy] at hseg; simp [exceptShape] at hseg
                    | ok p' =>
                        obtain ⟨seg', rest1'⟩ := p'
                        rw [hx, hy] at hseg
                        simp only [exceptShape, Option.some.injEq] at hseg
                        subst hseg
                        cases rest1 with
                        | nil => rfl
                        | cons d r2 =>
                            by_cases hd : d.type = .dcolon
                            · simp only [hd, if_true]
                              cases r2 with
                              | nil =>
                                  have := ihT ([] : List Token) bl bc bl' bc'
                                  cases hu : parseUseTree bl bc f [] with
                                  | error e =>
                                      cases hv : parseUseTree bl' bc' f [] with
                                      | error e' => rfl
                                      | ok q => rw [hu, hv] at this; simp [exceptShape] at this
                                  | ok q =>
                                      obtain ⟨t1, q1⟩ := q
                                      cases hv : parseUseTree bl' bc' f [] with
                                      | error e' => rw [hu, hv] at this; simp [exceptShape] at this
                                      | ok q' =>
                                          obtain ⟨t2, q2⟩ := q'
                                          rw [hu, hv] at this
                                          simp only [exceptShape, Option.some.injEq] at this
                                          subst this
                                          rfl
                              | cons ob r3 =>
                                  by_cases hob : ob.type = .obrace
                                  · simp only [hob, if_true]
                                    have := ihL r3 bl bc bl' bc'
                                    cases hu : parseUseTreeList bl bc f r3 with
                                    | error e =>
                                        cases hv : parseUseTreeList bl' bc' f r3 with
                                        | error e' => rfl
                                        | ok q => rw [hu, hv] at this; simp [exceptShape] at this
                                    | ok q =>
                                        obtain ⟨ts1, q1⟩ := q
                                        cases hv : parseUseTreeList bl' bc' f r3 with
                                        | error e' => rw [hu, hv] at this; simp [exceptShape] at this
                                        | ok q' =>
                                            obtain ⟨ts2, q2⟩ := q'
                                            rw [hu, hv] at this
                                            simp only [exceptShape, Option.some.injEq] at this
                                            subst this
                                            unfold expectTok
                                            cases q1 with
                                            | nil => rfl
                                            | cons cb r5 =>
                                                by_cases hcb : cb.type = .cbrace
                                                · simp [hcb, exceptShape]
                                                · simp [hcb, exceptShape]
                                  · simp only [hob, if_false]
                                    by_cases hsr : ob.type = .star
                                    · simp [hsr, exceptShape]
                                    · simp only [hsr, if_false]
                                      have := ihT (ob :: r3) bl bc bl' bc'
                                      cases hu : parseUseTree bl bc f (ob :: r3) with
                                      | error e =>
                                          cases hv : parseUseTree bl' bc' f (ob :: r3) with
                                          | error e' => rfl
                                          | ok q => rw [hu, hv] at this; simp [exceptShape] at this
                                      | ok q =>
                                          obtain ⟨t1, q1⟩ := q
                                          cases hv : parseUseTree bl' bc' f (ob :: r3) with
                                          | error e' => rw [hu, hv] at this; simp [exceptShape] at this
                                          | ok q' =>
                                              obtain ⟨t2, q2⟩ := q'
                                              rw [hu, hv] at this
                                              simp only [exceptShape, Option.some.injEq] at this
                                              subst this
                                              rfl
                            · simp only [hd, if_false]; rfl
      · intro toks bl bc bl' bc'
        cases toks with
        | nil => rfl
        | cons tok rest0 =>
            simp only [parseUseTreeList]
            by_cases hcb : tok.type = .cbrace
            · simp [hcb, exceptShape]
            · simp only [hcb, if_false]
              have := ihT (tok :: rest0) bl bc bl' bc'
              cases hu : parseUseTree bl bc f (tok :: rest0) with
              | error e =>
                  cases hv : parseUseTree bl' bc' f (tok :: rest0) with
                  | error e' => rfl
                  | ok q => rw [hu, hv] at this; simp [exceptShape] at this
              | ok q =>
                  obtain ⟨t1, q1⟩ := q
                  cases hv : parseUseTree bl' bc' f (tok :: rest0) with
                  | error e' => rw [hu, hv] at this; simp [exceptShape] at this
                  | ok q' =>
                      obtain ⟨t2, q2⟩ := q'
                      rw [hu, hv] at this
                      simp only [exceptShape, Option.some.injEq] at this
                      subst this
                      cases q1 with
                      | nil => rfl
                      | cons c r2 =>
                          by_cases hc : c.type = .comma
                          · simp only [hc, if_true]
                            have := ihL r2 bl bc bl' bc'
                            cases hu2 : parseUseTreeList bl bc f r2 with
                            | error e =>
                                cases hv2 : parseUseTreeList bl' bc' f r2 with
                                | error e' => rfl
                                | ok q => rw [hu2, hv2] at this; simp [exceptShape] at this
                            | ok q =>
                                obtain ⟨ts1, s1⟩ := q
                                cases hv2 : parseUseTreeList bl' bc' f r2 with
                                | error e' => rw [hu2, hv2] at this; simp [exceptShape] at this
                                | ok q' =>
                                    obtain ⟨ts2, s2⟩ := q'
                                    rw [hu2, hv2] at this
                                    simp only [exceptShape, Option.some.injEq] at this
                                    subst this
                                    rfl
                          · simp only [hc, if_false]; rfl

/-- Success of the final parse stage is independent of the base position. -/
theorem isOkB_matchTree (bl bc bl' bc' : Nat) (toks2 : List Token) (v : Option String) :
    isOkB ((match parseUseTree bl bc (toks2.length + 1) toks2 with
      | .error e => .error e
      | .ok (tree, _) => .ok (v, tree)) : Except String (Option String × UseTree)) =
    isOkB ((match parseUseTree bl' bc' (toks2.length + 1) toks2 with
      | .error e => .error e
      | .ok (tree, _) => .ok (v, tree)) : Except String (Option String × UseTree)) := by
  have hsh := (parse_base_shape (toks2.length + 1)).1 toks2 bl bc bl' bc'
  cases hu : parseUseTree bl bc (toks2.length + 1) toks2 with
  | error e =>
      cases hv2 : parseUseTree bl' bc' (toks2.length + 1) toks2 with
      | error e' => rfl
      | ok q =>
          obtain ⟨t, rest⟩ := q
          rw [hu, hv2] at hsh
          simp [exceptShape] at hsh
  | ok q =>
      obtain ⟨t1, q1⟩ := q
      cases hv2 : parseUseTree bl' bc' (toks2.length + 1) toks2 with
      | error e' =>
          rw [hu, hv2] at hsh
          simp [exceptShape] at hsh
      | ok q' =>
          obtain ⟨t2, q2⟩ := q'
          rfl

/-- Parse success of a token list is independent of the base position. -/
theorem parseStatementToks_isOk_indep (bl bc bl' bc' : Nat) (toks : List Token) :
    isOkB (parseStatementToks bl bc toks) = isOkB (parseStatementToks bl' bc' toks) := by
  unfold parseStatementToks
  cases parseVisibility toks with
  | error e => rfl
  | ok p =>
      obtain ⟨v, toks1⟩ := p
      cases toks1 with
      | nil => exact isOkB_matchTree bl bc bl' bc' [] v
      | cons tok rest =>
          by_cases htok : tok.type = TokenType.useT
          · simp only [htok, if_true]
            exact isOkB_matchTree bl bc bl' bc' rest v
          · simp only [htok, if_false]
            exact isOkB_matchTree bl bc bl' bc' (tok :: rest) v

/-- Parse success of a statement string is independent of the attributes
and the base range handed to `parseUseStatement`. -/
theorem parseUseStatement_isOk_indep (s : String) (a a' : List String) (r r' : Rng) :
    isOkB (parseUseStatement s a r) = isOkB (parseUseStatement s a' r') := by
  have h := parseStatementToks_isOk_indep r.start.line r.start.column
    r'.start.line r'.start.column (tokenize s)
  unfold parseUseStatement
  cases hu : parseStatementToks r.start.line r.start.column (tokenize s) with
  | error e =>
      cases hv2 : parseStatementToks r'.start.line r'.start.column (tokenize s) with
      | error e' => simp [hu, hv2, isOkB]
      | ok q =>
          rw [hu, hv2] at h
          obtain ⟨v, t⟩ := q
          simp [isOkB] at h
  | ok q =>
      obtain ⟨v, t⟩ := q
      cases hv2 : parseStatementToks r'.start.line r'.start.column (tokenize s) with
      | error e' =>
          rw [hu, hv2] at h
          simp [isOkB] at h
      | ok q' =>
          obtain ⟨v', t'⟩ := q'
          simp [hu, hv2, isOkB]

/-- A line the scanner treats as a single-line use-statement candidate:
not blank, not a line comment, not an (inner) attribute, the use regex
matches, and a `;` at brace depth 0 closes the statement on this line. -/
def candidateLine (l : String) : Bool :=
  (strTrim l != "") && !strStartsWith (strTrim l) "//" && !strStartsWith (strTrim l) "#[" &&
  !strStartsWith (strTrim l) "#![" && (lineMatchUse l).isSome &&
  ((findUseEndInLine l (findUseStartInLine l) 0).1).isSome

/-- The statement text the scanner captures from a single-line candidate. -/
def capturedText (l : String) : String :=
  strSubstring l (findUseStartInLine l)
    (((findUseEndInLine l (findUseStartInLine l) 0).1).getD 0)

/-- A candidate line whose captured text parses. -/
def goodLine (l : String) : Bool :=
  candidateLine l && isOkB (parseUseStatement (capturedText l) [] zeroRng)

/-- A candidate line whose captured text raises a ParseError. -/
def badLine (l : String) : Bool :=
  candidateLine l && !isOkB (parseUseStatement (capturedText l) [] zeroRng)

/-- What the try/catch around `parseUseStatement` appends to the result:
one statement on success, nothing on a ParseError. -/
def pushResult (bid : Nat) (u : String) (a : List String) (r : Rng) :
    List UseStatement :=
  match parseUseStatement u a r with
  | .ok stmt => [{ stmt with blockId := some bid }]
  | .error _ => []

/-- The statements (one or none) the scanner pushes for the single-line
candidate at index `i`. -/
def scannedStmt (lines : List String) (i blockId : Nat) : List UseStatement :=
  let l := lines.getD i ""
  let startCol := findUseStartInLine l
  let endCol := ((findUseEndInLine l startCol 0).1).getD 0
  pushResult blockId (strSubstring l startCol endCol) (extractAttributes lines i)
    { start := { line := findStartLine lines i, column := startCol }
      stop := { line := i, column := endCol } }

/-- The scanner pipeline of `parseRustFile` after line splitting. -/
def scanLines (lines : List String) : List UseStatement :=
  (scanLoop lines (skipInitial lines 0) {}).imports

theorem pushParsed_inUse (st : ScanState) (u : String) (a : List String) (r : Rng) :
    (pushParsed st u a r).inUse = false := by
  unfold pushParsed
  cases parseUseStatement u a r <;> rfl

theorem pushParsed_blockId (st : ScanState) (u : String) (a : List String) (r : Rng) :
    (pushParsed st u a r).blockId = st.blockId := by
  unfold pushParsed
  cases parseUseStatement u a r <;> rfl

theorem pushParsed_imports (st : ScanState) (u : String) (a : List String) (r : Rng) :
    (pushParsed st u a r).imports = st.imports ++ pushResult st.blockId u a r := by
  unfold pushParsed pushResult
  cases parseUseStatement u a r with
  | ok stmt => rfl
  | error e => simp

theorem candidate_facts {l : String} (h : candidateLine l = true) :
    strTrim l ≠ "" ∧ strStartsWith (strTrim l) "//" = false ∧
    strStartsWith (strTrim l) "#[" = false ∧ strStartsWith (strTrim l) "#![" = false ∧
    (lineMatchUse l).isSome = true ∧
    ((findUseEndInLine l (findUseStartInLine l) 0).1).isSome = true := by
  simp only [candidateLine, Bool.and_eq_true, bne_iff_ne, ne_eq,
    Bool.not_eq_true'] at h
  obtain ⟨⟨⟨⟨⟨hA, hB⟩, hC⟩, hD⟩, hE⟩, hF⟩ := h
  exact ⟨hA, hB, hC, hD, hE, hF⟩

theorem candidate_of_good {l : String} (h : goodLine l = true) :
    candidateLine l = true := by
  simp only [goodLine, Bool.and_eq_true] at h
  exact h.1

theorem candidate_of_bad {l : String} (h : badLine l = true) :
    candidateLine l = true := by
  simp only [badLine, Bool.and_eq_true] at h
  exact h.1

theorem findStartLine_eq_self (lines : List String) (i : Nat)
    (h : i = 0 ∨ candidateLine (lines.getD (i - 1) "") = true) :
    findStartLine lines i = i := by
  cases i with
  | zero => rfl
  | succ j =>
      obtain h0 | hc := h
      · exact absurd h0 (Nat.succ_ne_zero j)
      · simp only [Nat.succ_sub_one] at hc
        obtain ⟨h1, h2, h3, _, _, _⟩ := candidate_facts hc
        simp only [List.getD_eq_getElem?_getD] at h1 h2 h3
        unfold findStartLine findStartLineAux
        simp [h1, h2, h3]

theorem extractAttributes_nil (lines : List String) (i : Nat)
    (h : i = 0 ∨ candidateLine (lines.getD (i - 1) "") = true) :
    extractAttributes lines i = [] := by
  cases i with
  | zero => rfl
  | succ j =>
      obtain h0 | hc := h
      · exact absurd h0 (Nat.succ_ne_zero j)
      · simp only [Nat.succ_sub_one] at hc
        obtain ⟨h1, h2, h3, _, _, _⟩ := candidate_facts hc
        simp only [List.getD_eq_getElem?_getD] at h1 h2 h3
        unfold extractAttributes extractAttributesAux
        simp [h1, h2, h3]

theorem skipInitial_zero (lines : List String) (h0 : 0 < lines.length)
    (hc : candidateLine (lines.getD 0 "") = true) : skipInitial lines 0 = 0 := by
  obtain ⟨h1, h2, _, h4, _, _⟩ := candidate_facts hc
  rw [List.getD_eq_getElem lines "" h0] at h1 h2 h4
  rw [skipInitial, dif_pos h0]
  simp [h1, h2, h4]

theorem parseUseStatement_ok_range {s : String} {a : List String} {r : Rng}
    {stmt : UseStatement} (h : parseUseStatement s a r = .ok stmt) :
    stmt.range = r := by
  unfold parseUseStatement at h
  cases hu : parseStatementToks r.start.line r.start.column (tokenize s) with
  | error e => simp [hu] at h
  | ok p =>
      obtain ⟨v, t⟩ := p
      simp only [hu, Except.ok.injEq] at h
      rw [← h]

theorem parse_ok_of_isOkB {s : String} {a : List String} {r : Rng}
    (h : isOkB (parseUseStatement s a r) = true) :
    ∃ stmt, parseUseStatement s a r = .ok stmt := by
  cases hp : parseUseStatement s a r with
  | ok stmt => exact ⟨stmt, rfl⟩
  | error e => rw [hp] at h; simp [isOkB] at h

theorem parse_error_of_not_isOkB {s : String} {a : List String} {r : Rng}
    (h : isOkB (parseUseStatement s a r) = false) :
    ∃ e, parseUseStatement s a r = .error e := by
  cases hp : parseUseStatement s a r with
  | ok stmt => rw [hp] at h; simp [isOkB] at h
  | error e => exact ⟨e, rfl⟩

theorem scannedStmt_good_map (lines : List String) (i bid : Nat)
    (hg : goodLine (lines.getD i "") = true) :
    (scannedStmt lines i bid).map (fun st => st.range.start.line) =
      [findStartLine lines i] := by
  have hok : isOkB (parseUseStatement (capturedText (lines.getD i "")) [] zeroRng)
      = true := by
    simp only [goodLine, Bool.and_eq_true] at hg
    exact hg.2
  rw [parseUseStatement_isOk_indep (capturedText (lines.getD i ""))
    [] (extractAttributes lines i) zeroRng
    { start := { line := findStartLine lines i
                 column := findUseStartInLine (lines.getD i "") }
      stop := { line := i
                column := ((findUseEndInLine (lines.getD i "")
                  (findUseStartInLine (lines.getD i "")) 0).1).getD 0 } }] at hok
  obtain ⟨stmt, hp⟩ := parse_ok_of_isOkB hok
  unfold capturedText at hp
  unfold scannedStmt pushResult
  simp only [hp, List.map_cons, List.map_nil]
  have hr := parseUseStatement_ok_range hp
  simp [hr]

theorem scannedStmt_bad (lines : List String) (i bid : Nat)
    (hb : badLine (lines.getD i "") = true) :
    scannedStmt lines i bid = [] := by
  have hok : isOkB (parseUseStatement (capturedText (lines.getD i "")) [] zeroRng)
      = false := by
    simp only [badLine, Bool.and_eq_true, Bool.not_eq_true'] at hb
    exact hb.2
  rw [parseUseStatement_isOk_indep (capturedText (lines.getD i ""))
    [] (extractAttributes lines i) zeroRng
    { start := { line := findStartLine lines i
                 column := findUseStartInLine (lines.getD i "") }
      stop := { line := i
                column := ((findUseEndInLine (lines.getD i "")
                  (findUseStartInLine (lines.getD i "")) 0).1).getD 0 } }] at hok
  obtain ⟨e, hp⟩ := parse_error_of_not_isOkB hok
  unfold capturedText at hp
  unfold scannedStmt pushResult
  simp only [hp]

/-- On a run of single-line candidates the scan loop appends exactly the
per-line push results, keeping the block id. -/
theorem scanLoop_candidates (lines : List String) (k : Nat) :
    ∀ (i : Nat) (st : ScanState), lines.length - i = k → st.inUse = false →
      (∀ j, i ≤ j → j < lines.length → candidateLine (lines.getD j "") = true) →
      (scanLoop lines i st).imports =
        st.imports ++ (List.range (lines.length - i)).flatMap
          (fun d => scannedStmt lines (i + d) st.blockId) := by
  induction k with
  | zero =>
      intro i st hk hin hc
      rw [scanLoop, dif_neg (by omega : ¬ i < lines.length), hk]
      simp
  | succ k ih =>
      intro i st hk hin hc
      have hlt : i < lines.length := by omega
      have hgd : lines.getD i "" = lines.get ⟨i, hlt⟩ := by
        rw [List.getD_eq_getElem lines "" hlt, List.get_eq_getElem]
      have hcand := hc i (le_refl i) hlt
      rw [hgd] at hcand
      obtain ⟨h1, h2, h3, _, h5, h6⟩ := candidate_facts hcand
      obtain ⟨m, hm⟩ := Option.isSome_iff_exists.mp h5
      obtain ⟨ec, bc, hfe⟩ : ∃ a b, findUseEndInLine (lines.get ⟨i, hlt⟩)
          (findUseStartInLine (lines.get ⟨i, hlt⟩)) 0 = (a, b) := ⟨_, _, rfl⟩
      rw [hfe] at h6
      obtain ⟨endCol, hec⟩ := Option.isSome_iff_exists.mp h6
      subst hec
      rw [scanLoop, dif_pos hlt]
      simp only [hin, if_neg h1, h2, h3, Bool.false_eq_true, if_false, if_true, hm, hfe]
      have hrec := ih (i + 1)
        (pushParsed st
          (strSubstring (lines.get ⟨i, hlt⟩)
            (findUseStartInLine (lines.get ⟨i, hlt⟩)) endCol)
          (extractAttributes lines i)
          { start := { line := findStartLine lines i
                       column := findUseStartInLine (lines.get ⟨i, hlt⟩) }
            stop := { line := i, column := endCol } })
        (by omega) (pushParsed_inUse _ _ _ _) (fun j hj hjl => hc j (by omega) hjl)
      rw [hrec, pushParsed_imports, pushParsed_blockId]
      have hXS : scannedStmt lines i st.blockId =
          pushResult st.blockId
            (strSubstring (lines.get ⟨i, hlt⟩)
              (findUseStartInLine (lines.get ⟨i, hlt⟩)) endCol)
            (extractAttributes lines i)
            { start := { line := findStartLine lines i
                         column := findUseStartInLine (lines.get ⟨i, hlt⟩) }
              stop := { line := i, column := endCol } } := by
        unfold scannedStmt
        simp only [hgd, hfe, Option.getD_some]
      rw [← hXS]
      rw [show lines.length - i = (lines.length - (i + 1)) + 1 from by omega,
        List.range_succ_eq_map, List.flatMap_cons, List.flatMap_map]
      rw [List.append_assoc]
      congr 2
      refine List.flatMap_congr ?_
      intro d hd
      rw [show i + d.succ = i + 1 + d from by omega]

/-- C8: a statement whose text raises a ParseError is omitted from the
scan result while every other well-formed single-line statement is still
recognized: for good lines around one bad line the scanner returns one
statement per good line (at exactly the good lines' indices) and none for
the bad line; the same holds for `parseRustFile` on any file content that
splits into those lines. -/
theorem C8_thm (gs1 gs2 : List String) (b : String)
    (hg1 : ∀ l ∈ gs1, goodLine l = true)
    (hb : badLine b = true)
    (hg2 : ∀ l ∈ gs2, goodLine l = true) :
    (scanLines (gs1 ++ b :: gs2)).map (fun st => st.range.start.line) =
      List.range gs1.length ++
        (List.range gs2.length).map (fun j => gs1.length + 1 + j) ∧
    (scanLines (gs1 ++ b :: gs2)).length = gs1.length + gs2.length ∧
    ∀ content : String, content.splitOn "\n" = gs1 ++ b :: gs2 →
      (parseRustFile content).imports.map (fun st => st.range.start.line) =
        List.range gs1.length ++
          (List.range gs2.length).map (fun j => gs1.length + 1 + j) := by
  have hgetD1 : ∀ j, j < gs1.length →
      (gs1 ++ b :: gs2).getD j "" = gs1.getD j "" :=
    fun j hj => List.getD_append gs1 (b :: gs2) "" j hj
  have hgetDb : (gs1 ++ b :: gs2).getD gs1.length "" = b := by
    rw [List.getD_append_right gs1 (b :: gs2) "" gs1.length (le_refl _)]
    simp
  have hgetD2 : ∀ j, j < gs2.length →
      (gs1 ++ b :: gs2).getD (gs1.length + 1 + j) "" = gs2.getD j "" := by
    intro j hj
    rw [List.getD_append_right gs1 (b :: gs2) "" (gs1.length + 1 + j) (by omega)]
    rw [show gs1.length + 1 + j - gs1.length = j + 1 from by omega]
    simp
  have hgood1 : ∀ j, j < gs1.length →
      goodLine ((gs1 ++ b :: gs2).getD j "") = true := by
    intro j hj
    rw [hgetD1 j hj]
    refine hg1 _ ?_
    rw [List.getD_eq_getElem gs1 "" hj]
    exact List.getElem_mem hj
  have hbad : badLine ((gs1 ++ b :: gs2).getD gs1.length "") = true := by
    rw [hgetDb]; exact hb
  have hgood2 : ∀ j, j < gs2.length →
      goodLine ((gs1 ++ b :: gs2).getD (gs1.length + 1 + j) "") = true := by
    intro j hj
    rw [hgetD2 j hj]
    refine hg2 _ ?_
    rw [List.getD_eq_getElem gs2 "" hj]
    exact List.getElem_mem hj
  have hcall : ∀ j, j < (gs1 ++ b :: gs2).length →
      candidateLine ((gs1 ++ b :: gs2).getD j "") = true := by
    intro j hjl
    simp only [List.length_append, List.length_cons] at hjl
    rcases lt_trichotomy j gs1.length with h | h | h
    · exact candidate_of_good (hgood1 j h)
    · rw [h]; exact candidate_of_bad hbad
    · rw [show j = gs1.length + 1 + (j - gs1.length - 1) from by omega]
      exact candidate_of_good (hgood2 _ (by omega))
  have hskip : skipInitial (gs1 ++ b :: gs2) 0 = 0 :=
    skipInitial_zero _ (by simp) (hcall 0 (by simp))
  have hscan := scanLoop_candidates (gs1 ++ b :: gs2) (gs1 ++ b :: gs2).length 0
    {} (by omega) rfl (fun j _ hjl => hcall j hjl)
  have hscan0 : scanLines (gs1 ++ b :: gs2) =
      (List.range (gs1 ++ b :: gs2).length).flatMap
        (fun d => scannedStmt (gs1 ++ b :: gs2) d 0) := by
    unfold scanLines
    rw [hskip, hscan]
    simp
  have hmap : (scanLines (gs1 ++ b :: gs2)).map (fun st => st.range.start.line) =
      List.range gs1.length ++
        (List.range gs2.length).map (fun j => gs1.length + 1 + j) := by
    rw [hscan0, List.map_flatMap]
    rw [show (gs1 ++ b :: gs2).length = gs1.length + (1 + gs2.length) from by
      simp; omega]
    rw [List.range_add, List.flatMap_append, List.flatMap_map]
    have hP1 : ∀ d ∈ List.range gs1.length,
        (scannedStmt (gs1 ++ b :: gs2) d 0).map (fun st => st.range.start.line)
          = [d] := by
      intro d hd
      rw [List.mem_range] at hd
      rw [scannedStmt_good_map _ _ _ (hgood1 d hd)]
      rw [findStartLine_eq_self]
      rcases Nat.eq_zero_or_pos d with h0 | h0
      · exact Or.inl h0
      · exact Or.inr (hcall (d - 1) (by simp; omega))
    rw [List.flatMap_congr hP1, List.flatMap_singleton']
    rw [List.range_add 1 gs2.length]
    rw [show List.range 1 = [0] from by decide]
    rw [List.flatMap_append]
    have hmid : ([0] : List Nat).flatMap (fun a =>
        (scannedStmt (gs1 ++ b :: gs2) (gs1.length + a) 0).map
          (fun st => st.range.start.line)) = [] := by
      simp only [List.flatMap_cons, List.flatMap_nil, List.append_nil, add_zero]
      rw [scannedStmt_bad _ _ _ hbad]
      rfl
    rw [hmid]
    rw [List.flatMap_map]
    have hP3 : ∀ j ∈ List.range gs2.length,
        (scannedStmt (gs1 ++ b :: gs2) (gs1.length + (1 + j)) 0).map
          (fun st => st.range.start.line) = [gs1.length + 1 + j] := by
      intro j hj
      rw [List.mem_range] at hj
      rw [show gs1.length + (1 + j) = gs1.length + 1 + j from by omega]
      rw [scannedStmt_good_map _ _ _ (hgood2 j hj)]
      rw [findStartLine_eq_self]
      refine Or.inr ?_
      rw [show gs1.length + 1 + j - 1 = gs1.length + j from by omega]
      rcases Nat.eq_zero_or_pos j with h0 | h0
      · rw [h0, add_zero]; exact candidate_of_bad hbad
      · rw [show gs1.length + j = gs1.length + 1 + (j - 1) from by omega]
        exact candidate_of_good (hgood2 _ (by omega))
    rw [List.flatMap_congr hP3]
    rw [show (List.range gs2.length).flatMap (fun j => [gs1.length + 1 + j]) =
      (List.range gs2.length).map (fun j => gs1.length + 1 + j) from
      (List.map_eq_flatMap _ _).symm]
    simp
  refine ⟨hmap, ?_, ?_⟩
  · have hlen := congrArg List.length hmap
    simpa using hlen
  · intro content hsplit
    have hpr : (parseRustFile content).imports = scanLines (content.splitOn "\n") :=
      rfl
    rw [hpr, hsplit, hmap]

/-- C8 witness: in a three-line file whose middle line is the malformed
statement (a stray closing paren inside braces), the scanner returns
exactly the two good statements, at lines 0 and 2. -/
theorem C8_witness :
    ((∀ l ∈ ["use std::io;"], goodLine l = true) ∧
     badLine "use a::\x7bb)\x7d;" = true ∧
     (∀ l ∈ ["use std::fs;"], goodLine l = true)) ∧
    (scanLines (["use std::io;"] ++ "use a::\x7bb)\x7d;" :: ["use std::fs;"])).map
        (fun st => st.range.start.line) =
      List.range (["use std::io;"] : List String).length ++
        (List.range (["use std::fs;"] : List String).length).map
          (fun j => (["use std::io;"] : List String).length + 1 + j) := by
  have h1 : ∀ l ∈ (["use std::io;"] : List String), goodLine l = true := by
    intro l hl
    simp only [List.mem_singleton] at hl
    subst hl
    simp +decide [goodLine, candidateLine, capturedText, strTrim, isWsChar,
      lineMatchUse, findUseMatchFrom, matchUseAt, stripLit, wsRun, indexOfFrom,
      findUseStartInLine, findUseEndInLine, findUseEndAux, obraceChar, cbraceChar,
      strStartsWith, strSubstring, isOkB, parseUseStatement, tokenize, tokenizeAux, isIdentStart,
      isIdentChar, singleCharType, keywordType, parseStatementToks,
      parseVisibility, parseUseTree, parseUseTreeList, parseSegment, expectTok,
      tokenToRange, consumeUntilCloseParen, zeroRng]
  have h2 : badLine "use a::\x7bb)\x7d;" = true := by
    simp +decide [badLine, candidateLine, capturedText, strTrim, isWsChar,
      lineMatchUse, findUseMatchFrom, matchUseAt, stripLit, wsRun, indexOfFrom,
      findUseStartInLine, findUseEndInLine, findUseEndAux, obraceChar, cbraceChar,
      strStartsWith, strSubstring, isOkB, parseUseStatement, tokenize, tokenizeAux, isIdentStart,
      isIdentChar, singleCharType, keywordType, parseStatementToks,
      parseVisibility, parseUseTree, parseUseTreeList, parseSegment, expectTok,
      tokenToRange, consumeUntilCloseParen, zeroRng]
  have h3 : ∀ l ∈ (["use std::fs;"] : List String), goodLine l = true := by
    intro l hl
    simp only [List.mem_singleton] at hl
    subst hl
    simp +decide [goodLine, candidateLine, capturedText, strTrim, isWsChar,
      lineMatchUse, findUseMatchFrom, matchUseAt, stripLit, wsRun, indexOfFrom,
      findUseStartInLine, findUseEndInLine, findUseEndAux, obraceChar, cbraceChar,
      strStartsWith, strSubstring, isOkB, parseUseStatement, tokenize, tokenizeAux, isIdentStart,
      isIdentChar, singleCharType, keywordType, parseStatementToks,
      parseVisibility, parseUseTree, parseUseTreeList, parseSegment, expectTok,
      tokenToRange, consumeUntilCloseParen, zeroRng]
  exact ⟨⟨h1, h2, h3⟩,
    (C8_thm ["use std::io;"] ["use std::fs;"] "use a::\x7bb)\x7d;" h1 h2 h3).1⟩

/-! ## C2: order (in)dependence of the merge -/

/-- The parse of `use A::T as S;`. -/
def stmtUseTS : UseStatement :=
  { tree := UseTree.mk (segR "A" 0 4 5)
      (some [UseTree.mk (segR "T" 0 7 8 (some "S")) none false false]) false false
    attributes := some [], range := zeroRng }

theorem parse_useTS : parseUseStatement "use A::T as S;" = .ok stmtUseTS := by
  simp [stmtUseTS, segR, parseUseStatement, tokenize, tokenizeAux, isWsChar, isIdentStart, isIdentChar,
    singleCharType, keywordType, obraceChar, cbraceChar, parseStatementToks,
    parseVisibility, parseUseTree, parseUseTreeList, parseSegment, expectTok,
    tokenToRange, consumeUntilCloseParen, zeroRng]

/-- The projection of a flat import the claim's set comparison speaks
about: path, alias and glob flag. -/
def projFI (f : FlatImport) : List String × Option String × Bool :=
  (f.path, f.al, f.isGlob)

/-- Two aliases that do not conflict: at most one side carries an
explicit (non-placeholder) alias, or both carry the same one. -/
def aliasCompatible : Option String → Option String → Bool
  | some a, some b => a = "_" || b = "_" || a = b
  | _, _ => true

theorem mergeAlias_comm {x y : Option String} (h : aliasCompatible x y = true) :
    mergeAlias x y = mergeAlias y x := by
  rcases x with _ | a <;> rcases y with _ | b
  · rfl
  · simp only [mergeAlias]
    by_cases hb : b = "_" <;> simp [hb]
  · simp only [mergeAlias]
    by_cases ha : a = "_" <;> simp [ha]
  · simp only [aliasCompatible, Bool.or_eq_true, decide_eq_true_eq] at h
    simp only [mergeAlias]
    by_cases ha : a = "_"
    · by_cases hb : b = "_" <;> simp [ha, hb]
    · by_cases hb : b = "_"
      · simp [ha, hb]
      · have hab : a = b := by tauto
        simp [ha, hb, hab]

theorem mergeAlias_swap {x y : Option String} (h : aliasCompatible x y = true)
    (a : Option String) :
    mergeAlias (mergeAlias a x) y = mergeAlias (mergeAlias a y) x := by
  rcases x with _ | u <;> rcases y with _ | v <;> rcases a with _ | w <;>
      simp only [aliasCompatible, Bool.or_eq_true, decide_eq_true_eq] at h <;>
      simp [mergeAlias] <;>
      split_ifs <;> simp_all

theorem alistGet_mem {α : Type} {l : List (String × α)} {k : String} {v : α}
    (h : alistGet l k = some v) : (k, v) ∈ l := by
  induction l with
  | nil => simp [alistGet] at h
  | cons p rest ih =>
      obtain ⟨a, b⟩ := p
      by_cases ha : a = k
      · subst ha
        simp [alistGet] at h
        simp [h]
      · simp only [alistGet, if_neg ha] at h
        exact List.mem_cons_of_mem _ (ih h)

theorem alistGet_of_mem_nodup {α : Type} {l : List (String × α)} {k : String}
    {v : α} (hnd : (l.map Prod.fst).Nodup) (h : (k, v) ∈ l) :
    alistGet l k = some v := by
  induction l with
  | nil => simp at h
  | cons p rest ih =>
      obtain ⟨a, b⟩ := p
      simp only [List.map_cons, List.nodup_cons] at hnd
      rcases List.mem_cons.mp h with h1 | h1
      · obtain ⟨hk, hv⟩ := Prod.mk.injEq .. ▸ h1
        subst hk
        subst hv
        simp [alistGet]
      · have hk : k ∈ rest.map Prod.fst := by
          simpa using List.mem_map_of_mem Prod.fst h1
        have hak : ¬ a = k := fun he => hnd.1 (he ▸ hk)
        simp only [alistGet, if_neg hak]
        exact ih hnd.2 h1

theorem alistSet_keys {α : Type} (l : List (String × α)) (k : String) (v : α) :
    (alistSet l k v).map Prod.fst = l.map Prod.fst ∨
    (alistSet l k v).map Prod.fst = l.map Prod.fst ++ [k] := by
  induction l with
  | nil => right; simp [alistSet]
  | cons p rest ih =>
      obtain ⟨a, b⟩ := p
      by_cases ha : a = k
      · left; simp [alistSet, ha]
      · rcases ih with h | h
        · left; simp [alistSet, ha, h]
        · right; simp [alistSet, ha, h]

theorem alistSet_nodup {α : Type} {l : List (String × α)} (k : String) (v : α)
    (h : (l.map Prod.fst).Nodup) : ((alistSet l k v).map Prod.fst).Nodup := by
  induction l with
  | nil => simp [alistSet]
  | cons p rest ih =>
      obtain ⟨a, b⟩ := p
      simp only [List.map_cons, List.nodup_cons] at h
      by_cases ha : a = k
      · subst ha
        have hset : alistSet ((a, b) :: rest) a v = (a, v) :: rest := by
          simp [alistSet]
        rw [hset]
        simp only [List.map_cons, List.nodup_cons]
        exact ⟨h.1, h.2⟩
      · have hset : alistSet ((a, b) :: rest) k v = (a, b) :: alistSet rest k v := by
          simp [alistSet, ha]
        rw [hset]
        simp only [List.map_cons, List.nodup_cons]
        have hih := ih h.2
        rcases alistSet_keys rest k v with hs | hs
        · rw [hs] at hih ⊢
          exact ⟨h.1, hih⟩
        · rw [hs] at hih ⊢
          refine ⟨?_, hih⟩
          simp only [List.mem_append, List.mem_singleton]
          rintro (hm | hm)
          · exact h.1 hm
          · exact ha hm

theorem mergeStep_nodup {m : List (String × FlatImport)} (imp : FlatImport)
    (h : (m.map Prod.fst).Nodup) : ((mergeStep m imp).map Prod.fst).Nodup := by
  simp only [mergeStep]
  cases alistGet m (getFlatImportKey imp) <;> exact alistSet_nodup _ _ h

theorem foldl_mergeStep_nodup (l : List FlatImport) :
    ∀ m : List (String × FlatImport), (m.map Prod.fst).Nodup →
      ((l.foldl mergeStep m).map Prod.fst).Nodup := by
  induction l with
  | nil => intro m h; exact h
  | cons x rest ih => intro m h; exact ih _ (mergeStep_nodup x h)

/-- Lookup-level equivalence of two merge maps, up to the claim's
projection (paths, aliases, glob flags; spans excepted). -/
def mEquiv (m1 m2 : List (String × FlatImport)) : Prop :=
  ∀ k, (alistGet m1 k).map projFI = (alistGet m2 k).map projFI

theorem mergeStep_mEquiv {m1 m2 : List (String × FlatImport)}
    (h : mEquiv m1 m2) (z : FlatImport) :
    mEquiv (mergeStep m1 z) (mergeStep m2 z) := by
  intro k
  have hz := h (getFlatImportKey z)
  simp only [mergeStep]
  cases h1 : alistGet m1 (getFlatImportKey z) with
  | none =>
      cases h2 : alistGet m2 (getFlatImportKey z) with
      | none =>
          by_cases hk : getFlatImportKey z = k <;>
            simp [alistGet_set, hk, h k]
      | some e2 => rw [h1, h2] at hz; simp at hz
  | some e1 =>
      cases h2 : alistGet m2 (getFlatImportKey z) with
      | none => rw [h1, h2] at hz; simp at hz
      | some e2 =>
          rw [h1, h2] at hz
          simp only [Option.map_some', projFI, Option.some.injEq,
            Prod.mk.injEq] at hz
          obtain ⟨hp, ha, hg⟩ := hz
          by_cases hk : getFlatImportKey z = k <;>
            simp [alistGet_set, hk, h k, projFI, hp, ha, hg]

theorem foldl_mergeStep_mEquiv (l : List FlatImport) :
    ∀ {m1 m2 : List (String × FlatImport)}, mEquiv m1 m2 →
      mEquiv (l.foldl mergeStep m1) (l.foldl mergeStep m2) := by
  induction l with
  | nil => intro m1 m2 h; exact h
  | cons x rest ih => intro m1 m2 h; exact ih (mergeStep_mEquiv h x)

theorem alistGet_mergeStep (m : List (String × FlatImport)) (z : FlatImport)
    (k : String) :
    alistGet (mergeStep m z) k =
      if getFlatImportKey z = k then
        some (match alistGet m (getFlatImportKey z) with
          | none => z
          | some e => { e with al := mergeAlias e.al z.al
                               isGlob := e.isGlob || z.isGlob })
      else alistGet m k := by
  simp only [mergeStep]
  cases alistGet m (getFlatImportKey z) <;>
    by_cases hk : getFlatImportKey z = k <;>
    simp [alistGet_set, hk]

theorem mergeStep_swap {x y : FlatImport}
    (hxy : getFlatImportKey x = getFlatImportKey y →
      x.path = y.path ∧ aliasCompatible x.al y.al = true)
    (m : List (String × FlatImport)) :
    mEquiv (mergeStep (mergeStep m x) y) (mergeStep (mergeStep m y) x) := by
  intro k
  by_cases hk : getFlatImportKey x = getFlatImportKey y
  · obtain ⟨hpath, hcomp⟩ := hxy hk
    simp only [alistGet_mergeStep, hk]
    by_cases hky : getFlatImportKey y = k
    · simp only [hky, if_pos rfl, if_true]
      cases hm : alistGet m k with
      | none =>
          simp [hm, projFI, hpath, mergeAlias_comm hcomp, Bool.or_comm]
      | some e =>
          simp [hm, projFI, mergeAlias_swap hcomp e.al, Bool.or_comm,
            Bool.or_assoc, Bool.or_left_comm]
    · simp [hky]
  · have hk' : ¬ getFlatImportKey y = getFlatImportKey x := fun he => hk he.symm
    simp only [alistGet_mergeStep]
    by_cases hkx : getFlatImportKey x = k
    · by_cases hky : getFlatImportKey y = k
      · exact absurd (hkx.trans hky.symm) hk
      · simp [hkx, hky, hk, hk']
    · by_cases hky : getFlatImportKey y = k
      · simp [hkx, hky, hk, hk']
      · simp [hkx, hky]

theorem foldl_mergeStep_perm {l1 l2 : List FlatImport} (hperm : l1.Perm l2) :
    (∀ x ∈ l1, ∀ y ∈ l1, getFlatImportKey x = getFlatImportKey y →
      x.path = y.path ∧ aliasCompatible x.al y.al = true) →
    ∀ m : List (String × FlatImport),
      mEquiv (l1.foldl mergeStep m) (l2.foldl mergeStep m) := by
  induction hperm with
  | nil => intro _ m k; rfl
  | cons z h ih =>
      intro hc m
      simp only [List.foldl_cons]
      exact ih (fun x hx y hy =>
        hc x (List.mem_cons_of_mem z hx) y (List.mem_cons_of_mem z hy))
        (mergeStep m z)
  | swap a b l =>
      intro hc m
      simp only [List.foldl_cons]
      refine foldl_mergeStep_mEquiv l (mergeStep_swap ?_ m)
      exact hc b (by simp) a (by simp)
  | trans h1 h2 ih1 ih2 =>
      intro hc m
      have hc2 := fun x hx y hy =>
        hc x (h1.mem_iff.mpr hx) y (h1.mem_iff.mpr hy)
      intro k
      exact (ih1 hc m k).trans (ih2 hc2 m k)

/-- C2 counterexample: two parsed statements with the same root and key but
conflicting explicit aliases (`as R` vs `as S`) merge to different flat-import
sets depending on order — the later statement's alias wins. -/
theorem C2_counterexample :
    parseUseStatement "use A::T as R;" = .ok stmtUseTR ∧
    parseUseStatement "use A::T as S;" = .ok stmtUseTS ∧
    getRootPath stmtUseTR.tree = getRootPath stmtUseTS.tree ∧
    [stmtUseTR, stmtUseTS].Perm [stmtUseTS, stmtUseTR] ∧
    (∃ f ∈ (mergeUseStatements [stmtUseTR, stmtUseTS]).flatMap
        (fun st => expandToFlatImports st.tree),
      projFI f = (["A", "T", ""], some "S", false)) ∧
    ¬ (∃ f ∈ (mergeUseStatements [stmtUseTS, stmtUseTR]).flatMap
        (fun st => expandToFlatImports st.tree),
      projFI f = (["A", "T", ""], some "S", false)) := by
  refine ⟨parse_useTR, parse_useTS, rfl, List.Perm.swap stmtUseTS stmtUseTR [], ?_, ?_⟩ <;>
    simp +decide [stmtUseTR, stmtUseTS, projFI, segR, mergeUseStatements, mergeGroup,
      mergeFlatImports, mergeStep, mergeAlias,
      getFlatImportKey, expandToFlatImports, buildUseTree, applyImport,
      TreeNode.insertSegs, nodeToUseTree, alistGet, alistSet, getRootPath, minLine,
      maxLine, sortByCmp, insertSorted, localeCompare, TreeNode.nameOf, TreeNode.alOf,
      TreeNode.childrenOf, TreeNode.isGlobOf, List.attach_map_val]

/-- C2 amended: the merge of flat imports is order-independent — permuting
the input yields the same set of flat imports (same paths, aliases and glob
flags) — provided no two inputs under the same merge key carry conflicting
explicit aliases (and key-equal inputs agree on their path); with
conflicting explicit aliases the last one wins, so order matters. -/
theorem C2_amended_thm (l1 l2 : List FlatImport) (hperm : l1.Perm l2)
    (hcompat : ∀ x ∈ l1, ∀ y ∈ l1, getFlatImportKey x = getFlatImportKey y →
      x.path = y.path ∧ aliasCompatible x.al y.al = true) :
    ∀ p : List String × Option String × Bool,
      (∃ f ∈ mergeFlatImports l1, projFI f = p) ↔
      (∃ f ∈ mergeFlatImports l2, projFI f = p) := by
  have hEq := foldl_mergeStep_perm hperm hcompat []
  have hnd1 : ((l1.foldl mergeStep []).map Prod.fst).Nodup :=
    foldl_mergeStep_nodup l1 [] (by simp)
  have hnd2 : ((l2.foldl mergeStep []).map Prod.fst).Nodup :=
    foldl_mergeStep_nodup l2 [] (by simp)
  intro p
  constructor
  · rintro ⟨f, hf, rfl⟩
    unfold mergeFlatImports at hf
    obtain ⟨q, hqm, hq⟩ := List.mem_map.mp hf
    obtain ⟨k, f0⟩ := q
    simp only at hq
    subst hq
    have hget := alistGet_of_mem_nodup hnd1 hqm
    have hk := hEq k
    rw [hget] at hk
    cases hget2 : alistGet (l2.foldl mergeStep []) k with
    | none => rw [hget2] at hk; simp at hk
    | some f2 =>
        rw [hget2] at hk
        simp only [Option.map_some', Option.some.injEq] at hk
        refine ⟨f2, ?_, hk.symm⟩
        unfold mergeFlatImports
        exact List.mem_map_of_mem Prod.snd (alistGet_mem hget2)
  · rintro ⟨f, hf, rfl⟩
    unfold mergeFlatImports at hf
    obtain ⟨q, hqm, hq⟩ := List.mem_map.mp hf
    obtain ⟨k, f0⟩ := q
    simp only at hq
    subst hq
    have hget := alistGet_of_mem_nodup hnd2 hqm
    have hk := hEq k
    rw [hget] at hk
    cases hget2 : alistGet (l1.foldl mergeStep []) k with
    | none => rw [hget2] at hk; simp at hk
    | some f2 =>
        rw [hget2] at hk
        simp only [Option.map_some', Option.some.injEq] at hk
        refine ⟨f2, ?_, hk⟩
        unfold mergeFlatImports
        exact List.mem_map_of_mem Prod.snd (alistGet_mem hget2)

/-- C2 witness: the amended order-independence applied to the concrete pair
`A::T as _` / `A::T` (compatible aliases), in both orders. -/
theorem C2_witness :
    ([({ path := ["A", "T", ""], al := some "_" } : FlatImport),
      ({ path := ["A", "T", ""] } : FlatImport)].Perm
     [({ path := ["A", "T", ""] } : FlatImport),
      ({ path := ["A", "T", ""], al := some "_" } : FlatImport)]) ∧
    ∀ p : List String × Option String × Bool,
      (∃ f ∈ mergeFlatImports
          [({ path := ["A", "T", ""], al := some "_" } : FlatImport),
           ({ path := ["A", "T", ""] } : FlatImport)], projFI f = p) ↔
      (∃ f ∈ mergeFlatImports
          [({ path := ["A", "T", ""] } : FlatImport),
           ({ path := ["A", "T", ""], al := some "_" } : FlatImport)],
        projFI f = p) := by
  have hperm : ([({ path := ["A", "T", ""], al := some "_" } : FlatImport),
      ({ path := ["A", "T", ""] } : FlatImport)].Perm
     [({ path := ["A", "T", ""] } : FlatImport),
      ({ path := ["A", "T", ""], al := some "_" } : FlatImport)]) :=
    List.Perm.swap _ _ []
  refine ⟨hperm, C2_amended_thm _ _ hperm ?_⟩
  intro x hx y hy hk
  rcases List.mem_pair.mp hx with rfl | rfl <;>
    rcases List.mem_pair.mp hy with rfl | rfl <;>
    exact ⟨rfl, by decide⟩

/-! ## C3: flatten / rebuild roundtrip -/

/-- A segment name with no special meaning to expansion or rebuilding. -/
def goodName (n : String) : Bool :=
  !(n = "" || n = "self" || n = "*")

/-- A `self` leaf child. -/
def selfLeaf (t : UseTree) : Bool :=
  t.segment.name = "self" && t.children.isNone && !t.isGlob

/-- A glob child (any node with the glob flag; expansion ignores its
children; it must not be named `self`, which would take precedence). -/
def globLeaf (t : UseTree) : Bool :=
  t.isGlob && !(t.segment.name = "self")

/-- The key under which a child of the rebuild trie stores this node. -/
def keyOf (t : UseTree) : String :=
  if t.isGlob then "*" else t.segment.name

/-- Well-formed trees for the roundtrip: named non-glob nodes, children
with pairwise distinct trie keys, no lone `self` child, and every child a
`self` leaf, a glob, or recursively well-formed. -/
def wfTree : UseTree → Bool
  | .mk seg children glob _slf =>
      goodName seg.name && !glob &&
      (match children with
       | none => true
       | some cs =>
           ((cs.map keyOf).Nodup : Bool) &&
           (match cs with
            | [c] => !selfLeaf c
            | _ => true) &&
           cs.attach.all fun c => selfLeaf c.1 || globLeaf c.1 || wfTree c.1)
termination_by t => sizeOf t
decreasing_by
  have h := sizeOf_lt_of_mem_children c.2
  have hs : sizeOf (some cs) = 1 + sizeOf cs := by simp
  simp only [UseTree.mk.sizeOf_spec]
  omega

/-- Prefix a flat import's path (spans dropped; only the projection
matters downstream). -/
def prefFI (pfx : List String) (q : FlatImport) : FlatImport :=
  { q with path := pfx ++ q.path, spans := [] }

theorem alistGet_eq_none {α : Type} {l : List (String × α)} {k : String}
    (h : k ∉ l.map Prod.fst) : alistGet l k = none := by
  induction l with
  | nil => rfl
  | cons p rest ih =>
      obtain ⟨a, b⟩ := p
      simp only [List.map_cons, List.mem_cons] at h
      push_neg at h
      rw [alistGet]
      rw [if_neg (fun he => h.1 he.symm)]
      exact ih h.2

theorem alistSet_set {α : Type} (l : List (String × α)) (k : String) (v v2 : α) :
    alistSet (alistSet l k v) k v2 = alistSet l k v2 := by
  induction l with
  | nil => simp [alistSet]
  | cons p rest ih =>
      obtain ⟨a, b⟩ := p
      by_cases ha : a = k
      · simp [alistSet, ha]
      · simp [alistSet, ha, ih]

theorem alistSet_fresh {α : Type} {l : List (String × α)} {k : String} (v : α)
    (h : k ∉ l.map Prod.fst) : alistSet l k v = l ++ [(k, v)] := by
  induction l with
  | nil => rfl
  | cons p rest ih =>
      obtain ⟨a, b⟩ := p
      simp only [List.map_cons, List.mem_cons] at h
      push_neg at h
      rw [alistSet]
      rw [if_neg (fun he => h.1 he.symm)]
      rw [ih h.2]
      rfl

theorem flatMap_attach {α β : Type} (l : List α) (F : α → List β) :
    l.attach.flatMap (fun c => F c.1) = l.flatMap F := by
  induction l with
  | nil => rfl
  | cons x rest ih =>
      simp only [List.attach_cons, List.flatMap_cons, List.flatMap_map]
      rw [← ih]

/-- Expansion under a prefix is the prefix-free expansion with the prefix
prepended (up to the path/alias/glob projection). -/
theorem expand_proj (t : UseTree) (pfx : List String) (spans : List Rng) :
    (expandToFlatImports t pfx spans).map projFI =
      (expandToFlatImports t [] []).map
        (fun q => (pfx ++ q.path, q.al, q.isGlob)) := by
  match t with
  | .mk seg children glob slf =>
    rw [expandToFlatImports, expandToFlatImports]
    by_cases hself : seg.name = "self"
    · rw [if_pos hself, if_pos hself]
      simp [projFI]
    · rw [if_neg hself, if_neg hself]
      by_cases hglob : glob = true
      · rw [if_pos hglob, if_pos hglob]
        simp [projFI]
      · rw [if_neg hglob, if_neg hglob]
        cases children with
        | none => simp [projFI]
        | some cs =>
            by_cases hempty : cs.isEmpty = true
            · simp only [hempty, if_true]
              simp [projFI]
            · simp only [hempty, Bool.false_eq_true, if_false]
              rw [List.map_flatMap, List.map_flatMap]
              refine List.flatMap_congr ?_
              intro c hc
              rw [expand_proj c.1 (pfx ++ [seg.name]) _]
              rw [show (fun q : FlatImport => (pfx ++ q.path, q.al, q.isGlob)) =
                (fun p : List String × Option String × Bool =>
                  (pfx ++ p.1, p.2)) ∘ projFI from rfl, ← List.map_map]
              rw [expand_proj c.1 ([] ++ [seg.name]) _]
              rw [List.map_map]
              congr 1
              funext q
              simp [List.append_assoc]
termination_by sizeOf t
decreasing_by
  all_goals
    have h := sizeOf_lt_of_mem_children c.2
    simp only [UseTree.mk.sizeOf_spec, Option.some.sizeOf_spec]
    omega

/-- Every expanded path strictly extends the prefix. -/
theorem expand_path_ne (t : UseTree) (pfx : List String) (spans : List Rng) :
    ∀ f ∈ expandToFlatImports t pfx spans, ∃ r, f.path = pfx ++ r ∧ r ≠ [] := by
  match t with
  | .mk seg children glob slf =>
    rw [expandToFlatImports]
    by_cases hself : seg.name = "self"
    · rw [if_pos hself]
      intro f hf
      simp only [List.mem_singleton] at hf
      subst hf
      exact ⟨["self"], rfl, by simp⟩
    · rw [if_neg hself]
      by_cases hglob : glob = true
      · rw [if_pos hglob]
        intro f hf
        simp only [List.mem_singleton] at hf
        subst hf
        exact ⟨["*"], rfl, by simp⟩
      · rw [if_neg hglob]
        cases children with
        | none =>
            intro f hf
            simp only [List.mem_singleton] at hf
            subst hf
            exact ⟨[seg.name, ""], by simp, by simp⟩
        | some cs =>
            by_cases hempty : cs.isEmpty = true
            · simp only [hempty, if_true]
              intro f hf
              simp only [List.mem_singleton] at hf
              subst hf
              exact ⟨[seg.name, ""], by simp, by simp⟩
            · simp only [hempty, Bool.false_eq_true, if_false]
              intro f hf
              simp only [List.mem_flatMap, List.mem_attach, true_and] at hf
              obtain ⟨c, hfc⟩ := hf
              obtain ⟨r, hr, hrne⟩ := expand_path_ne c.1 _ _ f hfc
              exact ⟨seg.name :: r, by simp [hr], by simp⟩
termination_by sizeOf t
decreasing_by
  all_goals
    have h := sizeOf_lt_of_mem_children c.2
    simp only [UseTree.mk.sizeOf_spec, Option.some.sizeOf_spec]
    omega

/-- Expansion is never empty. -/
theorem expand_ne_nil (t : UseTree) (pfx : List String) (spans : List Rng) :
    expandToFlatImports t pfx spans ≠ [] := by
  match t with
  | .mk seg children glob slf =>
    rw [expandToFlatImports]
    by_cases hself : seg.name = "self"
    · rw [if_pos hself]; simp
    · rw [if_neg hself]
      by_cases hglob : glob = true
      · rw [if_pos hglob]; simp
      · rw [if_neg hglob]
        cases children with
        | none => simp
        | some cs =>
            by_cases hempty : cs.isEmpty = true
            · simp only [hempty, if_true]; simp
            · simp only [hempty, Bool.false_eq_true, if_false]
              intro hcontra
              rw [List.flatMap_eq_nil_iff] at hcontra
              obtain ⟨c0, hc0⟩ := List.exists_mem_of_ne_nil cs
                (by simpa using hempty)
              exact expand_ne_nil c0 _ _
                (hcontra ⟨c0, hc0⟩ (List.mem_attach cs ⟨c0, hc0⟩))
termination_by sizeOf t
decreasing_by
  have h := sizeOf_lt_of_mem_children hc0
  simp only [UseTree.mk.sizeOf_spec, Option.some.sizeOf_spec]
  omega

/-- The expansion of a named, non-glob node: every path starts with the
node's name and continues. -/
theorem expand_named_shape (t : UseTree) (hself : ¬ t.segment.name = "self")
    (hglob : t.isGlob = false) :
    ∀ f ∈ expandToFlatImports t [] [],
      ∃ r, f.path = t.segment.name :: r ∧ r ≠ [] := by
  obtain ⟨seg, children, glob, slf⟩ := t
  simp only [UseTree.segment] at hself ⊢
  simp only [UseTree.isGlob] at hglob
  subst hglob
  rw [expandToFlatImports]
  rw [if_neg hself, if_neg (by simp : ¬ false = true)]
  cases children with
  | none =>
      intro f hf
      simp only [List.mem_singleton] at hf
      subst hf
      exact ⟨[""], by simp, by simp⟩
  | some cs =>
      by_cases hempty : cs.isEmpty = true
      · simp only [hempty, if_true]
        intro f hf
        simp only [List.mem_singleton] at hf
        subst hf
        exact ⟨[""], by simp, by simp⟩
      · simp only [hempty, Bool.false_eq_true, if_false]
        intro f hf
        simp only [List.mem_flatMap, List.mem_attach, true_and] at hf
        obtain ⟨c, hfc⟩ := hf
        obtain ⟨r, hr, hrne⟩ := expand_path_ne c.1 _ _ f hfc
        refine ⟨r, ?_, hrne⟩
        simpa using hr

/-- Closed form for expanding a `self` leaf. -/
theorem selfLeaf_expand {t : UseTree} (h : selfLeaf t = true)
    (pfx : List String) (spans : List Rng) :
    (expandToFlatImports t pfx spans).map projFI =
      [(pfx ++ ["self"], t.segment.al, false)] := by
  obtain ⟨seg, children, glob, slf⟩ := t
  simp only [selfLeaf, UseTree.segment, UseTree.children, UseTree.isGlob,
    Bool.and_eq_true, decide_eq_true_eq, Bool.not_eq_true'] at h
  rw [expandToFlatImports]
  rw [if_pos h.1.1]
  simp [projFI, UseTree.segment]

/-- Closed form for expanding a glob node. -/
theorem globLeaf_expand {t : UseTree} (h : globLeaf t = true)
    (pfx : List String) (spans : List Rng) :
    (expandToFlatImports t pfx spans).map projFI =
      [(pfx ++ ["*"], none, true)] := by
  obtain ⟨seg, children, glob, slf⟩ := t
  simp only [globLeaf, UseTree.segment, UseTree.isGlob, Bool.and_eq_true,
    decide_eq_true_eq, Bool.not_eq_true'] at h
  rw [expandToFlatImports]
  rw [if_neg ?hn, if_pos h.1]
  case hn =>
    intro he
    exact absurd he (of_decide_eq_false h.2)
  simp [projFI]

/-- One child-level update of the insert walk: mark the node when the
path is exhausted, otherwise keep inserting. -/
def childUpd (nd : TreeNode) (r : List String) (a : Option String) (g : Bool) :
    TreeNode :=
  match r with
  | [] => TreeNode.mk nd.nameOf (if a.isSome then a else nd.alOf)
      nd.childrenOf (nd.isGlobOf || g)
  | _ :: _ => TreeNode.insertSegs nd r a g

theorem insertSegs_eq (nm : String) (al : Option String)
    (ch : List (String × TreeNode)) (g : Bool) (s : String) (r : List String)
    (a : Option String) (gg : Bool) :
    TreeNode.insertSegs (.mk nm al ch g) (s :: r) a gg =
      .mk nm al (alistSet ch s
        (childUpd ((alistGet ch s).getD (.mk s none [] false)) r a gg)) g := by
  cases r <;> rfl

theorem applyImport_eq {node : TreeNode} {f : FlatImport}
    (h : ¬ f.path.length = 1) :
    applyImport node f = TreeNode.insertSegs node f.path.tail f.al f.isGlob := by
  unfold applyImport
  simp [h]

/-- The root-level fold of the trie build. -/
def insFold (n : TreeNode) (fs : List FlatImport) : TreeNode :=
  fs.foldl (fun nd f => TreeNode.insertSegs nd f.path.tail f.al f.isGlob) n

/-- The child-level fold inside one head group. -/
def grpFold (nd : TreeNode) (fs : List FlatImport) : TreeNode :=
  fs.foldl (fun nd f => childUpd nd f.path.tail.tail f.al f.isGlob) nd

theorem foldl_applyImport_eq (fs : List FlatImport) :
    ∀ n : TreeNode, (∀ f ∈ fs, ¬ f.path.length = 1) →
      fs.foldl applyImport n = insFold n fs := by
  induction fs with
  | nil => intro n _; rfl
  | cons f rest ih =>
      intro n h
      simp only [List.foldl_cons, insFold] at ih ⊢
      rw [applyImport_eq (h f (by simp))]
      exact ih _ (fun q hq => h q (by simp [hq]))

theorem insFold_proj_eq : ∀ (fs1 fs2 : List FlatImport),
    fs1.map projFI = fs2.map projFI → ∀ n, insFold n fs1 = insFold n fs2 := by
  intro fs1
  induction fs1 with
  | nil =>
      intro fs2 h n
      cases fs2 with
      | nil => rfl
      | cons f2 r2 => simp at h
  | cons f rest ih =>
      intro fs2 h n
      cases fs2 with
      | nil => simp at h
      | cons f2 rest2 =>
          simp only [List.map_cons, List.cons.injEq] at h
          obtain ⟨hf, hrest⟩ := h
          simp only [projFI, Prod.mk.injEq] at hf
          obtain ⟨hp, ha, hg⟩ := hf
          simp only [insFold, List.foldl_cons]
          rw [hp, ha, hg]
          exact ih rest2 hrest _

theorem insFold_append (n : TreeNode) (l1 l2 : List FlatImport) :
    insFold n (l1 ++ l2) = insFold (insFold n l1) l2 := by
  simp [insFold, List.foldl_append]

theorem insFold_group (h : String) :
    ∀ (fs : List FlatImport) (nm : String) (al : Option String)
      (ch : List (String × TreeNode)) (g : Bool) (nd0 : TreeNode),
      (∀ f ∈ fs, ∃ r, f.path.tail = h :: r) →
      insFold (.mk nm al (alistSet ch h nd0) g) fs =
        .mk nm al (alistSet ch h (grpFold nd0 fs)) g := by
  intro fs
  induction fs with
  | nil => intro _ _ _ _ nd0 _; rfl
  | cons f rest ih =>
      intro nm al ch g nd0 hsh
      obtain ⟨r, hr⟩ := hsh f (by simp)
      simp only [insFold, List.foldl_cons, grpFold]
      rw [hr, insertSegs_eq, alistGet_set, if_pos rfl, Option.getD_some,
        alistSet_set]
      have := ih nm al ch g (childUpd nd0 r f.al f.isGlob)
        (fun q hq => hsh q (by simp [hq]))
      simp only [insFold, grpFold] at this
      rw [this]
      rfl

theorem insFold_group_fresh {h : String} {fs : List FlatImport}
    (nm : String) (al : Option String) (ch : List (String × TreeNode)) (g : Bool)
    (hfresh : h ∉ ch.map Prod.fst)
    (hsh : ∀ f ∈ fs, ∃ r, f.path.tail = h :: r)
    (hne : fs ≠ []) :
    insFold (.mk nm al ch g) fs =
      .mk nm al (ch ++ [(h, grpFold (.mk h none [] false) fs)]) g := by
  cases fs with
  | nil => exact absurd rfl hne
  | cons f0 rest =>
      obtain ⟨r0, hr0⟩ := hsh f0 (by simp)
      simp only [insFold, List.foldl_cons]
      rw [hr0, insertSegs_eq, alistGet_eq_none hfresh, Option.getD_none]
      have hstep := insFold_group h rest nm al ch g
        (childUpd (.mk h none [] false) r0 f0.al f0.isGlob)
        (fun q hq => hsh q (by simp [hq]))
      simp only [insFold] at hstep
      rw [hstep, alistSet_fresh _ hfresh]
      simp only [grpFold, List.foldl_cons]
      rw [hr0]
      rfl

theorem grpFold_pref (a : String) :
    ∀ (l : List FlatImport) (nd : TreeNode),
      (∀ q ∈ l, q.path.tail ≠ []) →
      grpFold nd (l.map (prefFI [a])) = insFold nd l := by
  intro l
  induction l with
  | nil => intro nd _; rfl
  | cons q rest ih =>
      intro nd h
      simp only [List.map_cons, grpFold, insFold, List.foldl_cons]
      have hq := h q (by simp)
      have hpath : (prefFI [a] q).path.tail.tail = q.path.tail := by
        simp [prefFI]
      rw [hpath]
      have hstep : childUpd nd q.path.tail q.al q.isGlob =
          TreeNode.insertSegs nd q.path.tail q.al q.isGlob := by
        cases hp : q.path.tail with
        | nil => exact absurd hp hq
        | cons x xs => rfl
      rw [show (prefFI [a] q).al = q.al from rfl,
        show (prefFI [a] q).isGlob = q.isGlob from rfl, hstep]
      exact ih (nd.insertSegs q.path.tail q.al q.isGlob)
        (fun w hw => h w (by simp [hw]))

/-- The trie entry one child of the root contributes. -/
def entryOf (c : UseTree) : TreeNode :=
  if selfLeaf c then .mk "self" c.segment.al [] false
  else if c.isGlob then .mk "*" none [] true
  else insFold (.mk c.segment.name none [] false) (expandToFlatImports c [] [])

theorem alistGet_map {α β : Type} (cs : List α) (key : α → String)
    (val : α → β) (k : String) :
    alistGet (cs.map fun c => (key c, val c)) k =
      (cs.find? (fun c => key c = k)).map val := by
  induction cs with
  | nil => rfl
  | cons c rest ih =>
      by_cases hk : key c = k
      · simp [alistGet, List.find?, hk]
      · have hd : (decide (key c = k)) = false := by simp [hk]
        simp only [List.map_cons, alistGet, if_neg hk, List.find?_cons, hd]
        exact ih

theorem map_eq_singleton {α β : Type} {l : List α} {f : α → β} {x : β}
    (h : l.map f = [x]) : ∃ q, l = [q] ∧ f q = x := by
  cases l with
  | nil => simp at h
  | cons a rest =>
      cases rest with
      | nil =>
          simp only [List.map_cons, List.map_nil, List.cons.injEq] at h
          exact ⟨a, rfl, h.1⟩
      | cons b r2 => simp at h

theorem opt_if_isSome (a : Option String) :
    (if a.isSome then a else none) = a := by
  cases a <;> rfl

/-- Per-child facts feeding the root-level build: the child's prefixed
flats are nonempty, share the child's trie key as head, and group-fold to
the child's trie entry. -/
theorem child_flats_facts (a : String) (c : UseTree)
    (hc : selfLeaf c = true ∨ globLeaf c = true ∨
      (¬ c.segment.name = "self" ∧ c.isGlob = false ∧
        goodName c.segment.name = true)) :
    (expandToFlatImports c [] []).map (prefFI [a]) ≠ [] ∧
    (∀ f ∈ (expandToFlatImports c [] []).map (prefFI [a]),
      ∃ r, f.path.tail = keyOf c :: r) ∧
    grpFold (.mk (keyOf c) none [] false)
      ((expandToFlatImports c [] []).map (prefFI [a])) = entryOf c := by
  rcases hc with hself | hglob | ⟨hn, hg, hgood⟩
  · obtain ⟨q, hq, hqp⟩ := map_eq_singleton (selfLeaf_expand hself [] [])
    simp only [projFI, Prod.mk.injEq] at hqp
    obtain ⟨hqpath, hqal, hqg⟩ := hqp
    have hkey : keyOf c = "self" := by
      simp only [selfLeaf, Bool.and_eq_true, decide_eq_true_eq,
        Bool.not_eq_true'] at hself
      simp [keyOf, hself.2, hself.1.1]
    rw [hq, hkey]
    refine ⟨by simp, ?_, ?_⟩
    · intro f hf
      simp only [List.map_cons, List.map_nil, List.mem_singleton] at hf
      subst hf
      exact ⟨[], by simp [prefFI, hqpath]⟩
    · simp only [List.map_cons, List.map_nil, grpFold, List.foldl_cons,
        List.foldl_nil]
      rw [show (prefFI [a] q).path.tail.tail = [] from by simp [prefFI, hqpath]]
      simp only [childUpd]
      rw [show (prefFI [a] q).al = q.al from rfl,
        show (prefFI [a] q).isGlob = q.isGlob from rfl, hqal, hqg]
      simp only [entryOf, hself, if_true]
      simp only [TreeNode.nameOf, TreeNode.alOf, TreeNode.childrenOf,
        TreeNode.isGlobOf]
      rw [opt_if_isSome]
      simp
  · obtain ⟨q, hq, hqp⟩ := map_eq_singleton (globLeaf_expand hglob [] [])
    simp only [projFI, Prod.mk.injEq] at hqp
    obtain ⟨hqpath, hqal, hqg⟩ := hqp
    have hcg : c.isGlob = true := by
      simp only [globLeaf, Bool.and_eq_true] at hglob
      exact hglob.1
    have hkey : keyOf c = "*" := by simp [keyOf, hcg]
    have hcs : selfLeaf c = false := by
      simp only [selfLeaf]
      simp [hcg]
    rw [hq, hkey]
    refine ⟨by simp, ?_, ?_⟩
    · intro f hf
      simp only [List.map_cons, List.map_nil, List.mem_singleton] at hf
      subst hf
      exact ⟨[], by simp [prefFI, hqpath]⟩
    · simp only [List.map_cons, List.map_nil, grpFold, List.foldl_cons,
        List.foldl_nil]
      rw [show (prefFI [a] q).path.tail.tail = [] from by simp [prefFI, hqpath]]
      simp only [childUpd]
      rw [show (prefFI [a] q).al = q.al from rfl,
        show (prefFI [a] q).isGlob = q.isGlob from rfl, hqal, hqg]
      simp only [entryOf, hcs, Bool.false_eq_true, if_false, hcg, if_true]
      simp [TreeNode.nameOf, TreeNode.alOf, TreeNode.childrenOf,
        TreeNode.isGlobOf]
  · have hshape := expand_named_shape c hn hg
    have hkey : keyOf c = c.segment.name := by simp [keyOf, hg]
    have hcs : selfLeaf c = false := by
      simp only [selfLeaf]
      simp [hn]
    refine ⟨?_, ?_, ?_⟩
    · simp only [ne_eq, List.map_eq_nil_iff]
      exact expand_ne_nil c [] []
    · intro f hf
      simp only [List.mem_map] at hf
      obtain ⟨q, hql, hfq⟩ := hf
      obtain ⟨r, hqpath, hrne⟩ := hshape q hql
      subst hfq
      rw [hkey]
      exact ⟨r, by simp [prefFI, hqpath]⟩
    · rw [hkey]
      rw [grpFold_pref a _ _ ?tails]
      · simp only [entryOf, hcs, Bool.false_eq_true, if_false, hg, if_false]
      case tails =>
        intro q hq
        obtain ⟨r, hqpath, hrne⟩ := hshape q hq
        simp [hqpath, hrne]

/-- The complete root-level build: folding the prefixed expansions of a
list of children with distinct trie keys extends the root's child list by
one entry per child, in order. -/
theorem insFold_root (a : String) :
    ∀ (cs : List UseTree) (nm : String) (al : Option String)
      (ch : List (String × TreeNode)) (g : Bool),
      (∀ c ∈ cs, selfLeaf c = true ∨ globLeaf c = true ∨
        (¬ c.segment.name = "self" ∧ c.isGlob = false ∧
          goodName c.segment.name = true)) →
      ((cs.map keyOf).Nodup) →
      (∀ c ∈ cs, keyOf c ∉ ch.map Prod.fst) →
      insFold (.mk nm al ch g)
        (cs.flatMap fun c => (expandToFlatImports c [] []).map (prefFI [a])) =
      .mk nm al (ch ++ cs.map fun c => (keyOf c, entryOf c)) g := by
  intro cs
  induction cs with
  | nil =>
      intro nm al ch g _ _ _
      simp [insFold]
  | cons c rest ih =>
      intro nm al ch g hcls hnd hfr
      rw [List.flatMap_cons, insFold_append]
      obtain ⟨hne, hsh, hgrp⟩ := child_flats_facts a c (hcls c (by simp))
      rw [insFold_group_fresh nm al ch g (hfr c (by simp)) hsh hne, hgrp]
      simp only [List.map_cons, List.nodup_cons] at hnd
      rw [ih nm al _ g (fun x hx => hcls x (by simp [hx])) hnd.2 ?fresh]
      · simp
      case fresh =>
        intro x hx
        simp only [List.map_append, List.mem_append, List.map_cons,
          List.map_nil, List.mem_singleton]
        push_neg
        refine ⟨hfr x (by simp [hx]), ?_⟩
        intro he
        exact hnd.1 (he ▸ List.mem_map_of_mem keyOf hx)

theorem goodName_facts {n : String} (h : goodName n = true) :
    ¬ n = "" ∧ ¬ n = "self" ∧ ¬ n = "*" := by
  simp only [goodName, Bool.not_eq_true', Bool.or_eq_false_iff,
    decide_eq_false_iff_not] at h
  exact ⟨h.1.1, h.1.2, h.2⟩

/-- The three shapes a well-formed child can take. -/
def classedC (c : UseTree) : Prop :=
  selfLeaf c = true ∨ globLeaf c = true ∨
    (¬ c.segment.name = "self" ∧ c.isGlob = false ∧
      goodName c.segment.name = true)

theorem wf_named_facts {c : UseTree} (h : wfTree c = true) :
    ¬ c.segment.name = "self" ∧ c.isGlob = false ∧
      goodName c.segment.name = true := by
  obtain ⟨seg, children, glob, slf⟩ := c
  rw [wfTree.eq_def] at h
  simp only [Bool.and_eq_true, Bool.not_eq_true'] at h
  have hgn : goodName seg.name = true := h.1.1
  have hg : glob = false := h.1.2
  have hfacts := goodName_facts hgn
  refine ⟨?_, ?_, ?_⟩
  · simpa [UseTree.segment] using hfacts.2.1
  · simpa [UseTree.isGlob] using hg
  · simpa [UseTree.segment] using hgn

theorem wf_destruct {seg : UsePathSegment} {cs : List UseTree}
    {glob slf : Bool} (h : wfTree (.mk seg (some cs) glob slf) = true) :
    goodName seg.name = true ∧ glob = false ∧ (cs.map keyOf).Nodup ∧
    (∀ c, cs = [c] → selfLeaf c = false) ∧
    ∀ c ∈ cs, classedC c := by
  rw [wfTree.eq_def] at h
  simp only [Bool.and_eq_true, Bool.not_eq_true', decide_eq_true_eq] at h
  obtain ⟨⟨hgn, hg⟩, ⟨hnd, hlone⟩, hall⟩ := h
  refine ⟨hgn, hg, hnd, ?_, ?_⟩
  · intro c hc
    subst hc
    simpa using hlone
  · intro c hc
    have hx : (selfLeaf c = true ∨ globLeaf c = true) ∨ wfTree c = true := by
      simpa using List.all_eq_true.mp hall ⟨c, hc⟩ (List.mem_attach cs ⟨c, hc⟩)
    rcases hx with (h1 | h1) | h1
    · exact Or.inl h1
    · exact Or.inr (Or.inl h1)
    · exact Or.inr (Or.inr (wf_named_facts h1))

theorem keyOf_self_iff {c : UseTree} (hc : classedC c) :
    keyOf c = "self" ↔ selfLeaf c = true := by
  constructor
  · intro hk
    rcases hc with h | h | ⟨hn, hg, _⟩
    · exact h
    · simp only [globLeaf, Bool.and_eq_true] at h
      rw [keyOf, if_pos h.1] at hk
      simp at hk
    · rw [keyOf, if_neg (by simp [hg])] at hk
      exact absurd hk hn
  · intro hs
    simp only [selfLeaf, Bool.and_eq_true, decide_eq_true_eq,
      Bool.not_eq_true'] at hs
    rw [keyOf, if_neg (by simp [hs.2])]
    exact hs.1.1

theorem insertSegs_fields (n : TreeNode) (t : List String) (a : Option String)
    (g : Bool) :
    (TreeNode.insertSegs n t a g).nameOf = n.nameOf ∧
    (TreeNode.insertSegs n t a g).alOf = n.alOf ∧
    (TreeNode.insertSegs n t a g).isGlobOf = n.isGlobOf := by
  obtain ⟨nm, al, ch, gl⟩ := n
  cases t with
  | nil => exact ⟨rfl, rfl, rfl⟩
  | cons x r =>
      rw [insertSegs_eq]
      exact ⟨rfl, rfl, rfl⟩

theorem insFold_fields (fs : List FlatImport) :
    ∀ n : TreeNode,
      (insFold n fs).nameOf = n.nameOf ∧ (insFold n fs).alOf = n.alOf ∧
      (insFold n fs).isGlobOf = n.isGlobOf := by
  induction fs with
  | nil => intro n; exact ⟨rfl, rfl, rfl⟩
  | cons f rest ih =>
      intro n
      have h1 := ih (n.insertSegs f.path.tail f.al f.isGlob)
      have h2 := insertSegs_fields n f.path.tail f.al f.isGlob
      simp only [insFold, List.foldl_cons] at h1 ⊢
      exact ⟨h1.1.trans h2.1, h1.2.1.trans h2.2.1, h1.2.2.trans h2.2.2⟩

/-- A non-special child as the rebuild sees it. -/
def namedC (c : UseTree) : Bool :=
  !selfLeaf c && !c.isGlob

theorem entry_pred_named {c : UseTree} (hc : classedC c) :
    (decide (¬((keyOf c, entryOf c).1 = "" ∨ (keyOf c, entryOf c).1 = "self")) &&
      decide ((keyOf c, entryOf c).2.isGlobOf = false)) = namedC c := by
  rcases hc with h | h | ⟨hn, hg, hgood⟩
  · have hk : keyOf c = "self" := by
      simp only [selfLeaf, Bool.and_eq_true, decide_eq_true_eq,
        Bool.not_eq_true'] at h
      rw [keyOf, if_neg (by simp [h.2])]
      exact h.1.1
    simp [hk, namedC, h]
  · have hcg : c.isGlob = true := by
      simp only [globLeaf, Bool.and_eq_true] at h
      exact h.1
    have hk : keyOf c = "*" := by rw [keyOf, if_pos hcg]
    have hsl : selfLeaf c = false := by
      simp only [selfLeaf]
      simp [hcg]
    have he : entryOf c = .mk "*" none [] true := by
      rw [entryOf, if_neg (by simp [hsl]), if_pos hcg]
    simp [hk, he, namedC, hsl, hcg, TreeNode.isGlobOf]
  · have hk : keyOf c = c.segment.name := by rw [keyOf, if_neg (by simp [hg])]
    have hsl : selfLeaf c = false := by
      simp only [selfLeaf]
      simp [hn]
    have he : entryOf c =
        insFold (.mk c.segment.name none [] false)
          (expandToFlatImports c [] []) := by
      rw [entryOf, if_neg (by simp [hsl]), if_neg (by simp [hg])]
    have hglob : (entryOf c).isGlobOf = false := by
      rw [he]
      exact (insFold_fields _ _).2.2
    obtain ⟨h1, h2, h3⟩ := goodName_facts hgood
    simp [hk, namedC, hsl, hg, hglob, h1, h2]

theorem entry_glob_pred {c : UseTree} (hc : classedC c) :
    (decide (¬((keyOf c, entryOf c).1 = "" ∨ (keyOf c, entryOf c).1 = "self")) &&
      (keyOf c, entryOf c).2.isGlobOf) = c.isGlob := by
  rcases hc with h | h | ⟨hn, hg, hgood⟩
  · have hk : keyOf c = "self" := by
      simp only [selfLeaf, Bool.and_eq_true, decide_eq_true_eq,
        Bool.not_eq_true'] at h
      rw [keyOf, if_neg (by simp [h.2])]
      exact h.1.1
    have hcg : c.isGlob = false := by
      simp only [selfLeaf, Bool.and_eq_true, Bool.not_eq_true'] at h
      exact h.2
    simp [hk, hcg]
  · have hcg : c.isGlob = true := by
      simp only [globLeaf, Bool.and_eq_true] at h
      exact h.1
    have hsl : selfLeaf c = false := by
      simp only [selfLeaf]
      simp [hcg]
    have he : entryOf c = .mk "*" none [] true := by
      rw [entryOf, if_neg (by simp [hsl]), if_pos hcg]
    simp [keyOf, hcg, he, TreeNode.isGlobOf]
  · have hk : keyOf c = c.segment.name := by rw [keyOf, if_neg (by simp [hg])]
    have hsl : selfLeaf c = false := by
      simp only [selfLeaf]
      simp [hn]
    have he : entryOf c =
        insFold (.mk c.segment.name none [] false)
          (expandToFlatImports c [] []) := by
      rw [entryOf, if_neg (by simp [hsl]), if_neg (by simp [hg])]
    have hglob : (entryOf c).isGlobOf = false := by
      rw [he]
      exact (insFold_fields _ _).2.2
    simp [hk, hg, hglob]

theorem entryOf_selfLeaf {c : UseTree} (h : selfLeaf c = true) :
    entryOf c = .mk "self" c.segment.al [] false := by
  rw [entryOf, if_pos h]

theorem entryOf_named {c : UseTree} (hs : selfLeaf c = false)
    (hg : c.isGlob = false) :
    entryOf c = insFold (.mk c.segment.name none [] false)
      (expandToFlatImports c [] []) := by
  rw [entryOf, if_neg (by simp [hs]), if_neg (by simp [hg])]

theorem any_map {α β : Type} (l : List α) (f : α → β) (p : β → Bool) :
    (l.map f).any p = l.any fun x => p (f x) := by
  induction l with
  | nil => rfl
  | cons a r ih => simp [List.any_cons, ih]

theorem any_congr {α : Type} {l : List α} {p q : α → Bool}
    (h : ∀ x ∈ l, p x = q x) : l.any p = l.any q := by
  induction l with
  | nil => rfl
  | cons a r ih =>
      simp only [List.any_cons]
      rw [h a (by simp), ih (fun x hx => h x (by simp [hx]))]

theorem nodup_map_inj {α β : Type} {l : List α} {f : α → β}
    (h : (l.map f).Nodup) {a b : α} (ha : a ∈ l) (hb : b ∈ l)
    (hf : f a = f b) : a = b := by
  induction l with
  | nil => simp at ha
  | cons x r ih =>
      simp only [List.map_cons, List.nodup_cons] at h
      rcases List.mem_cons.mp ha with rfl | ha2 <;>
        rcases List.mem_cons.mp hb with rfl | hb2
      · rfl
      · exact absurd (hf ▸ List.mem_map_of_mem f hb2) h.1
      · exact absurd (hf ▸ List.mem_map_of_mem f ha2) h.1
      · exact ih h.2 ha2 hb2

theorem isEmpty_map {α β : Type} (l : List α) (f : α → β) :
    (l.map f).isEmpty = l.isEmpty := by
  cases l <;> rfl

theorem namedC_iff {c : UseTree} :
    namedC c = true ↔ (selfLeaf c = false ∧ c.isGlob = false) := by
  simp [namedC, Bool.and_eq_true, Bool.not_eq_true']

theorem mem_mapped_iff (cs : List UseTree) (k : UseTree) :
    (k ∈ (sortByCmp (fun a b => localeCompare a.nameOf b.nameOf)
        ((cs.filter namedC).map entryOf)).map nodeToUseTree) ↔
      (∃ c ∈ cs, selfLeaf c = false ∧ c.isGlob = false ∧
        k = nodeToUseTree (entryOf c)) := by
  rw [List.mem_map]
  constructor
  · rintro ⟨o, ho, rfl⟩
    have ho2 : o ∈ (cs.filter namedC).map entryOf := mem_of_mem_sortByCmp ho
    obtain ⟨c, hcf, rfl⟩ := List.mem_map.mp ho2
    obtain ⟨hc, hnc⟩ := List.mem_filter.mp hcf
    obtain ⟨hs, hg⟩ := namedC_iff.mp hnc
    exact ⟨c, hc, hs, hg, rfl⟩
  · rintro ⟨c, hc, hs, hg, rfl⟩
    refine ⟨entryOf c, ?_, rfl⟩
    have hm : entryOf c ∈ (cs.filter namedC).map entryOf :=
      List.mem_map_of_mem _
        (List.mem_filter.mpr ⟨hc, namedC_iff.mpr ⟨hs, hg⟩⟩)
    exact ((sortByCmp_perm _ _).mem_iff).mpr hm

theorem find_self_none {cs : List UseTree} (hcls : ∀ c ∈ cs, classedC c)
    (hfind : (cs.find? fun c => keyOf c = "self") = none) :
    ∀ c ∈ cs, selfLeaf c = false := by
  intro c hc
  have hx := List.find?_eq_none.mp hfind c hc
  simp only [decide_eq_true_eq] at hx
  by_cases hs : selfLeaf c = true
  · exact absurd ((keyOf_self_iff (hcls c hc)).mpr hs) hx
  · simpa using hs

theorem find_self_some {cs : List UseTree} {sc : UseTree}
    (hcls : ∀ c ∈ cs, classedC c)
    (hfind : (cs.find? fun c => keyOf c = "self") = some sc) :
    sc ∈ cs ∧ selfLeaf sc = true := by
  have hm := List.mem_of_find?_eq_some hfind
  have hk := List.find?_some hfind
  simp only [decide_eq_true_eq] at hk
  exact ⟨hm, (keyOf_self_iff (hcls sc hm)).mp hk⟩

theorem self_disjunct_some {cs : List UseTree} {sc : UseTree}
    (hcls : ∀ c ∈ cs, classedC c) (hnd : (cs.map keyOf).Nodup)
    (hfind : (cs.find? fun c => keyOf c = "self") = some sc) (k : UseTree) :
    (∃ c ∈ cs, selfLeaf c = true ∧
      k = UseTree.mk { name := "self", al := c.segment.al } none false false) ↔
    k = UseTree.mk { name := "self", al := sc.segment.al } none false false := by
  obtain ⟨hscm, hscs⟩ := find_self_some hcls hfind
  constructor
  · rintro ⟨c, hc, hcs, rfl⟩
    have : c = sc := by
      refine nodup_map_inj hnd hc hscm ?_
      rw [(keyOf_self_iff (hcls c hc)).mpr hcs,
        (keyOf_self_iff (hcls sc hscm)).mpr hscs]
    rw [this]
  · rintro rfl
    exact ⟨sc, hscm, hscs, rfl⟩

theorem lone_self_contra {cs : List UseTree} {sc : UseTree}
    (hcls : ∀ c ∈ cs, classedC c) (hnd : (cs.map keyOf).Nodup)
    (hlone : ∀ c, cs = [c] → selfLeaf c = false) (hne : cs ≠ [])
    (hfind : (cs.find? fun c => keyOf c = "self") = some sc)
    (hoe : (cs.filter namedC).isEmpty = true)
    (hany : (cs.any fun c => c.isGlob) = false) : False := by
  have hfo : cs.filter namedC = [] := by
    simpa [List.isEmpty_iff] using hoe
  have hnog : ∀ c ∈ cs, c.isGlob = false := by
    intro c hc
    by_cases hg : c.isGlob = true
    · have hx : cs.any (fun c => c.isGlob) = true := List.any_eq_true.mpr ⟨c, hc, hg⟩
      rw [hany] at hx
      cases hx
    · simpa using hg
  have hallself : ∀ c ∈ cs, selfLeaf c = true := by
    intro c hc
    rcases hcls c hc with h | h | ⟨hn, hg, hgood⟩
    · exact h
    · have hcg : c.isGlob = true := by
        simp only [globLeaf, Bool.and_eq_true] at h
        exact h.1
      rw [hnog c hc] at hcg
      cases hcg
    · have hsl : selfLeaf c = false := by
        simp only [selfLeaf]
        simp [hn]
      have hnc : namedC c = true := namedC_iff.mpr ⟨hsl, hg⟩
      have hx : c ∈ cs.filter namedC := List.mem_filter.mpr ⟨hc, hnc⟩
      rw [hfo] at hx
      cases hx
  cases cs with
  | nil => exact hne rfl
  | cons c0 rest =>
      cases rest with
      | nil =>
          have hx := hlone c0 rfl
          rw [hallself c0 (by simp)] at hx
          cases hx
      | cons c1 r2 =>
          have h0 := hallself c0 (by simp)
          have h1 := hallself c1 (by simp)
          have hk0 := (keyOf_self_iff (hcls c0 (by simp))).mpr h0
          have hk1 := (keyOf_self_iff (hcls c1 (by simp))).mpr h1
          simp only [List.map_cons, List.nodup_cons] at hnd
          exact hnd.1 (by simp [hk0, hk1])

/-- Evaluation of `nodeToUseTree` on the root trie built from a
well-formed child list: a plain node whose children are the self leaf (if
any), the rebuilt named children, and the glob leaf (if any). -/
theorem nodeToUseTree_entries (name : String) (cs : List UseTree)
    (hcls : ∀ c ∈ cs, classedC c)
    (hnd : (cs.map keyOf).Nodup)
    (hlone : ∀ c, cs = [c] → selfLeaf c = false)
    (hne : cs ≠ []) :
    ∃ kids : List UseTree, kids ≠ [] ∧
      nodeToUseTree (.mk name none (cs.map fun c => (keyOf c, entryOf c)) false) =
        UseTree.mk { name := name } (some kids) false false ∧
      ∀ k, k ∈ kids ↔
        ((∃ c ∈ cs, selfLeaf c = true ∧
            k = UseTree.mk { name := "self", al := c.segment.al } none false false) ∨
         (∃ c ∈ cs, selfLeaf c = false ∧ c.isGlob = false ∧
            k = nodeToUseTree (entryOf c)) ∨
         ((∃ c ∈ cs, c.isGlob = true) ∧
            k = UseTree.mk { name := "*" } none true false)) := by
  have hterm : alistGet (cs.map fun c => (keyOf c, entryOf c)) "" = none := by
    rw [alistGet_map]
    rw [List.find?_eq_none.mpr ?nok]
    · rfl
    case nok =>
      intro c hc
      simp only [decide_eq_true_eq]
      rcases hcls c hc with h | h | ⟨hn, hg, hgood⟩
      · rw [(keyOf_self_iff (hcls c hc)).mpr h]
        simp
      · rw [keyOf, if_pos (by simp only [globLeaf, Bool.and_eq_true] at h; exact h.1)]
        simp
      · rw [keyOf, if_neg (by simp [hg])]
        exact (goodName_facts hgood).1
  have hselff : alistGet (cs.map fun c => (keyOf c, entryOf c)) "self" =
      (cs.find? fun c => keyOf c = "self").map entryOf :=
    alistGet_map cs keyOf entryOf "self"
  have hothers : ((cs.map fun c => (keyOf c, entryOf c)).filter fun p =>
        ¬(p.1 = "" ∨ p.1 = "self") ∧ p.2.isGlobOf = false).map Prod.snd =
      (cs.filter namedC).map entryOf := by
    rw [List.filter_map, List.filter_congr (q := namedC) ?pw, List.map_map]
    · rfl
    case pw =>
      intro c hc
      simp only [Function.comp_apply]
      rw [Bool.decide_and]
      exact entry_pred_named (hcls c hc)
  have hglobany : ((cs.map fun c => (keyOf c, entryOf c)).any fun p =>
        decide (¬(p.1 = "" ∨ p.1 = "self")) && p.2.isGlobOf) =
      cs.any fun c => c.isGlob := by
    rw [any_map]
    exact any_congr (fun c hc => entry_glob_pred (hcls c hc))
  have hmapne : ((cs.map fun c => (keyOf c, entryOf c)).isEmpty) = false := by
    rw [isEmpty_map]
    cases cs with
    | nil => exact absurd rfl hne
    | cons a r => rfl
  rw [nodeToUseTree.eq_def]
  simp only [List.attach_map_val, hterm, hselff, hothers, hglobany, hmapne,
    Option.isSome_none, Option.isNone_none, Bool.false_eq_true, if_false,
    false_and, and_true, true_and, and_false, Option.isSome_map', isEmpty_map]
  cases hfind : (cs.find? fun c => keyOf c = "self") with
  | none =>
      have hnoself := find_self_none hcls hfind
      cases hany : (cs.any fun c => c.isGlob) with
      | false =>
          have hfne : cs.filter namedC ≠ [] := by
            cases cs with
            | nil => exact absurd rfl hne
            | cons c0 rest =>
                have hs0 := hnoself c0 (by simp)
                have hg0 : c0.isGlob = false := by
                  by_cases hg : c0.isGlob = true
                  · have hx : (c0 :: rest).any (fun c => c.isGlob) = true :=
                      List.any_eq_true.mpr ⟨c0, by simp, hg⟩
                    rw [hany] at hx
                    cases hx
                  · simpa using hg
                intro hcon
                have : c0 ∈ (c0 :: rest).filter namedC :=
                  List.mem_filter.mpr ⟨by simp, namedC_iff.mpr ⟨hs0, hg0⟩⟩
                rw [hcon] at this
                cases this
          have hMne : (sortByCmp (fun a b => localeCompare a.nameOf b.nameOf)
              ((cs.filter namedC).map entryOf)) ≠ [] := by
            intro hcon
            have hp := sortByCmp_perm (fun a b => localeCompare a.nameOf b.nameOf)
              ((cs.filter namedC).map entryOf)
            rw [hcon] at hp
            exact hfne (List.map_eq_nil_iff.mp hp.symm.eq_nil)
          have hMe : (sortByCmp (fun a b => localeCompare a.nameOf b.nameOf)
              ((cs.filter namedC).map entryOf)).isEmpty = false := by
            rcases hx : sortByCmp (fun a b => localeCompare a.nameOf b.nameOf)
                ((cs.filter namedC).map entryOf) with _ | ⟨a, r⟩
            · exact absurd hx hMne
            · rw [hx]
              rfl
          simp only [Option.isSome_none, Option.map_none', Bool.false_eq_true,
            if_false, false_and, and_false, false_or, or_false, List.nil_append,
            List.append_nil, isEmpty_map, hMe]
          refine ⟨_, ?_, rfl, ?_⟩
          · intro hcon
            exact hMne (List.map_eq_nil_iff.mp hcon)
          · intro k
            rw [mem_mapped_iff]
            constructor
            · intro h
              exact Or.inr (Or.inl h)
            · rintro (⟨c, hc, hcs, rfl⟩ | h | ⟨⟨c, hc, hcg⟩, rfl⟩)
              · rw [hnoself c hc] at hcs
                cases hcs
              · exact h
              · have hx : cs.any (fun c => c.isGlob) = true :=
                  List.any_eq_true.mpr ⟨c, hc, hcg⟩
                rw [hany] at hx
                cases hx
      | true =>
          have hap : ∀ (l : List UseTree) (x : UseTree), (l ++ [x]).isEmpty = false := by
            intro l x
            cases l <;> rfl
          simp only [Option.isSome_none, Option.map_none', Bool.false_eq_true,
            Bool.true_eq_false, if_false, if_true, false_and, and_false,
            false_or, or_false, List.nil_append, List.append_nil, hap]
          refine ⟨_, by simp, rfl, ?_⟩
          intro k
          simp only [List.mem_append, List.mem_singleton]
          rw [mem_mapped_iff]
          obtain ⟨cg, hcg, hcgg⟩ := List.any_eq_true.mp hany
          constructor
          · rintro (h | rfl)
            · exact Or.inr (Or.inl h)
            · exact Or.inr (Or.inr ⟨⟨cg, hcg, hcgg⟩, rfl⟩)
          · rintro (⟨c, hc, hcs, rfl⟩ | h | ⟨-, rfl⟩)
            · rw [hnoself c hc] at hcs
              cases hcs
            · exact Or.inl h
            · exact Or.inr rfl
  | some sc =>
      obtain ⟨hscm, hscs⟩ := find_self_some hcls hfind
      have hesc : entryOf sc = .mk "self" sc.segment.al [] false :=
        entryOf_selfLeaf hscs
      cases hany : (cs.any fun c => c.isGlob) with
      | true =>
          simp only [Option.map_some', Option.isSome_some, Bool.true_eq_false,
            Bool.false_eq_true, if_false, if_true, true_or, true_and,
            and_false, false_and, hesc, TreeNode.alOf, opt_if_isSome]
          refine ⟨_, by simp, rfl, ?_⟩
          intro k
          simp only [List.mem_append, List.mem_cons, List.mem_singleton,
            List.not_mem_nil, or_false]
          rw [mem_mapped_iff]
          obtain ⟨cg, hcg, hcgg⟩ := List.any_eq_true.mp hany
          rw [show (∃ c ∈ cs, selfLeaf c = true ∧
              k = UseTree.mk { name := "self", al := c.segment.al } none false false) ↔
              k = UseTree.mk { name := "self", al := sc.segment.al } none false false
            from self_disjunct_some hcls hnd hfind k]
          constructor
          · rintro ((rfl | h) | rfl)
            · exact Or.inl rfl
            · exact Or.inr (Or.inl h)
            · exact Or.inr (Or.inr ⟨⟨cg, hcg, hcgg⟩, rfl⟩)
          · rintro (rfl | h | ⟨-, rfl⟩)
            · exact Or.inl (Or.inl rfl)
            · exact Or.inl (Or.inr h)
            · exact Or.inr rfl
      | false =>
          cases hoe : (cs.filter namedC).isEmpty with
          | true => exact absurd (lone_self_contra hcls hnd hlone hne hfind hoe hany) id
          | false =>
              simp only [Option.map_some', Option.isSome_some, Bool.true_eq_false,
                Bool.false_eq_true, if_false, if_true, true_or, true_and,
                and_false, false_and, and_true, hoe, hesc, TreeNode.alOf,
                opt_if_isSome, List.append_nil]
              refine ⟨_, by simp, rfl, ?_⟩
              intro k
              simp only [List.mem_append, List.mem_cons, List.mem_singleton,
                List.not_mem_nil, or_false]
              rw [mem_mapped_iff]
              rw [show (∃ c ∈ cs, selfLeaf c = true ∧
                  k = UseTree.mk { name := "self", al := c.segment.al } none false false) ↔
                  k = UseTree.mk { name := "self", al := sc.segment.al } none false false
                from self_disjunct_some hcls hnd hfind k]
              constructor
              · rintro (rfl | h)
                · exact Or.inl rfl
                · exact Or.inr (Or.inl h)
              · rintro (rfl | h | ⟨⟨c, hc, hcg⟩, rfl⟩)
                · exact Or.inl rfl
                · exact Or.inr h
                · have hx : cs.any (fun c => c.isGlob) = true :=
                    List.any_eq_true.mpr ⟨c, hc, hcg⟩
                  rw [hany] at hx
                  cases hx


/-- The path/alias/glob projection of a tree's expansion; the roundtrip is
stated over this set (spans vary with position and are excluded). -/
def psetOf (t : UseTree) : List (List String × Option String × Bool) :=
  (expandToFlatImports t [] []).map projFI

theorem isEmpty_false_of_ne_nil {α : Type} {l : List α} (h : l ≠ []) :
    l.isEmpty = false := by
  cases l with
  | nil => exact absurd rfl h
  | cons a r => rfl

theorem pset_self {c : UseTree} (h : selfLeaf c = true) :
    psetOf c = [(["self"], c.segment.al, false)] := by
  have hx := selfLeaf_expand h [] []
  simpa [psetOf] using hx

theorem pset_glob {c : UseTree} (h : globLeaf c = true) :
    psetOf c = [(["*"], none, true)] := by
  have hx := globLeaf_expand h [] []
  simpa [psetOf] using hx

/-- The trie node obtained from a single terminal-marked flat path. -/
theorem nodeToUseTree_terminal (nm : String) (a : Option String) :
    nodeToUseTree (.mk nm none [("", .mk "" a [] false)] false) =
      UseTree.mk { name := nm, al := a } none false false := by
  rw [nodeToUseTree.eq_def]
  cases a <;>
    simp [alistGet, TreeNode.alOf, TreeNode.isGlobOf]

/-- Building from a single terminal-marked flat import. -/
theorem build_terminal (nm : String) (a : Option String) (sp : List Rng) :
    buildUseTree [{ path := [nm, ""], al := a, spans := sp }] =
      some (UseTree.mk { name := nm, al := a } none false false) := by
  have h1 : TreeNode.insertSegs (.mk nm none [] false) [""] a false =
      .mk nm none [("", .mk "" a [] false)] false := by
    rw [insertSegs_eq]
    simp only [alistGet, Option.getD_none, childUpd, TreeNode.nameOf,
      TreeNode.alOf, TreeNode.childrenOf, TreeNode.isGlobOf, opt_if_isSome,
      Bool.or_false, alistSet]
  simp only [buildUseTree, List.foldl_cons, List.foldl_nil, applyImport,
    List.headD_cons, List.length_cons, List.length_nil, List.tail_cons]
  norm_num
  rw [h1, nodeToUseTree_terminal]

/-- Expansion of a named node with no (or empty) children: a single
terminal-marked flat import. -/
theorem expand_terminal (seg : UsePathSegment) (slf : Bool)
    (hns : ¬ seg.name = "self") :
    ∃ sp, expandToFlatImports (.mk seg none false slf) [] [] =
        [{ path := [seg.name, ""], al := seg.al, spans := sp }] ∧
      expandToFlatImports (.mk seg (some []) false slf) [] [] =
        [{ path := [seg.name, ""], al := seg.al, spans := sp }] := by
  obtain ⟨nmS, alS, rngS⟩ := seg
  simp only [UsePathSegment.name] at hns
  cases rngS with
  | none =>
      refine ⟨[], ?_, ?_⟩ <;> · rw [expandToFlatImports]; simp [hns]
  | some r =>
      refine ⟨[r], ?_, ?_⟩ <;> · rw [expandToFlatImports]; simp [hns]

theorem build_terminal_none (seg : UsePathSegment) (slf : Bool)
    (hns : ¬ seg.name = "self") :
    buildUseTree (expandToFlatImports (.mk seg none false slf) [] []) =
      some (UseTree.mk { name := seg.name, al := seg.al } none false false) := by
  obtain ⟨sp, h1, h2⟩ := expand_terminal seg slf hns
  rw [h1, build_terminal]

theorem build_terminal_emp (seg : UsePathSegment) (slf : Bool)
    (hns : ¬ seg.name = "self") :
    buildUseTree (expandToFlatImports (.mk seg (some []) false slf) [] []) =
      some (UseTree.mk { name := seg.name, al := seg.al } none false false) := by
  obtain ⟨sp, h1, h2⟩ := expand_terminal seg slf hns
  rw [h2, build_terminal]

theorem pset_terminal (seg : UsePathSegment) (slf : Bool)
    (hns : ¬ seg.name = "self") :
    psetOf (.mk seg none false slf) = [([seg.name, ""], seg.al, false)] ∧
    psetOf (.mk seg (some []) false slf) = [([seg.name, ""], seg.al, false)] := by
  obtain ⟨sp, h1, h2⟩ := expand_terminal seg slf hns
  refine ⟨?_, ?_⟩
  · simp only [psetOf]
    rw [h1]
    simp [projFI]
  · simp only [psetOf]
    rw [h2]
    simp [projFI]

/-- The projection set of a node with children: each child's projection
set with the node's name prepended. -/
theorem pset_children (seg : UsePathSegment) (cs : List UseTree) (slf : Bool)
    (hns : ¬ seg.name = "self") (hne : cs.isEmpty = false) :
    psetOf (.mk seg (some cs) false slf) =
      cs.flatMap fun c => (psetOf c).map fun q =>
        (seg.name :: q.1, q.2.1, q.2.2) := by
  simp only [psetOf]
  rw [expandToFlatImports]
  rw [if_neg hns, if_neg (by simp : ¬ false = true)]
  simp only [hne, Bool.false_eq_true, if_false, List.nil_append]
  rw [List.map_flatMap]
  rw [flatMap_attach cs (fun c => (expandToFlatImports c [seg.name]
    (match seg.range with | some r => [r] | none => [])).map projFI)]
  refine List.flatMap_congr ?_
  intro c hc
  rw [expand_proj, List.map_map]
  rfl

/-- Building the expansion of any named non-glob node computes the trie
entry of that node and rebuilds from it. -/
theorem build_named {c : UseTree} (hns : ¬ c.segment.name = "self")
    (hg : c.isGlob = false) :
    buildUseTree (expandToFlatImports c [] []) =
      some (nodeToUseTree (entryOf c)) := by
  obtain ⟨e0, erest, hexp⟩ := List.exists_cons_of_ne_nil (expand_ne_nil c [] [])
  have hsh := expand_named_shape c hns hg
  have hsl : selfLeaf c = false := by
    simp [selfLeaf, hns]
  have hroot : e0.path.headD "" = c.segment.name := by
    obtain ⟨r, hr, hrne⟩ := hsh e0 (by rw [hexp]; simp)
    rw [hr]
    rfl
  have hlen : ∀ f ∈ expandToFlatImports c [] [], ¬ f.path.length = 1 := by
    intro f hf
    obtain ⟨r, hr, hrne⟩ := hsh f hf
    rw [hr]
    cases r with
    | nil => exact absurd rfl hrne
    | cons x xs => simp
  have hbuild : buildUseTree (expandToFlatImports c [] []) =
      some (nodeToUseTree (insFold (.mk c.segment.name none [] false)
        (expandToFlatImports c [] []))) := by
    conv_lhs => rw [hexp]
    simp only [buildUseTree]
    rw [hroot]
    rw [foldl_applyImport_eq (e0 :: erest) _ (by rw [← hexp]; exact hlen)]
    rw [← hexp]
  rw [hbuild]
  simp only [entryOf, hsl, hg, Bool.false_eq_true, if_false]

/-- Children of a well-formed node: `self` leaf, glob, or themselves
well-formed. -/
theorem wf_children_strong {seg : UsePathSegment} {cs : List UseTree}
    {glob slf : Bool} (h : wfTree (.mk seg (some cs) glob slf) = true) :
    ∀ c ∈ cs, selfLeaf c = true ∨ globLeaf c = true ∨ wfTree c = true := by
  rw [wfTree.eq_def] at h
  simp only [Bool.and_eq_true, Bool.not_eq_true', decide_eq_true_eq] at h
  obtain ⟨⟨hgn, hgl⟩, ⟨hnd, hlone⟩, hall⟩ := h
  intro c hc
  have hx : (selfLeaf c = true ∨ globLeaf c = true) ∨ wfTree c = true := by
    simpa using List.all_eq_true.mp hall ⟨c, hc⟩ (List.mem_attach cs ⟨c, hc⟩)
  tauto

theorem globLeaf_of_isGlob {c : UseTree} (hc : classedC c)
    (hg : c.isGlob = true) : globLeaf c = true := by
  rcases hc with h | h | ⟨hn, hgf, hgood⟩
  · simp only [selfLeaf, Bool.and_eq_true, Bool.not_eq_true'] at h
    rw [h.2] at hg
    exact Bool.noConfusion hg
  · exact h
  · rw [hgf] at hg
    exact Bool.noConfusion hg

/-- Roundtrip by strong induction on tree size: rebuilding the expansion
of a well-formed tree succeeds and preserves the path/alias/glob
projection set. -/
theorem build_roundtrip_aux : ∀ (n : Nat) (t : UseTree), sizeOf t ≤ n →
    wfTree t = true →
    ∃ t', buildUseTree (expandToFlatImports t [] []) = some t' ∧
      ∀ x, x ∈ psetOf t' ↔ x ∈ psetOf t := by
  intro n
  induction n with
  | zero =>
      intro t hle hwf
      obtain ⟨seg, children, glob, slf⟩ := t
      simp only [UseTree.mk.sizeOf_spec] at hle
      omega
  | succ n ih =>
      intro t hle hwf
      obtain ⟨seg, children, glob, slf⟩ := t
      have hnf := wf_named_facts hwf
      have hns : ¬ seg.name = "self" := by
        simpa [UseTree.segment] using hnf.1
      have hg : glob = false := by
        simpa [UseTree.isGlob] using hnf.2.1
      subst hg
      cases children with
      | none =>
          refine ⟨_, build_terminal_none seg slf hns, ?_⟩
          intro x
          rw [(pset_terminal seg slf hns).1,
            (pset_terminal { name := seg.name, al := seg.al } false hns).1]
      | some cs =>
          by_cases hcsnil : cs = []
          · subst hcsnil
            refine ⟨_, build_terminal_emp seg slf hns, ?_⟩
            intro x
            rw [(pset_terminal seg slf hns).2,
              (pset_terminal { name := seg.name, al := seg.al } false hns).1]
          · obtain ⟨hgn, hgl, hnd, hlone, hcls⟩ := wf_destruct hwf
            have hstrong := wf_children_strong hwf
            simp only [UseTree.mk.sizeOf_spec, Option.some.sizeOf_spec] at hle
            have hrecn : ∀ c, c ∈ cs → wfTree c = true →
                ∀ x, x ∈ psetOf (nodeToUseTree (entryOf c)) ↔ x ∈ psetOf c := by
              intro c hc hwfc
              have hszc : sizeOf c ≤ n := by
                have h1 := sizeOf_lt_of_mem_children hc
                omega
              obtain ⟨c', hb', hiff⟩ := ih c hszc hwfc
              have hfc := wf_named_facts hwfc
              have hbn := build_named hfc.1 hfc.2.1
              rw [hbn] at hb'
              have he := Option.some.inj hb'
              subst he
              exact hiff
            have hb := build_named (c := .mk seg (some cs) false slf)
              (by simpa [UseTree.segment] using hns) (by simp [UseTree.isGlob])
            have hsl : selfLeaf (.mk seg (some cs) false slf) = false := by
              simp [selfLeaf, UseTree.segment, hns]
            have hent : entryOf (.mk seg (some cs) false slf) =
                insFold (.mk seg.name none [] false)
                  (expandToFlatImports (.mk seg (some cs) false slf) [] []) := by
              simp only [entryOf, hsl, Bool.false_eq_true, if_false,
                UseTree.isGlob, UseTree.segment]
            have hproj : (expandToFlatImports (.mk seg (some cs) false slf) [] []).map projFI =
                (cs.flatMap fun c =>
                  (expandToFlatImports c [] []).map (prefFI [seg.name])).map projFI := by
              have h1 := pset_children seg cs slf hns (isEmpty_false_of_ne_nil hcsnil)
              simp only [psetOf] at h1
              rw [h1, List.map_flatMap]
              refine List.flatMap_congr ?_
              intro c hc
              rw [List.map_map, List.map_map]
              rfl
            have hins := insFold_proj_eq _ _ hproj (.mk seg.name none [] false)
            have hroot := insFold_root seg.name cs seg.name none [] false
              (fun c hc => hcls c hc) hnd (fun c hc => by simp)
            obtain ⟨kids, hkne, hnode, hkids⟩ :=
              nodeToUseTree_entries seg.name cs hcls hnd hlone hcsnil
            refine ⟨UseTree.mk { name := seg.name } (some kids) false false, ?_, ?_⟩
            · rw [hb, hent, hins, hroot]
              simp only [List.nil_append]
              exact congrArg some hnode
            · intro x
              rw [pset_children seg cs slf hns (isEmpty_false_of_ne_nil hcsnil),
                pset_children { name := seg.name } kids false hns
                  (isEmpty_false_of_ne_nil hkne)]
              rw [List.mem_flatMap, List.mem_flatMap]
              constructor
              · rintro ⟨k, hk, hx⟩
                rcases (hkids k).mp hk with ⟨c, hc, hcs, rfl⟩ |
                  ⟨c, hc, hsf, hgf, rfl⟩ | ⟨⟨cg, hcg, hcgg⟩, rfl⟩
                · refine ⟨c, hc, ?_⟩
                  rw [pset_self (c := c) hcs]
                  rw [show psetOf (UseTree.mk { name := "self", al := c.segment.al }
                      none false false) = [(["self"], c.segment.al, false)] from
                    pset_self (by simp [selfLeaf, UseTree.segment, UseTree.children,
                      UseTree.isGlob])] at hx
                  exact hx
                · have hwfc : wfTree c = true := by
                    rcases hstrong c hc with h1 | h1 | h1
                    · rw [hsf] at h1
                      exact Bool.noConfusion h1
                    · simp only [globLeaf, hgf, Bool.false_and] at h1
                      exact Bool.noConfusion h1
                    · exact h1
                  refine ⟨c, hc, ?_⟩
                  obtain ⟨q, hq, rfl⟩ := List.mem_map.mp hx
                  exact List.mem_map_of_mem _ ((hrecn c hc hwfc q).mp hq)
                · have hglc : globLeaf cg = true := globLeaf_of_isGlob (hcls cg hcg) hcgg
                  refine ⟨cg, hcg, ?_⟩
                  rw [pset_glob hglc]
                  rw [show psetOf (UseTree.mk { name := "*" } none true false) =
                      [(["*"], none, true)] from pset_glob (by simp [globLeaf,
                      UseTree.segment, UseTree.isGlob])] at hx
                  exact hx
              · rintro ⟨c, hc, hx⟩
                rcases hstrong c hc with h1 | h1 | h1
                · refine ⟨UseTree.mk { name := "self", al := c.segment.al } none false false,
                    (hkids _).mpr (Or.inl ⟨c, hc, h1, rfl⟩), ?_⟩
                  rw [pset_self h1] at hx
                  rw [show psetOf (UseTree.mk { name := "self", al := c.segment.al }
                      none false false) = [(["self"], c.segment.al, false)] from
                    pset_self (by simp [selfLeaf, UseTree.segment, UseTree.children,
                      UseTree.isGlob])]
                  exact hx
                · have hcg : c.isGlob = true := by
                    simp only [globLeaf, Bool.and_eq_true] at h1
                    exact h1.1
                  refine ⟨UseTree.mk { name := "*" } none true false,
                    (hkids _).mpr (Or.inr (Or.inr ⟨⟨c, hc, hcg⟩, rfl⟩)), ?_⟩
                  rw [pset_glob h1] at hx
                  rw [show psetOf (UseTree.mk { name := "*" } none true false) =
                      [(["*"], none, true)] from pset_glob (by simp [globLeaf,
                      UseTree.segment, UseTree.isGlob])]
                  exact hx
                · have hfc := wf_named_facts h1
                  have hsf : selfLeaf c = false := by
                    simp [selfLeaf, hfc.1]
                  refine ⟨nodeToUseTree (entryOf c),
                    (hkids _).mpr (Or.inr (Or.inl ⟨c, hc, hsf, hfc.2.1, rfl⟩)), ?_⟩
                  obtain ⟨q, hq, rfl⟩ := List.mem_map.mp hx
                  exact List.mem_map_of_mem _ ((hrecn c hc h1 q).mpr hq)

theorem build_roundtrip (t : UseTree) (hwf : wfTree t = true) :
    ∃ t', buildUseTree (expandToFlatImports t [] []) = some t' ∧
      ∀ x, x ∈ psetOf t' ↔ x ∈ psetOf t :=
  build_roundtrip_aux (sizeOf t) t le_rfl hwf

/-! ## C3 -/

/-- A tree with a lone aliased `self` leaf: `use A::{self as R};`. -/
def loneSelfTree : UseTree :=
  .mk { name := "A" } (some [.mk { name := "self", al := some "R" } none false false])
    false false

/-- C3: counterexample — the claim's roundtrip fails on a tree with a lone
aliased `self` leaf (`use A::{self as R};`): its expansion is the single
flat import `A::self as R`, but the rebuild collapses the lone `self` child
into the root (`use A as R;`), which re-expands to the terminal-marked path
`A::` instead of `A::self`, so the flat-import sets differ. -/
theorem C3_counterexample :
    ∃ t', buildUseTree (expandToFlatImports loneSelfTree [] []) = some t' ∧
      ¬ (∀ x, x ∈ psetOf t' ↔ x ∈ psetOf loneSelfTree) := by
  refine ⟨UseTree.mk { name := "A", al := some "R" } none false false, ?_, ?_⟩
  · simp +decide [loneSelfTree, expandToFlatImports, buildUseTree, applyImport,
      TreeNode.insertSegs, nodeToUseTree, alistGet, alistSet, sortByCmp,
      insertSorted, localeCompare, TreeNode.nameOf, TreeNode.alOf,
      TreeNode.childrenOf, TreeNode.isGlobOf, List.attach_map_val]
  · intro h
    have hmem : ((["A", "self"], some "R", false) :
        List String × Option String × Bool) ∈ psetOf loneSelfTree := by
      simp +decide [psetOf, loneSelfTree, expandToFlatImports, projFI,
        List.attach_map_val]
    have hx := (h _).mpr hmem
    simp +decide [psetOf, expandToFlatImports, projFI] at hx

/-- C3 (amended): `buildUseTree` accepts every non-empty flat-import list,
and the flatten/rebuild/flatten roundtrip preserves the set of flat imports
(paths, aliases and glob flags; spans excepted) for well-formed trees:
named non-glob nodes whose children have pairwise distinct trie keys, no
lone `self` child, and each child a `self` leaf, a glob, or itself
well-formed. It is NOT the exact structural inverse on all trees: a lone
aliased `self` leaf (`use A::{self as R};`) rebuilds to `use A as R;`,
whose expansion is the terminal-marked path instead of the `self` path. -/
theorem C3_amended_thm :
    (∀ imports : List FlatImport, imports ≠ [] →
      ∃ t, buildUseTree imports = some t) ∧
    (∀ t : UseTree, wfTree t = true →
      ∃ t', buildUseTree (expandToFlatImports t [] []) = some t' ∧
        ∀ x, x ∈ psetOf t' ↔ x ∈ psetOf t) := by
  constructor
  · intro imports hne
    obtain ⟨i0, rest, rfl⟩ := List.exists_cons_of_ne_nil hne
    exact ⟨_, rfl⟩
  · exact build_roundtrip

/-- A concrete well-formed tree exercising all three child shapes:
`use A::{self as S, B, *};`. -/
def wfWitnessTree : UseTree :=
  .mk { name := "A" } (some
    [.mk { name := "self", al := some "S" } none false false,
     .mk { name := "B" } none false false,
     .mk { name := "x" } none true false]) false false

/-- C3: witness — the amended theorem applied to a concrete non-empty
flat-import list and to a concrete well-formed tree with a `self` leaf, a
plain leaf and a glob child. -/
theorem C3_witness :
    (([{ path := ["z"] }] : List FlatImport) ≠ [] ∧
      ∃ t, buildUseTree [{ path := ["z"] }] = some t) ∧
    (wfTree wfWitnessTree = true ∧
      ∃ t', buildUseTree (expandToFlatImports wfWitnessTree [] []) = some t' ∧
        ∀ x, x ∈ psetOf t' ↔ x ∈ psetOf wfWitnessTree) := by
  have h1 : ([{ path := ["z"] }] : List FlatImport) ≠ [] := by simp
  have h2 : wfTree wfWitnessTree = true := by
    simp +decide [wfWitnessTree, wfTree, goodName, keyOf, selfLeaf, globLeaf,
      UseTree.segment, UseTree.children, UseTree.isGlob, List.attach_map_val]
  exact ⟨⟨h1, C3_amended_thm.1 _ h1⟩, ⟨h2, C3_amended_thm.2 _ h2⟩⟩

end RustImport
